import Mathlib

/-!
Verification of cppsort

A shallow embedding of the sorting library (`heap.cpp`, `quick.cpp`,
`common.cpp`, `managed_dynamic_array.cpp`) together with proofs of the
properties stated for it.

Modelling conventions

* Element type `T = int`: element values are only compared and copied, never
  used in arithmetic, so they are modelled as `Int`.
* Index type `int`: indices and sizes are modelled as `Int` without
  wrap-around; the index arithmetic of the source (`2 * i + 1`, `size + 1`)
  stays below `2^31` for every buffer of fewer than `2^30` elements.
* A buffer (`std::span<T>`, `std::unique_ptr<T[]>`) is a `List Int`.  An indexed
  access outside the allocated slots is undefined behaviour in the source; the
  model makes it an explicit `Fault.out_of_bounds` carrying the offending index.
* Recursive member functions take a `fuel` argument bounding the call depth,
  and loops whose condition depends on the data take one bounding the number
  of iterations; running out of fuel is the distinct `Fault.out_of_fuel`, so a
  result `Except.ok _` always means that the source call returned.
* A thrown `std::runtime_error` is `Fault.runtime_error`, a failed allocation
  `Fault.bad_alloc`.
* A `Sorter<T>` reference (the fallback of merge sort) is its virtual `sort`,
  a function from the array before the call to the array after it.
* A `HeapNode` holds a reference to its heap; in the model the heap is passed
  explicitly as state and the node is its index.
-/

namespace CppSort

/-! ## Faults -/

/-- The ways a modelled call can fail to return a value. -/
inductive Fault where
  | out_of_bounds (idx : Int)
  | out_of_fuel
  | assertion_failed
  | runtime_error
  | bad_alloc
  deriving DecidableEq, Repr

deriving instance DecidableEq for Except

/-! ## Raw buffers -/

/-- Read of `data[idx]` where `idx` is converted to `size_t`: a negative index
becomes a huge unsigned one and is out of bounds like any index past the end. -/
def index_read (data : List Int) (idx : Int) : Except Fault Int :=
  if 0 ≤ idx then
    match data[idx.toNat]? with
    | some v => .ok v
    | none => .error (.out_of_bounds idx)
  else .error (.out_of_bounds idx)

/-- Write `data[idx] = v`. -/
def index_write (data : List Int) (idx : Int) (v : Int) : Except Fault (List Int) :=
  if 0 ≤ idx ∧ idx.toNat < data.length then .ok (data.set idx.toNat v)
  else .error (.out_of_bounds idx)

/-! ## Counted loops -/

/-- Counted loop `for (int i = lo; i < hi; ++i) body` whose body neither
assigns `i` nor changes `hi`: the body runs for `i = lo, lo + 1, ..., hi - 1`. -/
def for_loop {σ : Type} (lo hi : Int) (body : Int → σ → Except Fault σ) (s : σ) :
    Except Fault σ :=
  (List.range (hi - lo).toNat).foldlM (fun (st : σ) (k : Nat) => body (lo + (k : Int)) st) s

/-- Counted loop `for (int i = start; i > stop; --i) body` whose body neither
assigns `i` nor changes `stop`: the body runs for `i = start, start - 1, ...,
stop + 1`. -/
def for_loop_down {σ : Type} (start stop : Int) (body : Int → σ → Except Fault σ)
    (s : σ) : Except Fault σ :=
  (List.range (start - stop).toNat).foldlM
    (fun (st : σ) (k : Nat) => body (start - (k : Int)) st) s

/-! ## managed_dynamic_array.cpp -/

/-- `ManagedDynamicArray<int>`: the owned buffer `data_` and its element count
`size_` (`num_bytes_` is `sizeof(T) * size_`). -/
structure ManagedDynamicArray where
  data_ : List Int
  size_ : Int
  deriving DecidableEq, Repr

/-- `ManagedDynamicArray(int size)`: `std::make_unique<T[]>(size)` allocates
`size` value-initialised (zero) elements. -/
def ManagedDynamicArray.new (size : Nat) : ManagedDynamicArray :=
  { data_ := List.replicate size 0, size_ := size }

/-- `operator[](size_t idx) const`: no bounds check in the source. -/
def ManagedDynamicArray.get (a : ManagedDynamicArray) (idx : Int) : Except Fault Int :=
  index_read a.data_ idx

/-- `operator[](size_t idx)` used as an assignment target. -/
def ManagedDynamicArray.set (a : ManagedDynamicArray) (idx : Int) (v : Int) :
    Except Fault ManagedDynamicArray :=
  match index_write a.data_ idx v with
  | .ok d => .ok { a with data_ := d }
  | .error e => .error e

/-- `memcpy(dst, src + off, sizeof(T) * count)` on two distinct buffers: the
first `count` elements of `dst` become `src[off .. off + count)`.  The call is
undefined when a range leaves its buffer; a negative `count` converts to a
huge `size_t`, so the copy then runs past both buffers. -/
def memcpy (dst src : List Int) (off count : Int) : Except Fault (List Int) :=
  if count < 0 then .error (.out_of_bounds count)
  else if off < 0 then .error (.out_of_bounds off)
  else if (src.length : Int) < off + count then .error (.out_of_bounds (src.length : Int))
  else if (dst.length : Int) < count then .error (.out_of_bounds (dst.length : Int))
  else .ok ((src.drop off.toNat).take count.toNat ++ dst.drop count.toNat)

/-- `copy_from(const T * src, int num_elements)`; the pointer is the buffer
`src` together with an element offset `off` into it. -/
def ManagedDynamicArray.copy_from (a : ManagedDynamicArray) (src : List Int) (off : Int)
    (num_elements : Int) : Except Fault ManagedDynamicArray :=
  if num_elements > a.size_ then .error .runtime_error
  else
    match memcpy a.data_ src off num_elements with
    | .ok d => .ok { a with data_ := d }
    | .error e => .error e

/-- `as_slice_from(std::span<T> & src, int start_idx, int end_idx)`: a negative
element count cannot be allocated. -/
def ManagedDynamicArray.as_slice_from (src : List Int) (start_idx end_idx : Int) :
    Except Fault ManagedDynamicArray :=
  let size := end_idx - start_idx + 1
  if size < 0 then .error .bad_alloc
  else
    let obj := ManagedDynamicArray.new size.toNat
    obj.copy_from src start_idx obj.size_

/-- `to_span()`: the view of the first `size_` elements of `data_`. -/
def ManagedDynamicArray.to_span (a : ManagedDynamicArray) : List Int :=
  a.data_.take a.size_.toNat

/-! ## heap.cpp -/

abbrev ROOT_INDEX : Int := 1
abbrev INVALID_INDEX : Int := -1

inductive HeapifyDirection where
  | DOWN
  | UP
  deriving DecidableEq, Repr

def min_comparer (x y : Int) : Bool := decide (x < y)

def max_comparer (x y : Int) : Bool := decide (x > y)

/-- `Heap<int>` and its subclass `MaxHeap<int>`: `is_max_heap` records the
dynamic type, which selects the override of the virtual `compare`. -/
structure Heap where
  size_ : Int
  storage_ : ManagedDynamicArray
  is_max_heap : Bool
  deriving DecidableEq, Repr

/-- `Heap(int capacity) : size_(0), storage_(capacity + 1)`. -/
def Heap.new (capacity : Nat) : Heap :=
  { size_ := 0, storage_ := ManagedDynamicArray.new (capacity + 1), is_max_heap := false }

/-- `MaxHeap(int capacity) : Heap<T>(capacity)`. -/
def MaxHeap.new (capacity : Nat) : Heap :=
  { Heap.new capacity with is_max_heap := true }

/-- Virtual `compare`: `min_comparer` in `Heap`, `max_comparer` in `MaxHeap`. -/
def Heap.compare (h : Heap) (x y : Int) : Bool :=
  if h.is_max_heap then max_comparer x y else min_comparer x y

/-- `is_out_of_range(int index)`: `index > size_`. -/
def Heap.is_out_of_range (h : Heap) (index : Int) : Bool :=
  decide (index > h.size_)

/-- `peek() const`. -/
def Heap.peek (h : Heap) : Except Fault (Option Int) :=
  if h.size_ == 0 then .ok none
  else
    match h.storage_.get ROOT_INDEX with
    | .ok v => .ok (some v)
    | .error e => .error e

/-- `HeapNode<int>`: the index; the heap reference is the threaded state. -/
structure HeapNode where
  index_ : Int
  deriving DecidableEq, Repr

/-- `HeapNode::exists`. -/
def HeapNode.exists (n : HeapNode) : Bool :=
  n.index_ != INVALID_INDEX

/-- `HeapNode::get_value`. -/
def HeapNode.get_value (n : HeapNode) (heap : Heap) : Except Fault Int :=
  heap.storage_.get n.index_

/-- `HeapNode::set_value`. -/
def HeapNode.set_value (n : HeapNode) (heap : Heap) (new_val : Int) : Except Fault Heap :=
  match heap.storage_.set n.index_ new_val with
  | .ok s => .ok { heap with storage_ := s }
  | .error e => .error e

/-- `HeapNode::from_index`. -/
def HeapNode.from_index (_n : HeapNode) (heap : Heap) (index : Int) : HeapNode :=
  { index_ := if heap.is_out_of_range index then INVALID_INDEX else index }

/-- `HeapNode::left`. -/
def HeapNode.left (n : HeapNode) (heap : Heap) : HeapNode :=
  n.from_index heap (2 * n.index_)

/-- `HeapNode::right`. -/
def HeapNode.right (n : HeapNode) (heap : Heap) : HeapNode :=
  n.from_index heap (2 * n.index_ + 1)

/-- `HeapNode::parent`; `/` on `int` truncates toward zero. -/
def HeapNode.parent (n : HeapNode) : HeapNode :=
  { index_ := if n.index_ == ROOT_INDEX then INVALID_INDEX else Int.tdiv n.index_ 2 }

mutual

/-- `HeapNode::heapify_down`. -/
def HeapNode.heapify_down : Nat → HeapNode → Heap → Except Fault Heap
  | 0, _, _ => .error .out_of_fuel
  | fuel + 1, n, heap =>
    let lft := n.left heap
    let rght := n.right heap
    let left_exists := lft.exists
    let right_exists := rght.exists
    if !left_exists && !right_exists then .ok heap
    else if left_exists && right_exists then
      match lft.get_value heap, rght.get_value heap with
      | .ok lv, .ok rv =>
        if heap.compare lv rv then HeapNode.try_swap_value fuel n heap lft .DOWN
        else HeapNode.try_swap_value fuel n heap rght .DOWN
      | .error e, _ => .error e
      | _, .error e => .error e
    else if left_exists then HeapNode.try_swap_value fuel n heap lft .DOWN
    else HeapNode.try_swap_value fuel n heap rght .DOWN

/-- `HeapNode::heapify_up`. -/
def HeapNode.heapify_up : Nat → HeapNode → Heap → Except Fault Heap
  | 0, _, _ => .error .out_of_fuel
  | fuel + 1, n, heap => HeapNode.try_swap_value fuel n heap n.parent .UP

/-- `HeapNode::try_swap_value`. -/
def HeapNode.try_swap_value :
    Nat → HeapNode → Heap → HeapNode → HeapifyDirection → Except Fault Heap
  | 0, _, _, _, _ => .error .out_of_fuel
  | fuel + 1, n, heap, other, direction =>
    if !n.exists || !other.exists then .ok heap
    else
      match n.get_value heap, other.get_value heap with
      | .ok val, .ok other_val =>
        if direction == .DOWN && heap.compare other_val val then
          match n.set_value heap other_val with
          | .ok heap1 =>
            match other.set_value heap1 val with
            | .ok heap2 => HeapNode.heapify_down fuel other heap2
            | .error e => .error e
          | .error e => .error e
        else if direction == .UP && heap.compare val other_val then
          match n.set_value heap other_val with
          | .ok heap1 =>
            match other.set_value heap1 val with
            | .ok heap2 => HeapNode.heapify_up fuel other heap2
            | .error e => .error e
          | .error e => .error e
        else .ok heap
      | .error e, _ => .error e
      | _, .error e => .error e

end

/-- `Heap::store`. -/
def Heap.store (fuel : Nat) (h : Heap) (num : Int) : Except Fault Heap :=
  let h1 : Heap := { h with size_ := h.size_ + 1 }
  match h1.storage_.set h1.size_ num with
  | .ok s =>
    let h2 : Heap := { h1 with storage_ := s }
    let setting_root := h2.size_ == ROOT_INDEX
    if !setting_root then HeapNode.heapify_up fuel { index_ := h2.size_ } h2
    else .ok h2
  | .error e => .error e

/-- `Heap::take`: returns the optional value and the heap after the call. -/
def Heap.take (fuel : Nat) (h : Heap) : Except Fault (Option Int × Heap) :=
  match h.peek with
  | .error e => .error e
  | .ok none => .ok (none, h)
  | .ok (some taken) =>
    match h.storage_.get h.size_ with
    | .error e => .error e
    | .ok last =>
      let h1 : Heap := { h with size_ := h.size_ - 1 }
      match h1.storage_.set ROOT_INDEX last with
      | .error e => .error e
      | .ok s =>
        let h2 : Heap := { h1 with storage_ := s }
        if h2.size_ > 1 then
          match HeapNode.heapify_down fuel { index_ := ROOT_INDEX } h2 with
          | .ok h3 => .ok (some taken, h3)
          | .error e => .error e
        else .ok (some taken, h2)

/-- `HeapSorter::sort`; the span is the list `ary`, returned after the call. -/
def HeapSorter.sort (fuel : Nat) (ary : List Int) : Except Fault (List Int) :=
  let count : Int := ary.length
  let heap := Heap.new ary.length
  match for_loop 0 count (fun i (heap : Heap) =>
      match index_read ary i with
      | .ok v => heap.store fuel v
      | .error e => .error e) heap with
  | .error e => .error e
  | .ok heap1 =>
    match for_loop 0 count (fun i (st : Heap × List Int) =>
        match st.1.take fuel with
        | .error e => .error e
        | .ok (none, _) => .error .assertion_failed
        | .ok (some v, heap2) =>
          match index_write st.2 i v with
          | .ok ary1 => .ok (heap2, ary1)
          | .error e => .error e) (heap1, ary) with
    | .error e => .error e
    | .ok st => .ok st.2

/-! ## common.cpp -/

/-- `Sorter::swap_values`. -/
def Sorter.swap_values (ary : List Int) (x y : Int) : Except Fault (List Int) :=
  if x == y then .ok ary
  else
    match index_read ary x with
    | .error e => .error e
    | .ok temp =>
      match index_read ary y with
      | .error e => .error e
      | .ok vy =>
        match index_write ary x vy with
        | .error e => .error e
        | .ok ary1 => index_write ary1 y temp

/-! ## quick.cpp -/

/-- Body of the scan loop of `QuickSorter::partition`; the loop state is the
array and `new_pivot_index`. -/
def QuickSorter.partition_body (pivot : Int) (i : Int) (st : List Int × Int) :
    Except Fault (List Int × Int) :=
  match index_read st.1 i with
  | .error e => .error e
  | .ok v =>
    if v ≤ pivot then
      match Sorter.swap_values st.1 (st.2 + 1) i with
      | .ok ary1 => .ok (ary1, st.2 + 1)
      | .error e => .error e
    else .ok st

/-- `QuickSorter::partition`: the array after the call and the returned index. -/
def QuickSorter.partition (ary : List Int) (low high : Int) :
    Except Fault (List Int × Int) :=
  match index_read ary high with
  | .error e => .error e
  | .ok pivot =>
    let new_pivot_index := low - 1
    match for_loop low high (QuickSorter.partition_body pivot) (ary, new_pivot_index) with
    | .error e => .error e
    | .ok st =>
      match Sorter.swap_values st.1 (st.2 + 1) high with
      | .ok ary2 => .ok (ary2, st.2 + 1)
      | .error e => .error e

/-- `QuickSorter::sort_between_indexes`. -/
def QuickSorter.sort_between_indexes : Nat → List Int → Int → Int → Except Fault (List Int)
  | 0, _, _, _ => .error .out_of_fuel
  | fuel + 1, ary, low, high =>
    if low < high then
      match QuickSorter.partition ary low high with
      | .error e => .error e
      | .ok (ary1, pivot_index) =>
        match QuickSorter.sort_between_indexes fuel ary1 low (pivot_index - 1) with
        | .error e => .error e
        | .ok ary2 => QuickSorter.sort_between_indexes fuel ary2 (pivot_index + 1) high
    else .ok ary

/-- `QuickSorter::sort`: `ary.size() - 1` is `-1` for the empty span once
converted to `int`. -/
def QuickSorter.sort (fuel : Nat) (ary : List Int) : Except Fault (List Int) :=
  QuickSorter.sort_between_indexes fuel ary 0 ((ary.length : Int) - 1)

/-! ## bubble.cpp -/

/-- Body of the loop of `BubbleSorter::ltr_sort`; the loop state is the array
and `swapped`. -/
def BubbleSorter.ltr_body (i : Int) (st : List Int × Bool) :
    Except Fault (List Int × Bool) :=
  match index_read st.1 (i - 1) with
  | .error e => .error e
  | .ok a =>
    match index_read st.1 i with
    | .error e => .error e
    | .ok b =>
      if a > b then
        match Sorter.swap_values st.1 (i - 1) i with
        | .ok ary1 => .ok (ary1, true)
        | .error e => .error e
      else .ok st

/-- `BubbleSorter::ltr_sort`: the array after the pass and the returned flag. -/
def BubbleSorter.ltr_sort (ary : List Int) : Except Fault (List Int × Bool) :=
  let swapped := false
  let count : Int := ary.length
  for_loop 1 count BubbleSorter.ltr_body (ary, swapped)

/-- Body of the loop of `CocktailShakerSorter::rtl_sort`. -/
def CocktailShakerSorter.rtl_body (i : Int) (st : List Int × Bool) :
    Except Fault (List Int × Bool) :=
  match index_read st.1 i with
  | .error e => .error e
  | .ok a =>
    match index_read st.1 (i - 1) with
    | .error e => .error e
    | .ok b =>
      if a < b then
        match Sorter.swap_values st.1 (i - 1) i with
        | .ok ary1 => .ok (ary1, true)
        | .error e => .error e
      else .ok st

/-- `CocktailShakerSorter::rtl_sort`. -/
def CocktailShakerSorter.rtl_sort (ary : List Int) : Except Fault (List Int × Bool) :=
  let count : Int := ary.length
  let swapped := false
  for_loop_down (count - 1) 0 CocktailShakerSorter.rtl_body (ary, swapped)

/-- The loop `while(ltr_sort(ary));` of `BubbleSorter::sort`. -/
def BubbleSorter.sort_while : Nat → List Int → Except Fault (List Int)
  | 0, _ => .error .out_of_fuel
  | fuel + 1, ary =>
    match BubbleSorter.ltr_sort ary with
    | .error e => .error e
    | .ok (ary1, swapped) =>
      if swapped then BubbleSorter.sort_while fuel ary1 else .ok ary1

/-- `BubbleSorter::sort`. -/
def BubbleSorter.sort (fuel : Nat) (ary : List Int) : Except Fault (List Int) :=
  let count : Int := ary.length
  if count < 2 then .ok ary
  else BubbleSorter.sort_while fuel ary

/-- The loop `while (true)` of `CocktailShakerSorter::sort`; `cmp[0]` is
`ltr_sort` and `cmp[1]` is `rtl_sort`. -/
def CocktailShakerSorter.sort_while : Nat → List Int → Int → Except Fault (List Int)
  | 0, _, _ => .error .out_of_fuel
  | fuel + 1, ary, i =>
    match (if i = 0 then BubbleSorter.ltr_sort ary
      else if i = 1 then CocktailShakerSorter.rtl_sort ary
      else .error (.out_of_bounds i)) with
    | .error e => .error e
    | .ok (ary1, swapped) =>
      if !swapped then .ok ary1
      else CocktailShakerSorter.sort_while fuel ary1 (Int.land (i + 1) 1)

/-- `CocktailShakerSorter::sort`. -/
def CocktailShakerSorter.sort (fuel : Nat) (ary : List Int) : Except Fault (List Int) :=
  let count : Int := ary.length
  if count < 2 then .ok ary
  else CocktailShakerSorter.sort_while fuel ary 0

/-! ## insertion.cpp -/

/-- The inner loop `for (; j >= 0 && ary[j] > old; --j)` of
`InsertionSorter::sort`: the array and `j` when the loop is left. -/
def InsertionSorter.shift_loop (old : Int) :
    Nat → List Int → Int → Except Fault (List Int × Int)
  | 0, _, _ => .error .out_of_fuel
  | fuel + 1, ary, j =>
    if j ≥ 0 then
      match index_read ary j with
      | .error e => .error e
      | .ok v =>
        if v > old then
          match Sorter.swap_values ary j (j + 1) with
          | .ok ary1 => InsertionSorter.shift_loop old fuel ary1 (j - 1)
          | .error e => .error e
        else .ok (ary, j)
    else .ok (ary, j)

/-- Body of the outer loop of `InsertionSorter::sort`. -/
def InsertionSorter.sort_body (fuel : Nat) (i : Int) (ary : List Int) :
    Except Fault (List Int) :=
  let j := i - 1
  match index_read ary i with
  | .error e => .error e
  | .ok old =>
    match InsertionSorter.shift_loop old fuel ary j with
    | .error e => .error e
    | .ok (ary1, j1) =>
      let shifted := j1 != i - 1
      if shifted then index_write ary1 (j1 + 1) old
      else .ok ary1

/-- `InsertionSorter::sort`. -/
def InsertionSorter.sort (fuel : Nat) (ary : List Int) : Except Fault (List Int) :=
  let count : Int := ary.length
  if count < 2 then .ok ary
  else for_loop 1 count (InsertionSorter.sort_body fuel) ary

/-! ## selection.cpp -/

/-- Body of the inner loop of `SelectionSorter::sort`; the loop state is
`min_idx`. -/
def SelectionSorter.scan_body (ary : List Int) (j : Int) (min_idx : Int) :
    Except Fault Int :=
  match index_read ary min_idx with
  | .error e => .error e
  | .ok a =>
    match index_read ary j with
    | .error e => .error e
    | .ok b => if a > b then .ok j else .ok min_idx

/-- Body of the outer loop of `SelectionSorter::sort`. -/
def SelectionSorter.sort_body (count : Int) (i : Int) (ary : List Int) :
    Except Fault (List Int) :=
  let min_idx := i
  match for_loop (i + 1) count (SelectionSorter.scan_body ary) min_idx with
  | .error e => .error e
  | .ok min_idx1 =>
    if i != min_idx1 then Sorter.swap_values ary i min_idx1
    else .ok ary

/-- `SelectionSorter::sort`. -/
def SelectionSorter.sort (ary : List Int) : Except Fault (List Int) :=
  let count : Int := ary.length
  if count < 2 then .ok ary
  else for_loop 0 (count - 1) (SelectionSorter.sort_body count) ary

/-! ## merge.cpp -/

/-- Body of the merge loop of `MergeSorter::sort`; the loop state is the
array, `x_idx` and `y_idx`.  The `&&` and `||` of the condition short-circuit,
so `x_span[x_idx] <= y_span[y_idx]` is read only when both can be taken. -/
def MergeSorter.merge_body (x_span y_span : List Int) (i : Int)
    (st : List Int × Int × Int) : Except Fault (List Int × Int × Int) :=
  let x_cnt : Int := x_span.length
  let y_cnt : Int := y_span.length
  let can_take_x := decide (st.2.1 < x_cnt)
  let can_take_y := decide (st.2.2 < y_cnt)
  let take_x : Except Fault Bool :=
    if !can_take_x then .ok false
    else if !can_take_y then .ok true
    else
      match index_read x_span st.2.1 with
      | .error e => .error e
      | .ok a =>
        match index_read y_span st.2.2 with
        | .error e => .error e
        | .ok b => .ok (decide (a ≤ b))
  match take_x with
  | .error e => .error e
  | .ok true =>
    match index_read x_span st.2.1 with
    | .error e => .error e
    | .ok v =>
      match index_write st.1 i v with
      | .error e => .error e
      | .ok ary1 => .ok (ary1, st.2.1 + 1, st.2.2)
  | .ok false =>
    match index_read y_span st.2.2 with
    | .error e => .error e
    | .ok v =>
      match index_write st.1 i v with
      | .error e => .error e
      | .ok ary1 => .ok (ary1, st.2.1, st.2.2 + 1)

/-- `MergeSorter::sort`; `small_sorter` is the virtual `sort` of the fallback
`small_sorter_`. -/
def MergeSorter.sort (small_sorter : List Int → Except Fault (List Int)) :
    Nat → List Int → Except Fault (List Int)
  | 0, _ => .error .out_of_fuel
  | fuel + 1, ary =>
    let count : Int := ary.length
    if count < 10 then small_sorter ary
    else
      let mid_idx := Int.tdiv count 2
      match ManagedDynamicArray.as_slice_from ary 0 (mid_idx - 1) with
      | .error e => .error e
      | .ok x =>
        match ManagedDynamicArray.as_slice_from ary mid_idx (count - 1) with
        | .error e => .error e
        | .ok y =>
          match MergeSorter.sort small_sorter fuel x.to_span with
          | .error e => .error e
          | .ok x_span =>
            match MergeSorter.sort small_sorter fuel y.to_span with
            | .error e => .error e
            | .ok y_span =>
              match for_loop 0 count (MergeSorter.merge_body x_span y_span)
                  (ary, 0, 0) with
              | .error e => .error e
              | .ok st => .ok st.1

/-! ## Scenarios: sequences of heap operations -/

/-- `store` called once for each value of a list, in order. -/
def Heap.store_all (fuel : Nat) (h : Heap) : List Int → Except Fault Heap
  | [] => .ok h
  | v :: vs =>
    match h.store fuel v with
    | .error e => .error e
    | .ok h1 => Heap.store_all fuel h1 vs

/-- `take` called `n` times in succession; the returned optionals in call order
and the heap after the last call. -/
def Heap.take_n (fuel : Nat) : Nat → Heap → Except Fault (List (Option Int) × Heap)
  | 0, h => .ok ([], h)
  | k + 1, h =>
    match h.take fuel with
    | .error e => .error e
    | .ok (r, h1) =>
      match Heap.take_n fuel k h1 with
      | .error e => .error e
      | .ok (rs, h2) => .ok (r :: rs, h2)

/-- Heaps reachable from `h0` by interleaved `store` and `take` calls that
return, `store` being issued only while `size_ < c`. -/
inductive Reachable (fuel : Nat) (c : Nat) (h0 : Heap) : Heap → Prop where
  | fresh : Reachable fuel c h0 h0
  | store (h h1 : Heap) (v : Int) : Reachable fuel c h0 h → h.size_ < (c : Int) →
      h.store fuel v = .ok h1 → Reachable fuel c h0 h1
  | take (h h1 : Heap) (r : Option Int) : Reachable fuel c h0 h →
      h.take fuel = .ok (r, h1) → Reachable fuel c h0 h1

/-! ## Proof infrastructure: slots, swaps and the ordering policy -/

/-- Value held in slot `i` of a buffer (`0` past the end). -/
def slot (d : List Int) (i : Nat) : Int := d.getD i 0

/-- Buffer after exchanging the values of slots `i` and `j`. -/
def swapSlots (d : List Int) (i j : Nat) : List Int :=
  (d.set i (slot d j)).set j (slot d i)

/-- Heap with its buffer replaced. -/
def Heap.withData (h : Heap) (d : List Int) : Heap :=
  { h with storage_ := { h.storage_ with data_ := d } }

/-- Policy relation "`x` may be the parent of `y`": `x ≤ y` in a min-heap,
`y ≤ x` in a max-heap. -/
def dom (is_max : Bool) (x y : Int) : Prop :=
  if is_max then y ≤ x else x ≤ y

/-- Heap property of the slots `1..n` of a buffer under a policy. -/
def HeapOn (is_max : Bool) (d : List Int) (n : Nat) : Prop :=
  ∀ i, 2 ≤ i → i ≤ n → dom is_max (slot d (i / 2)) (slot d i)

/-- What a sift may change in a heap: only the order of the values held in
slots `1..n`. -/
structure Rearranges (n : Nat) (h h' : Heap) : Prop where
  size_eq : h'.size_ = h.size_
  kind_eq : h'.is_max_heap = h.is_max_heap
  cap_eq : h'.storage_.size_ = h.storage_.size_
  length_eq : h'.storage_.data_.length = h.storage_.data_.length
  perm : h'.storage_.data_.Perm h.storage_.data_
  frame : ∀ k, (k = 0 ∨ n < k) → slot h'.storage_.data_ k = slot h.storage_.data_ k

/-- Heap property of slots `1..n` except possibly between `i` and its parent;
the children of `i` are already dominated by the parent of `i`. -/
def UpPre (is_max : Bool) (d : List Int) (n i : Nat) : Prop :=
  (∀ j, 2 ≤ j → j ≤ n → j ≠ i → dom is_max (slot d (j / 2)) (slot d j)) ∧
  (∀ j, 2 ≤ j → j ≤ n → j / 2 = i → 2 ≤ i → dom is_max (slot d (i / 2)) (slot d j))

/-- Heap property of slots `1..n` except possibly between `i` and its
children; the children of `i` are already dominated by the parent of `i`. -/
def DownPre (is_max : Bool) (d : List Int) (n i : Nat) : Prop :=
  (∀ j, 2 ≤ j → j ≤ n → j / 2 ≠ i → dom is_max (slot d (j / 2)) (slot d j)) ∧
  (∀ j, 2 ≤ j → j ≤ n → j / 2 = i → 2 ≤ i → dom is_max (slot d (i / 2)) (slot d j))

/-- The values held by a heap: slots `1..size_`, in index order. -/
def Heap.elems (h : Heap) : List Int :=
  (h.storage_.data_.drop 1).take h.size_.toNat

/-- Heap property over `[1, size_]` under the heap's own policy. -/
def Heap.ordered (h : Heap) : Prop :=
  HeapOn h.is_max_heap h.storage_.data_ h.size_.toNat

/-- The heap right after `++size_; storage_[size_] = num;` in `store`. -/
def Heap.appended (h : Heap) (n : Nat) (v : Int) : Heap :=
  { size_ := ((n + 1 : Nat) : Int),
    storage_ := { h.storage_ with data_ := h.storage_.data_.set (n + 1) v },
    is_max_heap := h.is_max_heap }

/-- The heap right after `storage_[ROOT_INDEX] = storage_[size_--];` in `take`. -/
def Heap.popped (h : Heap) (m : Nat) : Heap :=
  { size_ := (m : Int),
    storage_ := { h.storage_ with
      data_ := h.storage_.data_.set 1 (slot h.storage_.data_ (m + 1)) },
    is_max_heap := h.is_max_heap }

/-- What a sorter may do to the slots `lo..hi` of an array: rearrange the
values they hold, leaving every other slot alone. -/
structure SegPerm (lo hi : Int) (a b : List Int) : Prop where
  length_eq : b.length = a.length
  perm : b.Perm a
  frame : ∀ k : Nat, ((k : Int) < lo ∨ hi < (k : Int)) → slot b k = slot a k
  from_seg : ∀ k : Nat, lo ≤ (k : Int) → (k : Int) ≤ hi →
    ∃ k' : Nat, lo ≤ (k' : Int) ∧ (k' : Int) ≤ hi ∧ slot b k = slot a k'

/-- Number of inversions of a list: pairs of positions holding values in
descending order. -/
def inversions : List Int → Nat
  | [] => 0
  | a :: t => t.countP (fun x => decide (x < a)) + inversions t

/-- State of the inner loop of insertion sort with the moving value `old` in
slot `m`: slots `0..i` without slot `m` are in order, and every slot between
`m` and `i` holds a value above `old`. -/
structure Shifting (old : Int) (i m : Nat) (arr : List Int) : Prop where
  at_m : slot arr m = old
  left : ∀ a b, a ≤ b → b < m → slot arr a ≤ slot arr b
  right : ∀ a b, m < a → a ≤ b → b ≤ i → slot arr a ≤ slot arr b
  cross : ∀ a b, a < m → m < b → b ≤ i → slot arr a ≤ slot arr b
  above : ∀ b, m < b → b ≤ i → old < slot arr b

/-- The slots `lo..hi` of a buffer, both ends included, in index order. -/
def segment (d : List Int) (lo hi : Nat) : List Int :=
  (d.drop lo).take (hi + 1 - lo)

/-- `BubbleSorter::ltr_sort`'s loop body with a counter of the `swap_values`
calls it makes; the loop state is the array, `swapped` and the counter. -/
def BubbleSorter.ltr_body_counted (i : Int) (st : (List Int × Bool) × Nat) :
    Except Fault ((List Int × Bool) × Nat) :=
  match index_read st.1.1 (i - 1) with
  | .error e => .error e
  | .ok a =>
    match index_read st.1.1 i with
    | .error e => .error e
    | .ok b =>
      if a > b then
        match Sorter.swap_values st.1.1 (i - 1) i with
        | .ok ary1 => .ok ((ary1, true), st.2 + 1)
        | .error e => .error e
      else .ok st

/-- `BubbleSorter::ltr_sort` returning also the number of pairs it swapped. -/
def BubbleSorter.ltr_sort_counted (ary : List Int) :
    Except Fault ((List Int × Bool) × Nat) :=
  let swapped := false
  let count : Int := ary.length
  for_loop 1 count BubbleSorter.ltr_body_counted ((ary, swapped), 0)

/-- `CocktailShakerSorter::rtl_sort`'s loop body with a counter of the
`swap_values` calls it makes. -/
def CocktailShakerSorter.rtl_body_counted (i : Int) (st : (List Int × Bool) × Nat) :
    Except Fault ((List Int × Bool) × Nat) :=
  match index_read st.1.1 i with
  | .error e => .error e
  | .ok a =>
    match index_read st.1.1 (i - 1) with
    | .error e => .error e
    | .ok b =>
      if a < b then
        match Sorter.swap_values st.1.1 (i - 1) i with
        | .ok ary1 => .ok ((ary1, true), st.2 + 1)
        | .error e => .error e
      else .ok st

/-- `CocktailShakerSorter::rtl_sort` returning also the number of pairs it
swapped. -/
def CocktailShakerSorter.rtl_sort_counted (ary : List Int) :
    Except Fault ((List Int × Bool) × Nat) :=
  let count : Int := ary.length
  let swapped := false
  for_loop_down (count - 1) 0 CocktailShakerSorter.rtl_body_counted ((ary, swapped), 0)

/-! ## The heap engine with a log of its accesses, node handles and swaps -/

/-- What a heap operation does besides computing its result: an indexed access
to `storage_` (read or write), the construction of a `HeapNode` with a given
index, an exchange of two values by `try_swap_value`. -/
inductive Event where
  | access (idx : Int)
  | node (idx : Int)
  | swap
  deriving DecidableEq, Repr

/-- The outcome of a call with the events `ev` that preceded it put in front of
its log. -/
def logged (ev : List Event) :
    Except Fault (Heap × List Event) → Except Fault (Heap × List Event)
  | .ok (h, t) => .ok (h, ev ++ t)
  | .error e => .error e

/-- The outcome of a logged call without its log. -/
def erase {α : Type} : Except Fault (α × List Event) → Except Fault α
  | .ok (a, _) => .ok a
  | .error e => .error e

mutual

/-- `HeapNode::heapify_down` with its log: `left()` and `right()` each construct
a node; `other` is a copy of one of them. -/
def HeapNode.heapify_down_traced : Nat → HeapNode → Heap → Except Fault (Heap × List Event)
  | 0, _, _ => .error .out_of_fuel
  | fuel + 1, n, heap =>
    let lft := n.left heap
    let rght := n.right heap
    let ev := [Event.node lft.index_, Event.node rght.index_]
    let left_exists := lft.exists
    let right_exists := rght.exists
    if !left_exists && !right_exists then .ok (heap, ev)
    else if left_exists && right_exists then
      match lft.get_value heap, rght.get_value heap with
      | .ok lv, .ok rv =>
        if heap.compare lv rv then
          logged (ev ++ [Event.access lft.index_, Event.access rght.index_])
            (HeapNode.try_swap_value_traced fuel n heap lft .DOWN)
        else
          logged (ev ++ [Event.access lft.index_, Event.access rght.index_])
            (HeapNode.try_swap_value_traced fuel n heap rght .DOWN)
      | .error e, _ => .error e
      | _, .error e => .error e
    else if left_exists then logged ev (HeapNode.try_swap_value_traced fuel n heap lft .DOWN)
    else logged ev (HeapNode.try_swap_value_traced fuel n heap rght .DOWN)

/-- `HeapNode::heapify_up` with its log: `parent()` constructs a node. -/
def HeapNode.heapify_up_traced : Nat → HeapNode → Heap → Except Fault (Heap × List Event)
  | 0, _, _ => .error .out_of_fuel
  | fuel + 1, n, heap =>
    logged [Event.node n.parent.index_]
      (HeapNode.try_swap_value_traced fuel n heap n.parent .UP)

/-- `HeapNode::try_swap_value` with its log: two reads, and on a swap two
writes. -/
def HeapNode.try_swap_value_traced :
    Nat → HeapNode → Heap → HeapNode → HeapifyDirection → Except Fault (Heap × List Event)
  | 0, _, _, _, _ => .error .out_of_fuel
  | fuel + 1, n, heap, other, direction =>
    if !n.exists || !other.exists then .ok (heap, [])
    else
      match n.get_value heap, other.get_value heap with
      | .ok val, .ok other_val =>
        let ev := [Event.access n.index_, Event.access other.index_]
        if direction == .DOWN && heap.compare other_val val then
          match n.set_value heap other_val with
          | .ok heap1 =>
            match other.set_value heap1 val with
            | .ok heap2 =>
              logged (ev ++ [Event.access n.index_, Event.access other.index_, Event.swap])
                (HeapNode.heapify_down_traced fuel other heap2)
            | .error e => .error e
          | .error e => .error e
        else if direction == .UP && heap.compare val other_val then
          match n.set_value heap other_val with
          | .ok heap1 =>
            match other.set_value heap1 val with
            | .ok heap2 =>
              logged (ev ++ [Event.access n.index_, Event.access other.index_, Event.swap])
                (HeapNode.heapify_up_traced fuel other heap2)
            | .error e => .error e
          | .error e => .error e
        else .ok (heap, ev)
      | .error e, _ => .error e
      | _, .error e => .error e

end

/-- `Heap::peek` with its log. -/
def Heap.peek_traced (h : Heap) : Except Fault (Option Int × List Event) :=
  if h.size_ == 0 then .ok (none, [])
  else
    match h.storage_.get ROOT_INDEX with
    | .ok v => .ok (some v, [Event.access ROOT_INDEX])
    | .error e => .error e

/-- `Heap::store` with its log: the write of `storage_[size_]`, then the node
`added` and its sift-up. -/
def Heap.store_traced (fuel : Nat) (h : Heap) (num : Int) :
    Except Fault (Heap × List Event) :=
  let h1 : Heap := { h with size_ := h.size_ + 1 }
  match h1.storage_.set h1.size_ num with
  | .ok s =>
    let h2 : Heap := { h1 with storage_ := s }
    let setting_root := h2.size_ == ROOT_INDEX
    if !setting_root then
      logged [Event.access h1.size_, Event.node h2.size_]
        (HeapNode.heapify_up_traced fuel { index_ := h2.size_ } h2)
    else .ok (h2, [Event.access h1.size_])
  | .error e => .error e

/-- `Heap::take` with its log: the read of `peek`, the read of `storage_[size_]`,
the write of the root, then the node `root_node` and its sift-down. -/
def Heap.take_traced (fuel : Nat) (h : Heap) :
    Except Fault ((Option Int × Heap) × List Event) :=
  match h.peek_traced with
  | .error e => .error e
  | .ok (none, ev) => .ok ((none, h), ev)
  | .ok (some taken, ev) =>
    match h.storage_.get h.size_ with
    | .error e => .error e
    | .ok last =>
      let h1 : Heap := { h with size_ := h.size_ - 1 }
      match h1.storage_.set ROOT_INDEX last with
      | .error e => .error e
      | .ok s =>
        let h2 : Heap := { h1 with storage_ := s }
        let ev1 := ev ++ [Event.access h.size_, Event.access ROOT_INDEX]
        if h2.size_ > 1 then
          match HeapNode.heapify_down_traced fuel { index_ := ROOT_INDEX } h2 with
          | .ok (h3, t) => .ok ((some taken, h3), ev1 ++ [Event.node ROOT_INDEX] ++ t)
          | .error e => .error e
        else .ok ((some taken, h2), ev1)

/-- Every storage access of the log is at an index in `[lo, hi]`. -/
def AccessesWithin (lo hi : Int) (tr : List Event) : Prop :=
  ∀ idx, Event.access idx ∈ tr → lo ≤ idx ∧ idx ≤ hi

/-- Every node of the log has the sentinel index or an index in `[lo, hi]`. -/
def NodesWithin (lo hi : Int) (tr : List Event) : Prop :=
  ∀ idx, Event.node idx ∈ tr → idx = INVALID_INDEX ∨ (lo ≤ idx ∧ idx ≤ hi)

/-- Number of value swaps in a log. -/
def swaps : List Event → Nat
  | [] => 0
  | Event.swap :: t => swaps t + 1
  | Event.access _ :: t => swaps t
  | Event.node _ :: t => swaps t

/-! ## Insertion sort without the write after the inner loop -/

/-- Body of the outer loop of `InsertionSorter::sort` with the statement
`if (shifted) ary[j + 1] = old;` removed. -/
def InsertionSorter.sort_body_no_write (fuel : Nat) (i : Int) (ary : List Int) :
    Except Fault (List Int) :=
  let j := i - 1
  match index_read ary i with
  | .error e => .error e
  | .ok old =>
    match InsertionSorter.shift_loop old fuel ary j with
    | .error e => .error e
    | .ok (ary1, _) => .ok ary1

/-- `InsertionSorter::sort` with the statement `if (shifted) ary[j + 1] = old;`
removed: the same two loops. -/
def InsertionSorter.sort_no_write (fuel : Nat) (ary : List Int) : Except Fault (List Int) :=
  let count : Int := ary.length
  if count < 2 then .ok ary
  else for_loop 1 count (InsertionSorter.sort_body_no_write fuel) ary

/-! ## Bubble sort with a record of its passes -/

/-- The loop `while(ltr_sort(ary));` of `BubbleSorter::sort` with a record of
the passes it runs: for each call of `ltr_sort`, in order, the array after the
call and the returned flag. -/
def BubbleSorter.sort_while_traced :
    Nat → List Int → Except Fault (List Int × List (List Int × Bool))
  | 0, _ => .error .out_of_fuel
  | fuel + 1, ary =>
    match BubbleSorter.ltr_sort ary with
    | .error e => .error e
    | .ok (ary1, swapped) =>
      if swapped then
        match BubbleSorter.sort_while_traced fuel ary1 with
        | .ok (out, tr) => .ok (out, (ary1, swapped) :: tr)
        | .error e => .error e
      else .ok (ary1, [(ary1, swapped)])

/-- `BubbleSorter::sort` with the record of its passes. -/
def BubbleSorter.sort_traced (fuel : Nat) (ary : List Int) :
    Except Fault (List Int × List (List Int × Bool)) :=
  let count : Int := ary.length
  if count < 2 then .ok (ary, [])
  else BubbleSorter.sort_while_traced fuel ary

/-- The last `k` slots of an array hold values in order that are at least every
value before them: they hold the `k` largest values, each in its final place. -/
def Settled (k : Nat) (a : List Int) : Prop :=
  ∀ i j, i ≤ j → j < a.length → a.length ≤ j + k → slot a i ≤ slot a j

/-! ## Basic lemmas on buffers and the ordering policy -/

theorem index_read_ok (d : List Int) (i : Nat) (h : i < d.length) :
    index_read d (i : Int) = .ok (slot d i) := by
  simp [index_read, slot, List.getElem?_eq_getElem h]

theorem index_write_ok (d : List Int) (i : Nat) (v : Int) (h : i < d.length) :
    index_write d (i : Int) v = .ok (d.set i v) := by
  simp [index_write, h]

theorem index_read_oob (d : List Int) (i : Int) (h : i < 0 ∨ (d.length : Int) ≤ i) :
    index_read d i = .error (.out_of_bounds i) := by
  unfold index_read
  split
  · have : d.length ≤ i.toNat := by omega
    simp [List.getElem?_eq_none this]
  · rfl

theorem index_write_oob (d : List Int) (i : Int) (v : Int)
    (h : i < 0 ∨ (d.length : Int) ≤ i) :
    index_write d i v = .error (.out_of_bounds i) := by
  unfold index_write
  rw [if_neg]
  omega

theorem dom_refl (b : Bool) (x : Int) : dom b x x := by
  unfold dom; split <;> exact le_refl x

theorem dom_trans {b : Bool} {x y z : Int} (h1 : dom b x y) (h2 : dom b y z) :
    dom b x z := by
  unfold dom at *
  split at h1 <;> simp_all <;> omega

theorem dom_total (b : Bool) (x y : Int) : dom b x y ∨ dom b y x := by
  unfold dom; split <;> omega

theorem compare_eq_false_iff (h : Heap) (x y : Int) :
    h.compare y x = false ↔ dom h.is_max_heap x y := by
  unfold Heap.compare dom max_comparer min_comparer
  split <;> simp

theorem compare_eq_true_iff (h : Heap) (x y : Int) :
    h.compare y x = true ↔ ¬ dom h.is_max_heap x y := by
  rw [← compare_eq_false_iff]; simp

theorem compare_true_dom {h : Heap} {x y : Int} (hc : h.compare y x = true) :
    dom h.is_max_heap y x := by
  rcases dom_total h.is_max_heap x y with h1 | h1
  · exact absurd h1 ((compare_eq_true_iff h x y).1 hc)
  · exact h1

theorem slot_set (d : List Int) (i k : Nat) (v : Int) (hi : i < d.length) :
    slot (d.set i v) k = if k = i then v else slot d k := by
  unfold slot
  simp only [List.getD_eq_getElem?_getD, List.getElem?_set]
  by_cases hk : i = k
  · subst hk; simp [hi]
  · have : ¬ k = i := fun h => hk h.symm
    simp [hk, this]

theorem length_swapSlots (d : List Int) (i j : Nat) :
    (swapSlots d i j).length = d.length := by
  simp [swapSlots]

theorem slot_swapSlots (d : List Int) (i j k : Nat) (hi : i < d.length)
    (hj : j < d.length) :
    slot (swapSlots d i j) k
      = if k = j then slot d i else if k = i then slot d j else slot d k := by
  unfold swapSlots
  rw [slot_set _ _ _ _ (by simpa using hj), slot_set _ _ _ _ hi]

theorem swapSlots_perm (d : List Int) (i j : Nat) (hi : i < d.length)
    (hj : j < d.length) : (swapSlots d i j).Perm d := by
  rw [List.perm_iff_count]
  intro a
  unfold swapSlots
  rw [List.count_set _ _ _ _ (by simpa using hj), List.getElem_set,
    List.count_set _ _ _ _ hi]
  have hsi : slot d i = d[i] := by simp [slot, List.getElem?_eq_getElem hi]
  have hsj : slot d j = d[j] := by simp [slot, List.getElem?_eq_getElem hj]
  have hci : 0 < List.count d[i] d := List.count_pos_iff.2 (List.getElem_mem hi)
  have hcj : 0 < List.count d[j] d := List.count_pos_iff.2 (List.getElem_mem hj)
  rw [hsi, hsj]
  by_cases hij : i = j
  · subst hij
    simp only [if_true, beq_self_eq_true]
    by_cases ha : d[i] = a
    · subst ha; simp
    · simp [ha]
  · simp only [if_neg hij]
    by_cases ha : d[i] = a <;> by_cases hb : d[j] = a
    · simp [ha, hb]; rw [ha] at hci; omega
    · simp [ha, hb]; subst ha; omega
    · simp [ha, hb]
    · simp [ha, hb]

theorem Rearranges.refl (n : Nat) (h : Heap) : Rearranges n h h :=
  ⟨rfl, rfl, rfl, rfl, List.Perm.refl _, fun _ _ => rfl⟩

theorem Rearranges.trans {n : Nat} {h1 h2 h3 : Heap} (a : Rearranges n h1 h2)
    (b : Rearranges n h2 h3) : Rearranges n h1 h3 :=
  ⟨b.size_eq.trans a.size_eq, b.kind_eq.trans a.kind_eq, b.cap_eq.trans a.cap_eq,
    b.length_eq.trans a.length_eq, b.perm.trans a.perm,
    fun k hk => (b.frame k hk).trans (a.frame k hk)⟩

theorem Rearranges.swap (n : Nat) (h : Heap) (i j : Nat) (hi : 1 ≤ i) (hin : i ≤ n)
    (hj : 1 ≤ j) (hjn : j ≤ n) (hn : n < h.storage_.data_.length) :
    Rearranges n h (h.withData (swapSlots h.storage_.data_ i j)) := by
  refine ⟨rfl, rfl, rfl, ?_, ?_, ?_⟩
  · simp [Heap.withData, length_swapSlots]
  · exact swapSlots_perm _ _ _ (by omega) (by omega)
  · intro k hk
    simp only [Heap.withData]
    rw [slot_swapSlots _ _ _ _ (by omega) (by omega)]
    have h1 : ¬ k = j := by omega
    have h2 : ¬ k = i := by omega
    simp [h1, h2]

theorem try_swap_value_valid (fuel : Nat) (heap : Heap) (i j : Nat)
    (dir : HeapifyDirection)
    (hi : i < heap.storage_.data_.length) (hj : j < heap.storage_.data_.length) :
    HeapNode.try_swap_value (fuel + 1) ⟨(i : Int)⟩ heap ⟨(j : Int)⟩ dir
      = if dir = .DOWN ∧ heap.compare (slot heap.storage_.data_ j)
            (slot heap.storage_.data_ i) = true then
          HeapNode.heapify_down fuel ⟨(j : Int)⟩
            (heap.withData (swapSlots heap.storage_.data_ i j))
        else if dir = .UP ∧ heap.compare (slot heap.storage_.data_ i)
            (slot heap.storage_.data_ j) = true then
          HeapNode.heapify_up fuel ⟨(j : Int)⟩
            (heap.withData (swapSlots heap.storage_.data_ i j))
        else .ok heap := by
  have hi1 : (i : Int) ≠ -1 := by omega
  have hj1 : (j : Int) ≠ -1 := by omega
  have hj2 : j < (heap.storage_.data_.set i (slot heap.storage_.data_ j)).length := by
    simpa using hj
  simp only [HeapNode.try_swap_value, HeapNode.exists, HeapNode.get_value,
    HeapNode.set_value, ManagedDynamicArray.get, ManagedDynamicArray.set,
    index_read_ok _ _ hi, index_read_ok _ _ hj, index_write_ok _ _ _ hi,
    index_write_ok _ _ _ hj2, INVALID_INDEX]
  simp [hi1, hj1, Heap.withData, swapSlots]

theorem try_swap_value_invalid (fuel : Nat) (heap : Heap) (n : HeapNode)
    (dir : HeapifyDirection) :
    HeapNode.try_swap_value (fuel + 1) n heap ⟨INVALID_INDEX⟩ dir = .ok heap := by
  simp [HeapNode.try_swap_value, HeapNode.exists]

/-! ## Sift-up -/

theorem parent_nonroot (i : Nat) (hi : 2 ≤ i) :
    HeapNode.parent ⟨(i : Int)⟩ = ⟨((i / 2 : Nat) : Int)⟩ := by
  have h1 : ¬ (i : Int) = 1 := by omega
  simp only [HeapNode.parent, ROOT_INDEX, beq_iff_eq, h1, if_false]
  rfl

theorem heapify_up_spec (n : Nat) :
    ∀ (i fuel : Nat) (heap : Heap),
      n < heap.storage_.data_.length → 1 ≤ i → i ≤ n → 2 * i ≤ fuel →
      ∃ heap', HeapNode.heapify_up fuel ⟨(i : Int)⟩ heap = .ok heap' ∧
        Rearranges n heap heap' ∧
        (UpPre heap.is_max_heap heap.storage_.data_ n i →
          HeapOn heap.is_max_heap heap'.storage_.data_ n) := by
  intro i
  induction i using Nat.strong_induction_on with
  | _ i ih =>
    intro fuel heap hlen hi hin hfuel
    obtain ⟨f, rfl⟩ : ∃ f, fuel = f + 2 := ⟨fuel - 2, by omega⟩
    have hstep : HeapNode.heapify_up (f + 2) ⟨(i : Int)⟩ heap
        = HeapNode.try_swap_value (f + 1) ⟨(i : Int)⟩ heap
            (HeapNode.parent ⟨(i : Int)⟩) .UP := by
      simp only [HeapNode.heapify_up]
    rw [hstep]
    by_cases h1 : i = 1
    · subst h1
      refine ⟨heap, ?_, Rearranges.refl _ _, ?_⟩
      · have : HeapNode.parent ⟨((1 : Nat) : Int)⟩ = ⟨INVALID_INDEX⟩ := rfl
        rw [this, try_swap_value_invalid]
      · intro hpre j hj hjn
        exact hpre.1 j hj hjn (by omega)
    · have hi2 : 2 ≤ i := by omega
      rw [parent_nonroot i hi2,
        try_swap_value_valid f heap i (i / 2) .UP (by omega) (by omega)]
      have hp1 : 1 ≤ i / 2 := by omega
      have hpi : i / 2 < i := by omega
      by_cases hc : heap.compare (slot heap.storage_.data_ i)
          (slot heap.storage_.data_ (i / 2)) = true
      · simp only [hc, and_true, if_true, reduceCtorEq, false_and, if_false]
        have hdip : dom heap.is_max_heap (slot heap.storage_.data_ i)
            (slot heap.storage_.data_ (i / 2)) := compare_true_dom hc
        have hsw := Rearranges.swap n heap i (i / 2) hi hin hp1 (by omega) hlen
        have hsl : ∀ k, slot (swapSlots heap.storage_.data_ i (i / 2)) k
            = if k = i / 2 then slot heap.storage_.data_ i
              else if k = i then slot heap.storage_.data_ (i / 2)
              else slot heap.storage_.data_ k :=
          fun k => slot_swapSlots _ _ _ _ (by omega) (by omega)
        have hpre' : UpPre heap.is_max_heap heap.storage_.data_ n i →
            UpPre heap.is_max_heap (swapSlots heap.storage_.data_ i (i / 2)) n (i / 2) := by
          intro hpre
          constructor
          · intro j hj hjn hjp
            rw [hsl j, hsl (j / 2), if_neg hjp]
            by_cases hji : j = i
            · subst hji
              simp only [if_true]
              exact hdip
            · rw [if_neg hji]
              by_cases hjc : j / 2 = i / 2
              · rw [if_pos hjc]
                exact dom_trans hdip (hjc ▸ hpre.1 j hj hjn hji)
              · rw [if_neg hjc]
                by_cases hjd : j / 2 = i
                · rw [if_pos hjd]
                  exact hpre.2 j hj hjn hjd hi2
                · rw [if_neg hjd]
                  exact hpre.1 j hj hjn hji
          · intro j hj hjn hjp hp2
            have e1 : ¬ i / 2 / 2 = i / 2 := by omega
            have e2 : ¬ i / 2 / 2 = i := by omega
            have e3 : ¬ j = i / 2 := by omega
            have hgp := hpre.1 (i / 2) hp2 (by omega) (by omega)
            rw [hsl j, hsl (i / 2 / 2), if_neg e1, if_neg e2, if_neg e3]
            by_cases hji : j = i
            · rw [if_pos hji]
              exact hgp
            · rw [if_neg hji]
              exact dom_trans hgp (hjp ▸ hpre.1 j hj hjn hji)
        obtain ⟨heap', hres, hre, hheap⟩ :=
          ih (i / 2) hpi f (heap.withData (swapSlots heap.storage_.data_ i (i / 2)))
            (by simpa [Heap.withData, length_swapSlots] using hlen) hp1 (by omega)
            (by omega)
        exact ⟨heap', hres, hsw.trans hre, fun hpre => hheap (hpre' hpre)⟩
      · simp only [hc, and_false, if_false, reduceCtorEq, false_and]
        refine ⟨heap, rfl, Rearranges.refl _ _, ?_⟩
        intro hpre j hj hjn
        by_cases hji : j = i
        · subst hji
          exact (compare_eq_false_iff heap _ _).1 (by simpa using hc)
        · exact hpre.1 j hj hjn hji

/-! ## Sift-down -/

theorem heapify_down_leaf (fuel : Nat) (heap : Heap) (i n : Nat)
    (hsz : heap.size_ = n) (hleaf : n < 2 * i) :
    HeapNode.heapify_down (fuel + 1) ⟨(i : Int)⟩ heap = .ok heap := by
  have h1 : (n : Int) < 2 * (i : Int) := by omega
  have h2 : (n : Int) < 2 * (i : Int) + 1 := by omega
  simp [HeapNode.heapify_down, HeapNode.left, HeapNode.right, HeapNode.from_index,
    Heap.is_out_of_range, HeapNode.exists, hsz, h1, h2]

theorem heapify_down_one (fuel : Nat) (heap : Heap) (i n : Nat)
    (hsz : heap.size_ = n) (hone : n = 2 * i) (hi : 1 ≤ i) :
    HeapNode.heapify_down (fuel + 1) ⟨(i : Int)⟩ heap
      = HeapNode.try_swap_value fuel ⟨(i : Int)⟩ heap ⟨((2 * i : Nat) : Int)⟩ .DOWN := by
  have h1 : ¬ (n : Int) < 2 * (i : Int) := by omega
  have h2 : (n : Int) < 2 * (i : Int) + 1 := by omega
  have h3 : ¬ (2 * (i : Int) = -1) := by omega
  simp [HeapNode.heapify_down, HeapNode.left, HeapNode.right, HeapNode.from_index,
    Heap.is_out_of_range, HeapNode.exists, hsz, h1, h2, h3]

theorem heapify_down_two (fuel : Nat) (heap : Heap) (i n : Nat)
    (hsz : heap.size_ = n) (htwo : 2 * i + 1 ≤ n) (hn : n < heap.storage_.data_.length) :
    HeapNode.heapify_down (fuel + 1) ⟨(i : Int)⟩ heap
      = if heap.compare (slot heap.storage_.data_ (2 * i))
            (slot heap.storage_.data_ (2 * i + 1)) = true then
          HeapNode.try_swap_value fuel ⟨(i : Int)⟩ heap ⟨((2 * i : Nat) : Int)⟩ .DOWN
        else
          HeapNode.try_swap_value fuel ⟨(i : Int)⟩ heap ⟨((2 * i + 1 : Nat) : Int)⟩
            .DOWN := by
  have h1 : ¬ (n : Int) < 2 * (i : Int) := by omega
  have h2 : ¬ (n : Int) < 2 * (i : Int) + 1 := by omega
  have h3 : ¬ (2 * (i : Int) = -1) := by omega
  have h4 : ¬ (2 * (i : Int) + 1 = -1) := by omega
  have r1 := index_read_ok heap.storage_.data_ (2 * i) (by omega)
  have r2 := index_read_ok heap.storage_.data_ (2 * i + 1) (by omega)
  push_cast at r1 r2
  simp [HeapNode.heapify_down, HeapNode.left, HeapNode.right, HeapNode.from_index,
    Heap.is_out_of_range, HeapNode.exists, HeapNode.get_value, ManagedDynamicArray.get,
    hsz, h1, h2, h3, h4, r1, r2]

theorem heapify_down_spec (n : Nat) :
    ∀ (k i fuel : Nat) (heap : Heap),
      n - i = k → heap.size_ = n → n < heap.storage_.data_.length → 1 ≤ i → i ≤ n →
      2 * (n - i) + 1 ≤ fuel →
      ∃ heap', HeapNode.heapify_down fuel ⟨(i : Int)⟩ heap = .ok heap' ∧
        Rearranges n heap heap' ∧
        (DownPre heap.is_max_heap heap.storage_.data_ n i →
          HeapOn heap.is_max_heap heap'.storage_.data_ n) := by
  intro k
  induction k using Nat.strong_induction_on with
  | _ k ih =>
    intro i fuel heap hk hsz hlen hi hin hfuel
    -- the step shared by the one-child and two-children cases
    have hswap : ∀ (c f : Nat), c / 2 = i → c ≤ n → 2 ≤ c → 2 * (n - i) ≤ f + 1 →
        ∃ heap', HeapNode.try_swap_value (f + 1) ⟨(i : Int)⟩ heap ⟨(c : Int)⟩ .DOWN
            = .ok heap' ∧ Rearranges n heap heap' ∧
          ((∀ j, 2 ≤ j → j ≤ n → j / 2 = i →
              dom heap.is_max_heap (slot heap.storage_.data_ c)
                (slot heap.storage_.data_ j)) →
            DownPre heap.is_max_heap heap.storage_.data_ n i →
            HeapOn heap.is_max_heap heap'.storage_.data_ n) := by
      intro c f hci hcn hc2 hf
      have hic : i < c := by omega
      rw [try_swap_value_valid f heap i c .DOWN (by omega) (by omega)]
      by_cases hc : heap.compare (slot heap.storage_.data_ c)
          (slot heap.storage_.data_ i) = true
      · simp only [hc, and_true, if_true]
        have hdci : dom heap.is_max_heap (slot heap.storage_.data_ c)
            (slot heap.storage_.data_ i) := compare_true_dom hc
        have hsw := Rearranges.swap n heap i c hi hin (by omega) hcn hlen
        have hsl : ∀ k, slot (swapSlots heap.storage_.data_ i c) k
            = if k = c then slot heap.storage_.data_ i
              else if k = i then slot heap.storage_.data_ c
              else slot heap.storage_.data_ k :=
          fun k => slot_swapSlots _ _ _ _ (by omega) (by omega)
        have hpre' : (∀ j, 2 ≤ j → j ≤ n → j / 2 = i →
              dom heap.is_max_heap (slot heap.storage_.data_ c)
                (slot heap.storage_.data_ j)) →
            DownPre heap.is_max_heap heap.storage_.data_ n i →
            DownPre heap.is_max_heap (swapSlots heap.storage_.data_ i c) n c := by
          intro hpref hpre
          constructor
          · intro j hj hjn hjp
            rw [hsl j, hsl (j / 2), if_neg hjp]
            by_cases hjc : j = c
            · subst hjc
              rw [if_pos rfl, if_pos hci]
              exact hdci
            · rw [if_neg hjc]
              by_cases hji : j = i
              · subst hji
                have e1 : ¬ j / 2 = j := by omega
                rw [if_pos rfl, if_neg e1]
                exact hpre.2 c hc2 hcn hci (by omega)
              · rw [if_neg hji]
                by_cases hjd : j / 2 = i
                · rw [if_pos hjd]
                  exact hpref j hj hjn hjd
                · rw [if_neg hjd]
                  exact hpre.1 j hj hjn hjd
          · intro j hj hjn hjp _
            have e1 : ¬ c / 2 = c := by omega
            have e2 : ¬ j = c := by omega
            have e3 : ¬ j = i := by omega
            rw [hsl j, hsl (c / 2), if_neg e1, if_pos hci, if_neg e2, if_neg e3]
            exact hjp ▸ hpre.1 j hj hjn (by omega)
        obtain ⟨heap', hres, hre, hheap⟩ :=
          ih (n - c) (by omega) c f (heap.withData (swapSlots heap.storage_.data_ i c))
            rfl (by simpa [Heap.withData] using hsz)
            (by simpa [Heap.withData, length_swapSlots] using hlen) (by omega) hcn
            (by omega)
        exact ⟨heap', hres, hsw.trans hre, fun hpref hpre => hheap (hpre' hpref hpre)⟩
      · simp only [hc, and_false, if_false, reduceCtorEq, false_and]
        refine ⟨heap, rfl, Rearranges.refl _ _, ?_⟩
        intro hpref hpre
        have hdic : dom heap.is_max_heap (slot heap.storage_.data_ i)
            (slot heap.storage_.data_ c) :=
          (compare_eq_false_iff heap _ _).1 (by simpa using hc)
        intro j hj hjn
        by_cases hji : j / 2 = i
        · rw [hji]
          exact dom_trans hdic (hpref j hj hjn hji)
        · exact hpre.1 j hj hjn hji
    obtain ⟨f, rfl⟩ : ∃ f, fuel = f + 1 := ⟨fuel - 1, by omega⟩
    by_cases hleaf : n < 2 * i
    · rw [heapify_down_leaf f heap i n hsz hleaf]
      refine ⟨heap, rfl, Rearranges.refl _ _, ?_⟩
      intro hpre j hj hjn
      exact hpre.1 j hj hjn (by omega)
    · obtain ⟨g, rfl⟩ : ∃ g, f = g + 1 := ⟨f - 1, by omega⟩
      by_cases hone : n = 2 * i
      · rw [heapify_down_one (g + 1) heap i n hsz hone hi]
        obtain ⟨heap', hres, hre, hheap⟩ :=
          hswap (2 * i) g (by omega) (by omega) (by omega) (by omega)
        refine ⟨heap', hres, hre, fun hpre => hheap ?_ hpre⟩
        intro j hj hjn hji
        have : j = 2 * i := by omega
        rw [this]
        exact dom_refl _ _
      · rw [heapify_down_two (g + 1) heap i n hsz (by omega) hlen]
        by_cases hc : heap.compare (slot heap.storage_.data_ (2 * i))
            (slot heap.storage_.data_ (2 * i + 1)) = true
        · rw [if_pos hc]
          obtain ⟨heap', hres, hre, hheap⟩ :=
            hswap (2 * i) g (by omega) (by omega) (by omega) (by omega)
          refine ⟨heap', hres, hre, fun hpre => hheap ?_ hpre⟩
          intro j hj hjn hji
          rcases (by omega : j = 2 * i ∨ j = 2 * i + 1) with h | h
          · rw [h]; exact dom_refl _ _
          · rw [h]; exact compare_true_dom hc
        · rw [if_neg hc]
          obtain ⟨heap', hres, hre, hheap⟩ :=
            hswap (2 * i + 1) g (by omega) (by omega) (by omega) (by omega)
          refine ⟨heap', hres, hre, fun hpre => hheap ?_ hpre⟩
          intro j hj hjn hji
          rcases (by omega : j = 2 * i ∨ j = 2 * i + 1) with h | h
          · rw [h]
            exact (compare_eq_false_iff heap _ _).1 (by simpa using hc)
          · rw [h]; exact dom_refl _ _

/-! ## Heap contents and the heap property -/

theorem slot_eq_getElem (d : List Int) (i : Nat) (h : i < d.length) :
    slot d i = d[i] := by
  simp [slot, List.getElem?_eq_getElem h]

theorem getElem?_eq_of_slot (d d' : List Int) (hlen : d'.length = d.length) (k : Nat)
    (h : slot d' k = slot d k) : d'[k]? = d[k]? := by
  by_cases hk : k < d.length
  · rw [List.getElem?_eq_getElem hk, List.getElem?_eq_getElem (by omega),
      ← slot_eq_getElem d k hk, ← slot_eq_getElem d' k (by omega), h]
  · rw [List.getElem?_eq_none (by omega), List.getElem?_eq_none (by omega)]

theorem mid_perm (d d' : List Int) (n : Nat) (hlen : d'.length = d.length)
    (hp : d'.Perm d)
    (hframe : ∀ k, (k = 0 ∨ n < k) → slot d' k = slot d k) :
    ((d'.drop 1).take n).Perm ((d.drop 1).take n) := by
  have hA : d'.take 1 = d.take 1 := by
    apply List.ext_getElem?
    intro k
    by_cases hk : k < 1
    · have : k = 0 := by omega
      subst this
      rw [List.getElem?_take_of_lt hk, List.getElem?_take_of_lt hk]
      exact getElem?_eq_of_slot d d' hlen 0 (hframe 0 (Or.inl rfl))
    · rw [List.getElem?_eq_none (by simp; omega), List.getElem?_eq_none (by simp; omega)]
  have hR : (d'.drop 1).drop n = (d.drop 1).drop n := by
    apply List.ext_getElem?
    intro k
    simp only [List.getElem?_drop]
    exact getElem?_eq_of_slot d d' hlen _ (hframe _ (Or.inr (by omega)))
  have e1 : d = d.take 1 ++ ((d.drop 1).take n ++ (d.drop 1).drop n) := by
    rw [List.take_append_drop, List.take_append_drop]
  have e2 : d' = d'.take 1 ++ ((d'.drop 1).take n ++ (d'.drop 1).drop n) := by
    rw [List.take_append_drop, List.take_append_drop]
  rw [e1, e2, hA, hR] at hp
  exact (List.perm_append_right_iff _).1 ((List.perm_append_left_iff _).1 hp)

theorem Rearranges.elems_perm {n : Nat} {h h' : Heap} (r : Rearranges n h h')
    (hsz : h.size_ = n) : h'.elems.Perm h.elems := by
  unfold Heap.elems
  rw [r.size_eq, hsz]
  exact mid_perm _ _ n r.length_eq r.perm r.frame

theorem mem_elems_iff (h : Heap) (n : Nat) (hsz : h.size_ = n)
    (hlen : n < h.storage_.data_.length) (x : Int) :
    x ∈ h.elems ↔ ∃ i, 1 ≤ i ∧ i ≤ n ∧ x = slot h.storage_.data_ i := by
  unfold Heap.elems
  rw [hsz]
  simp only [Int.toNat_ofNat, List.mem_iff_getElem?, List.getElem?_take, List.getElem?_drop]
  constructor
  · rintro ⟨k, hk⟩
    split at hk
    · rename_i hkn
      refine ⟨1 + k, by omega, by omega, ?_⟩
      rw [slot_eq_getElem _ _ (by omega)]
      rw [List.getElem?_eq_getElem (by omega)] at hk
      exact (Option.some.inj hk).symm
    · exact absurd hk (by simp)
  · rintro ⟨i, hi1, hin, rfl⟩
    refine ⟨i - 1, ?_⟩
    rw [if_pos (by omega)]
    have : 1 + (i - 1) = i := by omega
    rw [this, List.getElem?_eq_getElem (by omega), slot_eq_getElem _ _ (by omega)]

theorem root_dom (b : Bool) (d : List Int) (n : Nat) (hh : HeapOn b d n) :
    ∀ i, 1 ≤ i → i ≤ n → dom b (slot d 1) (slot d i) := by
  intro i
  induction i using Nat.strong_induction_on with
  | _ i ih =>
    intro hi hin
    by_cases h1 : i = 1
    · subst h1; exact dom_refl _ _
    · exact dom_trans (ih (i / 2) (by omega) (by omega) (by omega)) (hh i (by omega) hin)

theorem elems_push (d : List Int) (n : Nat) (v : Int) (hcap : n + 1 < d.length) :
    ((d.set (n + 1) v).drop 1).take (n + 1) = (d.drop 1).take n ++ [v] := by
  apply List.ext_getElem?
  intro k
  rw [List.getElem?_take, List.getElem?_drop, List.getElem?_set, List.getElem?_append]
  simp only [List.getElem?_take, List.getElem?_drop, List.length_take, List.length_drop]
  have hmin : min n (d.length - 1) = n := by omega
  rw [hmin]
  by_cases h1 : k < n
  · have e : ¬ n + 1 = 1 + k := by omega
    simp [h1, e, Nat.lt_succ_of_lt h1]
  · by_cases h2 : k = n
    · subst h2
      have e : k + 1 = 1 + k := by omega
      simp [e, hcap]
      omega
    · have e : ¬ k < n + 1 := by omega
      have e2 : ¬ k - n = 0 := by omega
      simp [h1, e]
      omega

theorem elems_pop (M : List Int) (n : Nat) (hn : 1 ≤ n) (hlen : n ≤ M.length) :
    (M.getD 0 0 :: (M.set 0 (M.getD (n - 1) 0)).take (n - 1)).Perm (M.take n) := by
  cases M with
  | nil => simp at hlen; omega
  | cons a t =>
    obtain ⟨m, rfl⟩ : ∃ m, n = m + 1 := ⟨n - 1, by omega⟩
    cases m with
    | zero => simp
    | succ m =>
      simp only [List.length_cons] at hlen
      have hm : m < t.length := by omega
      simp only [Nat.add_sub_cancel, List.set_cons_zero, List.take_succ_cons,
        List.getD_cons_zero, List.getD_cons_succ]
      refine List.Perm.cons a ?_
      rw [List.take_succ (l := t), List.getD_eq_getElem?_getD, List.getElem?_eq_getElem hm]
      simp only [Option.getD_some, Option.toList_some]
      exact (List.perm_append_singleton _ _).symm

theorem store_eq (fuel : Nat) (h : Heap) (v : Int) (n : Nat) (hsz : h.size_ = n)
    (hcap : n + 1 < h.storage_.data_.length) :
    h.store fuel v
      = if n = 0 then .ok (h.appended n v)
        else HeapNode.heapify_up fuel ⟨((n + 1 : Nat) : Int)⟩ (h.appended n v) := by
  have hw := index_write_ok h.storage_.data_ (n + 1) v hcap
  push_cast at hw
  unfold Heap.store Heap.appended
  simp only [hsz, ManagedDynamicArray.set, hw, ROOT_INDEX]
  by_cases h0 : n = 0
  · subst h0; simp
  · have : ¬ ((n : Int) + 1 = 1) := by omega
    simp [h0, this]

theorem store_spec (fuel : Nat) (h : Heap) (v : Int) (n : Nat) (hsz : h.size_ = n)
    (hcap : n + 1 < h.storage_.data_.length) (hf : 2 * (n + 1) ≤ fuel) :
    ∃ h', h.store fuel v = .ok h' ∧ h'.size_ = ((n + 1 : Nat) : Int) ∧
      h'.is_max_heap = h.is_max_heap ∧
      h'.storage_.data_.length = h.storage_.data_.length ∧
      h'.storage_.size_ = h.storage_.size_ ∧
      h'.elems.Perm (h.elems ++ [v]) ∧ (h.ordered → h'.ordered) := by
  rw [store_eq fuel h v n hsz hcap]
  have hel : (h.appended n v).elems = h.elems ++ [v] := by
    unfold Heap.elems Heap.appended
    simp only [hsz, Int.toNat_ofNat]
    exact elems_push _ _ _ hcap
  have hup : h.ordered → UpPre h.is_max_heap (h.appended n v).storage_.data_ (n + 1) (n + 1) := by
    intro ho
    unfold Heap.ordered at ho
    rw [hsz, Int.toNat_ofNat] at ho
    constructor
    · intro j hj hjn hne
      simp only [Heap.appended]
      rw [slot_set _ _ _ _ hcap, slot_set _ _ _ _ hcap, if_neg (by omega), if_neg (by omega)]
      exact ho j hj (by omega)
    · intro j _ hjn hjp _
      omega
  by_cases h0 : n = 0
  · rw [if_pos h0]
    refine ⟨h.appended n v, rfl, rfl, rfl, by simp [Heap.appended], rfl, by rw [hel], ?_⟩
    intro _ j hj hjn
    simp only [Heap.appended, Int.toNat_ofNat] at hjn
    omega
  · rw [if_neg h0]
    obtain ⟨h', hres, hre, hheap⟩ :=
      heapify_up_spec (n + 1) (n + 1) fuel (h.appended n v)
        (by simpa [Heap.appended] using hcap) (by omega) (le_refl _) hf
    refine ⟨h', hres, hre.size_eq, hre.kind_eq, ?_, hre.cap_eq, ?_, ?_⟩
    · rw [hre.length_eq]; simp [Heap.appended]
    · rw [← hel]; exact hre.elems_perm rfl
    · intro ho
      unfold Heap.ordered
      rw [hre.size_eq, hre.kind_eq]
      simpa [Heap.appended] using hheap (hup ho)

theorem take_eq (fuel : Nat) (h : Heap) (m : Nat) (hsz : h.size_ = ((m + 1 : Nat) : Int))
    (hlen : m + 1 < h.storage_.data_.length) :
    h.take fuel
      = if 1 < m then
          match HeapNode.heapify_down fuel ⟨1⟩ (h.popped m) with
          | .ok h3 => .ok (some (slot h.storage_.data_ 1), h3)
          | .error e => .error e
        else .ok (some (slot h.storage_.data_ 1), h.popped m) := by
  have hr1 := index_read_ok h.storage_.data_ 1 (by omega)
  have hrn := index_read_ok h.storage_.data_ (m + 1) hlen
  have hw := index_write_ok h.storage_.data_ 1 (slot h.storage_.data_ (m + 1)) (by omega)
  push_cast at hr1 hrn hw
  have hne : ¬ ((m : Int) + 1 = 0) := by omega
  unfold Heap.take Heap.peek Heap.popped
  simp only [hsz, ManagedDynamicArray.get, ManagedDynamicArray.set, ROOT_INDEX]
  push_cast
  simp only [hr1, hrn, hw, beq_iff_eq, hne, if_false, add_sub_cancel_right]
  by_cases h1 : 1 < m
  · have : (1 : Int) < (m : Int) := by omega
    simp [h1, this]
  · have : ¬ (1 : Int) < (m : Int) := by omega
    simp [h1, this]

theorem take_spec (fuel : Nat) (h : Heap) (m : Nat) (hsz : h.size_ = ((m + 1 : Nat) : Int))
    (hlen : m + 1 < h.storage_.data_.length) (hf : 2 * m ≤ fuel) :
    ∃ h', h.take fuel = .ok (some (slot h.storage_.data_ 1), h') ∧ h'.size_ = (m : Int) ∧
      h'.is_max_heap = h.is_max_heap ∧
      h'.storage_.data_.length = h.storage_.data_.length ∧
      h'.storage_.size_ = h.storage_.size_ ∧
      (slot h.storage_.data_ 1 :: h'.elems).Perm h.elems ∧ (h.ordered → h'.ordered) := by
  rw [take_eq fuel h m hsz hlen]
  have hel : (slot h.storage_.data_ 1 :: (h.popped m).elems).Perm h.elems := by
    unfold Heap.elems Heap.popped
    simp only [hsz, Int.toNat_ofNat]
    have := elems_pop (h.storage_.data_.drop 1) (m + 1) (by omega)
      (by simp only [List.length_drop]; omega)
    simpa [slot, List.drop_set, Nat.add_comm] using this
  have hdown : h.ordered → DownPre h.is_max_heap (h.popped m).storage_.data_ m 1 := by
    intro ho
    unfold Heap.ordered at ho
    rw [hsz, Int.toNat_ofNat] at ho
    constructor
    · intro j hj hjn hne
      simp only [Heap.popped]
      rw [slot_set _ _ _ _ (by omega), slot_set _ _ _ _ (by omega), if_neg (by omega),
        if_neg (by omega)]
      exact ho j hj (by omega)
    · intro j _ _ _ h2
      omega
  by_cases h1 : 1 < m
  · rw [if_pos h1]
    obtain ⟨h', hres, hre, hheap⟩ :=
      heapify_down_spec m (m - 1) 1 fuel (h.popped m) rfl rfl
        (by simp only [Heap.popped, List.length_set]; omega) (le_refl _) (by omega) (by omega)
    have hres' : HeapNode.heapify_down fuel ⟨1⟩ (h.popped m) = .ok h' := hres
    rw [hres']
    refine ⟨h', rfl, hre.size_eq, hre.kind_eq, ?_, hre.cap_eq, ?_, ?_⟩
    · rw [hre.length_eq]; simp [Heap.popped]
    · exact (List.Perm.cons _ (hre.elems_perm rfl)).trans hel
    · intro ho
      unfold Heap.ordered
      rw [hre.size_eq, hre.kind_eq]
      simpa [Heap.popped] using hheap (hdown ho)
  · rw [if_neg h1]
    refine ⟨h.popped m, rfl, rfl, rfl, by simp [Heap.popped], rfl, hel, ?_⟩
    intro _ j hj hjn
    simp only [Heap.popped, Int.toNat_ofNat] at hjn
    omega

/-! ## Heap operations: the stated properties -/

theorem elems_new (c : Nat) : (Heap.new c).elems = [] := by
  simp [Heap.elems, Heap.new]

/-- C5, as amended: `store` has no capacity check.  On a heap whose size equals
its capacity `c` (a buffer of `c + 1` slots) it increments `size_` to `c + 1`
and then issues the write `storage_[size_]` at index `c + 1`, one past the
allocated slots: the call is an out-of-bounds access, not a reported capacity
violation. -/
theorem store_full_out_of_bounds (fuel : Nat) (h : Heap) (v : Int) (c : Nat)
    (hslots : h.storage_.data_.length = c + 1) (hfull : h.size_ = (c : Int)) :
    h.store fuel v = .error (.out_of_bounds ((c : Int) + 1)) := by
  have hw := index_write_oob h.storage_.data_ ((c : Int) + 1) v (Or.inr (by omega))
  unfold Heap.store
  simp only [hfull, ManagedDynamicArray.set, hw]

theorem store_full_out_of_bounds_witness :
    (⟨1, ⟨[0, 7], 2⟩, false⟩ : Heap).storage_.data_.length = 1 + 1 ∧
    (⟨1, ⟨[0, 7], 2⟩, false⟩ : Heap).size_ = ((1 : Nat) : Int) ∧
    (⟨1, ⟨[0, 7], 2⟩, false⟩ : Heap).store 4 3
      = .error (.out_of_bounds (((1 : Nat) : Int) + 1)) :=
  ⟨rfl, rfl, store_full_out_of_bounds 4 ⟨1, ⟨[0, 7], 2⟩, false⟩ 3 1 rfl rfl⟩

/-- C5, counterexample: a heap of capacity 1 (two slots) is filled by one
`store`; the next `store` does not fail with a capacity violation that leaves
the buffer alone: it targets slot 2, outside the two allocated slots `0..1`,
`size_` having been incremented to 2 for that write. -/
theorem store_full_counterexample :
    (Heap.new 1).store 4 7 = .ok ⟨1, ⟨[0, 7], 2⟩, false⟩ ∧
    (⟨1, ⟨[0, 7], 2⟩, false⟩ : Heap).storage_.data_.length = 2 ∧
    (⟨1, ⟨[0, 7], 2⟩, false⟩ : Heap).store 4 3 = .error (.out_of_bounds 2) := by
  decide

theorem take_of_size_zero (fuel : Nat) (h : Heap) (hsz : h.size_ = 0) :
    h.take fuel = .ok (none, h) := by
  simp [Heap.take, Heap.peek, hsz]

/-- C6: on every heap with `size_ = 0`, `take()` returns the empty optional and
the heap is unchanged (size and storage); this holds in particular for the
freshly constructed `Heap` and `MaxHeap` of any capacity `c`. -/
theorem take_empty (fuel : Nat) (h : Heap) (c : Nat) (hsz : h.size_ = 0) :
    h.take fuel = .ok (none, h) ∧
    (Heap.new c).take fuel = .ok (none, Heap.new c) ∧
    (MaxHeap.new c).take fuel = .ok (none, MaxHeap.new c) := by
  exact ⟨take_of_size_zero fuel h hsz, take_of_size_zero fuel _ rfl,
    take_of_size_zero fuel _ rfl⟩

theorem take_empty_witness :
    (⟨0, ⟨[4, 9, 2], 3⟩, false⟩ : Heap).size_ = 0 ∧
    (⟨0, ⟨[4, 9, 2], 3⟩, false⟩ : Heap).take 0 = .ok (none, ⟨0, ⟨[4, 9, 2], 3⟩, false⟩) :=
  ⟨rfl, (take_empty 0 ⟨0, ⟨[4, 9, 2], 3⟩, false⟩ 1 rfl).1⟩

/-- C8: on every heap with `0 ≤ size_ = n < capacity` (the buffer has more than
`n + 1` slots), `store(v)` returns, the size becomes `n + 1`, and the values in
slots `1..n+1` are a permutation of the previous values of slots `1..n`
together with one `v`. -/
theorem store_adds_value (fuel : Nat) (h : Heap) (v : Int) (hpos : 0 ≤ h.size_)
    (hcap : h.size_ + 1 < h.storage_.data_.length)
    (hf : 2 * (h.size_.toNat + 1) ≤ fuel) :
    ∃ h', h.store fuel v = .ok h' ∧ h'.size_ = h.size_ + 1 ∧
      h'.elems.Perm (v :: h.elems) := by
  obtain ⟨h', hres, hsz, _, _, _, hperm, _⟩ :=
    store_spec fuel h v h.size_.toNat (by omega) (by omega) hf
  refine ⟨h', hres, ?_, hperm.trans (List.perm_append_singleton _ _)⟩
  rw [hsz]; push_cast; omega

theorem store_adds_value_witness :
    ∃ h', (⟨2, ⟨[0, 3, 5, 0], 4⟩, false⟩ : Heap).store 6 1 = .ok h' ∧
      h'.size_ = (⟨2, ⟨[0, 3, 5, 0], 4⟩, false⟩ : Heap).size_ + 1 ∧
      h'.elems.Perm (1 :: (⟨2, ⟨[0, 3, 5, 0], 4⟩, false⟩ : Heap).elems) :=
  store_adds_value 6 ⟨2, ⟨[0, 3, 5, 0], 4⟩, false⟩ 1 (by decide) (by decide) (by decide)

/-- C7: on every min-heap (`Heap`) that satisfies the heap property and has
`1 ≤ size_ = n ≤ capacity`, `take()` returns the value of the root slot 1; that
value is one of the stored values and is `≤` every stored value; afterwards
the size is `n - 1` and the values in slots `1..n-1` are a permutation of the
previous values with one occurrence of the returned value removed. -/
theorem take_returns_minimum (fuel : Nat) (h : Heap) (hmin : h.is_max_heap = false)
    (hpos : 1 ≤ h.size_) (hcap : h.size_ < h.storage_.data_.length) (ho : h.ordered)
    (hf : 2 * h.size_.toNat ≤ fuel) :
    ∃ v h', h.take fuel = .ok (some v, h') ∧ v = slot h.storage_.data_ 1 ∧
      v ∈ h.elems ∧ (∀ x ∈ h.elems, v ≤ x) ∧ h'.size_ = h.size_ - 1 ∧
      h'.elems.Perm (h.elems.erase v) := by
  obtain ⟨m, hm⟩ : ∃ m : Nat, h.size_ = ((m + 1 : Nat) : Int) :=
    ⟨h.size_.toNat - 1, by omega⟩
  obtain ⟨h', hres, hsz, _, _, _, hperm, _⟩ :=
    take_spec fuel h m hm (by omega) (by omega)
  have hmem : slot h.storage_.data_ 1 ∈ h.elems :=
    (mem_elems_iff h (m + 1) hm (by omega) _).2 ⟨1, le_refl _, by omega, rfl⟩
  refine ⟨_, h', hres, rfl, hmem, ?_, ?_, ?_⟩
  · intro x hx
    obtain ⟨i, hi1, hin, rfl⟩ := (mem_elems_iff h (m + 1) hm (by omega) x).1 hx
    have ho' : HeapOn false h.storage_.data_ (m + 1) := by
      have := ho
      unfold Heap.ordered at this
      rwa [hmin, hm, Int.toNat_ofNat] at this
    have := root_dom false _ _ ho' i hi1 hin
    simpa [dom] using this
  · rw [hsz, hm]; push_cast; omega
  · have := hperm.symm.erase (slot h.storage_.data_ 1)
    rw [List.erase_cons_head] at this
    exact this.symm

theorem take_returns_minimum_witness :
    ∃ v h', (⟨3, ⟨[0, 1, 4, 2], 4⟩, false⟩ : Heap).take 6 = .ok (some v, h') ∧
      v = slot (⟨3, ⟨[0, 1, 4, 2], 4⟩, false⟩ : Heap).storage_.data_ 1 ∧
      v ∈ (⟨3, ⟨[0, 1, 4, 2], 4⟩, false⟩ : Heap).elems ∧
      (∀ x ∈ (⟨3, ⟨[0, 1, 4, 2], 4⟩, false⟩ : Heap).elems, v ≤ x) ∧
      h'.size_ = (⟨3, ⟨[0, 1, 4, 2], 4⟩, false⟩ : Heap).size_ - 1 ∧
      h'.elems.Perm ((⟨3, ⟨[0, 1, 4, 2], 4⟩, false⟩ : Heap).elems.erase v) :=
  take_returns_minimum 6 ⟨3, ⟨[0, 1, 4, 2], 4⟩, false⟩ rfl (by decide) (by decide)
    (by
      intro i h2 hi
      have hi3 : i ≤ 3 := hi
      interval_cases i <;> simp [dom, slot])
    (by decide)

/-- C9: `peek()` returns the empty optional iff `size_` is 0; on a heap with
`1 ≤ size_ ≤ capacity` it returns the value of the root slot 1; and on every
heap with `0 ≤ size_ ≤ capacity` the value `peek()` returns is the value the
next `take()` returns.  `peek` is a `const` member: it yields a value only, so
size and storage are the same before and after it. -/
theorem peek_spec (fuel : Nat) (h : Heap) (hpos : 0 ≤ h.size_)
    (hcap : h.size_ < h.storage_.data_.length) (hf : 2 * h.size_.toNat ≤ fuel) :
    (h.peek = .ok none ↔ h.size_ = 0) ∧
    (h.size_ ≠ 0 → h.peek = .ok (some (slot h.storage_.data_ 1))) ∧
    (∃ r h', h.peek = .ok r ∧ h.take fuel = .ok (r, h')) := by
  have hpeek : h.size_ ≠ 0 → h.peek = .ok (some (slot h.storage_.data_ 1)) := by
    intro hne
    have hr1 := index_read_ok h.storage_.data_ 1 (by omega)
    push_cast at hr1
    simp [Heap.peek, hne, ManagedDynamicArray.get, ROOT_INDEX, hr1]
  refine ⟨?_, hpeek, ?_⟩
  · constructor
    · intro hp
      by_contra hne
      rw [hpeek hne] at hp
      simp at hp
    · intro h0
      simp [Heap.peek, h0]
  · by_cases h0 : h.size_ = 0
    · exact ⟨none, h, by simp [Heap.peek, h0], take_of_size_zero fuel h h0⟩
    · obtain ⟨m, hm⟩ : ∃ m : Nat, h.size_ = ((m + 1 : Nat) : Int) :=
        ⟨h.size_.toNat - 1, by omega⟩
      obtain ⟨h', hres, _⟩ := take_spec fuel h m hm (by omega) (by omega)
      exact ⟨_, h', hpeek h0, hres⟩

theorem peek_spec_witness :
    ((⟨3, ⟨[0, 1, 4, 2], 4⟩, false⟩ : Heap).peek = .ok none
      ↔ (⟨3, ⟨[0, 1, 4, 2], 4⟩, false⟩ : Heap).size_ = 0) ∧
    ((⟨3, ⟨[0, 1, 4, 2], 4⟩, false⟩ : Heap).size_ ≠ 0 →
      (⟨3, ⟨[0, 1, 4, 2], 4⟩, false⟩ : Heap).peek
        = .ok (some (slot (⟨3, ⟨[0, 1, 4, 2], 4⟩, false⟩ : Heap).storage_.data_ 1))) ∧
    (∃ r h', (⟨3, ⟨[0, 1, 4, 2], 4⟩, false⟩ : Heap).peek = .ok r ∧
      (⟨3, ⟨[0, 1, 4, 2], 4⟩, false⟩ : Heap).take 6 = .ok (r, h')) :=
  peek_spec 6 ⟨3, ⟨[0, 1, 4, 2], 4⟩, false⟩ (by decide) (by decide) (by decide)

/-! ## Filling and draining a heap -/

theorem store_all_spec (fuel : Nat) :
    ∀ (vs : List Int) (h : Heap) (n : Nat), h.size_ = (n : Int) →
      n + vs.length < h.storage_.data_.length → 2 * (n + vs.length) ≤ fuel →
      ∃ h', h.store_all fuel vs = .ok h' ∧ h'.size_ = ((n + vs.length : Nat) : Int) ∧
        h'.is_max_heap = h.is_max_heap ∧
        h'.storage_.data_.length = h.storage_.data_.length ∧
        h'.elems.Perm (h.elems ++ vs) ∧ (h.ordered → h'.ordered) := by
  intro vs
  induction vs with
  | nil =>
    intro h n hsz _ _
    exact ⟨h, rfl, by simpa using hsz, rfl, rfl, by simp, id⟩
  | cons v vs ih =>
    intro h n hsz hcap hf
    simp only [List.length_cons] at hcap hf
    obtain ⟨h1, hres, hsz1, hk1, hl1, _, hp1, ho1⟩ :=
      store_spec fuel h v n hsz (by omega) (by omega)
    obtain ⟨h2, hres2, hsz2, hk2, hl2, hp2, ho2⟩ :=
      ih h1 (n + 1) hsz1 (by omega) (by omega)
    refine ⟨h2, ?_, ?_, hk2.trans hk1, hl2.trans hl1, ?_, fun ho => ho2 (ho1 ho)⟩
    · simp only [Heap.store_all, hres, hres2]
    · rw [hsz2]; simp only [List.length_cons]; congr 1; omega
    · refine hp2.trans ?_
      have : h.elems ++ v :: vs = (h.elems ++ [v]) ++ vs := by simp
      rw [this]
      exact List.Perm.append_right vs hp1

theorem take_n_spec (fuel : Nat) :
    ∀ (n : Nat) (h : Heap), h.size_ = (n : Int) → n < h.storage_.data_.length →
      h.ordered → 2 * n ≤ fuel →
      ∃ (out : List Int) (h' : Heap), h.take_n fuel n = .ok (out.map some, h') ∧ h'.size_ = 0 ∧
        out.Perm h.elems ∧ out.Pairwise (dom h.is_max_heap) ∧
        h'.is_max_heap = h.is_max_heap ∧
        h'.storage_.data_.length = h.storage_.data_.length := by
  intro n
  induction n with
  | zero =>
    intro h hsz _ _ _
    refine ⟨[], h, rfl, by simpa using hsz, ?_, List.Pairwise.nil, rfl, rfl⟩
    simp [Heap.elems, hsz]
  | succ m ih =>
    intro h hsz hcap ho hf
    obtain ⟨h1, hres, hsz1, hk1, hl1, _, hp1, ho1⟩ :=
      take_spec fuel h m hsz hcap (by omega)
    obtain ⟨out, h2, hres2, hsz2, hp2, hpw, hk2, hl2⟩ :=
      ih h1 hsz1 (by omega) (ho1 ho) (by omega)
    refine ⟨slot h.storage_.data_ 1 :: out, h2, ?_, hsz2, ?_, ?_, hk2.trans hk1,
      hl2.trans hl1⟩
    · simp only [Heap.take_n, hres, hres2, List.map_cons]
    · exact (List.Perm.cons _ hp2).trans hp1
    · rw [List.pairwise_cons]
      refine ⟨?_, hk1 ▸ hpw⟩
      intro x hx
      have hx1 : x ∈ h.elems :=
        hp1.subset (List.mem_cons_of_mem _ (hp2.subset hx))
      obtain ⟨i, hi1, hin, rfl⟩ := (mem_elems_iff h (m + 1) hsz hcap x).1 hx1
      have ho' : HeapOn h.is_max_heap h.storage_.data_ (m + 1) := by
        have := ho
        unfold Heap.ordered at this
        rwa [hsz, Int.toNat_ofNat] at this
      exact root_dom _ _ _ ho' i hi1 hin

theorem ordered_of_size_zero (h : Heap) (hsz : h.size_ = 0) : h.ordered := by
  intro i h2 hi
  rw [hsz] at hi
  simp at hi
  omega

theorem fill_drain_spec (fuel : Nat) (vs : List Int) (h0 : Heap) (hsz : h0.size_ = 0)
    (hcap : vs.length < h0.storage_.data_.length) (hf : 2 * vs.length ≤ fuel) :
    ∃ (h : Heap) (out : List Int) (h' : Heap), h0.store_all fuel vs = .ok h ∧
      h.take_n fuel vs.length = .ok (out.map some, h') ∧
      out.Pairwise (dom h0.is_max_heap) ∧ out.Perm vs ∧ h'.size_ = 0 := by
  obtain ⟨h, hres, hsz1, hk1, hl1, hp1, ho1⟩ :=
    store_all_spec fuel vs h0 0 (by simpa using hsz) (by omega) (by omega)
  simp only [Nat.zero_add] at hsz1
  obtain ⟨out, h', hres2, hsz2, hp2, hpw, _, _⟩ :=
    take_n_spec fuel vs.length h hsz1 (by omega) (ho1 (ordered_of_size_zero h0 hsz))
      hf
  refine ⟨h, out, h', hres, hres2, hk1 ▸ hpw, hp2.trans (hp1.trans ?_), hsz2⟩
  have : h0.elems = [] := by simp [Heap.elems, hsz]
  rw [this]
  simp

/-- C2: for every list `vs` of `n` values stored one by one into an empty
min-heap of capacity `c ≥ n`, the `n` stores return and `n` successive `take`
calls all return a value; the returned sequence is non-decreasing and is a
permutation of the stored values. -/
theorem min_heap_fill_drain (fuel : Nat) (vs : List Int) (c : Nat)
    (hc : vs.length ≤ c) (hf : 2 * vs.length ≤ fuel) :
    ∃ (h : Heap) (out : List Int) (h' : Heap), (Heap.new c).store_all fuel vs = .ok h ∧
      h.take_n fuel vs.length = .ok (out.map some, h') ∧
      out.Sorted (· ≤ ·) ∧ out.Perm vs := by
  obtain ⟨h, out, h', h1, h2, h3, h4, _⟩ :=
    fill_drain_spec fuel vs (Heap.new c) rfl
      (by simp [Heap.new, ManagedDynamicArray.new]; omega) hf
  refine ⟨h, out, h', h1, h2, ?_, h4⟩
  exact h3.imp (fun hab => by simpa [dom, Heap.new] using hab)

theorem min_heap_fill_drain_witness :
    [5, 3, 8, 1, 9].length ≤ 5 ∧ 2 * [5, 3, 8, 1, 9].length ≤ 10 ∧
    (∃ (h : Heap) (out : List Int) (h' : Heap), (Heap.new 5).store_all 10 [5, 3, 8, 1, 9] = .ok h ∧
      h.take_n 10 [5, 3, 8, 1, 9].length = .ok (out.map some, h') ∧
      out.Sorted (· ≤ ·) ∧ out.Perm [5, 3, 8, 1, 9]) ∧
    (Heap.new 5).store_all 10 [5, 3, 8, 1, 9]
      = .ok ⟨5, ⟨[0, 1, 3, 8, 5, 9], 6⟩, false⟩ ∧
    (⟨5, ⟨[0, 1, 3, 8, 5, 9], 6⟩, false⟩ : Heap).take_n 10 5
      = .ok ([some 1, some 3, some 5, some 8, some 9],
          ⟨0, ⟨[0, 9, 9, 8, 9, 9], 6⟩, false⟩) :=
  ⟨by decide, by decide, min_heap_fill_drain 10 [5, 3, 8, 1, 9] 5 (by decide) (by decide),
    by decide!, by decide!⟩

/-- C3: for every list `vs` of `n` values stored one by one into an empty
`MaxHeap` of capacity `c ≥ n`, the `n` stores return and `n` successive `take`
calls all return a value; the returned sequence is non-increasing and is a
permutation of the stored values. -/
theorem max_heap_fill_drain (fuel : Nat) (vs : List Int) (c : Nat)
    (hc : vs.length ≤ c) (hf : 2 * vs.length ≤ fuel) :
    ∃ (h : Heap) (out : List Int) (h' : Heap), (MaxHeap.new c).store_all fuel vs = .ok h ∧
      h.take_n fuel vs.length = .ok (out.map some, h') ∧
      out.Sorted (· ≥ ·) ∧ out.Perm vs := by
  obtain ⟨h, out, h', h1, h2, h3, h4, _⟩ :=
    fill_drain_spec fuel vs (MaxHeap.new c) rfl
      (by simp [MaxHeap.new, Heap.new, ManagedDynamicArray.new]; omega) hf
  refine ⟨h, out, h', h1, h2, ?_, h4⟩
  exact h3.imp (fun hab => by simpa [dom, MaxHeap.new] using hab)

theorem max_heap_fill_drain_witness :
    [5, 3, 8].length ≤ 3 ∧ 2 * [5, 3, 8].length ≤ 6 ∧
    (∃ (h : Heap) (out : List Int) (h' : Heap), (MaxHeap.new 3).store_all 6 [5, 3, 8] = .ok h ∧
      h.take_n 6 [5, 3, 8].length = .ok (out.map some, h') ∧
      out.Sorted (· ≥ ·) ∧ out.Perm [5, 3, 8]) ∧
    (MaxHeap.new 3).store_all 6 [5, 3, 8] = .ok ⟨3, ⟨[0, 8, 3, 5], 4⟩, true⟩ ∧
    (⟨3, ⟨[0, 8, 3, 5], 4⟩, true⟩ : Heap).take_n 6 3
      = .ok ([some 8, some 5, some 3], ⟨0, ⟨[0, 3, 3, 5], 4⟩, true⟩) :=
  ⟨by decide, by decide, max_heap_fill_drain 6 [5, 3, 8] 3 (by decide) (by decide),
    by decide!, by decide!⟩

/-! ## The heap invariant along interleaved operations -/

/-- C4: starting from a freshly constructed heap (`Heap` or `MaxHeap`) of
capacity `c`, after every operation of any interleaved sequence of `store` and
`take` calls (`store` issued only while `size_ < c`), `0 ≤ size_ ≤ c` and the
heap property holds over `[1, size_]`: in a min-heap every slot `i ≥ 2` is `≥`
its parent at `i / 2`, in a max-heap `≤`.  Every such call returns: from each
state so reached `take` returns, and `store` returns while `size_ < c`. -/
theorem heap_invariant (fuel c : Nat) (h0 h : Heap) (hf : 2 * c ≤ fuel)
    (hfresh : h0 = Heap.new c ∨ h0 = MaxHeap.new c) (hr : Reachable fuel c h0 h) :
    (0 ≤ h.size_ ∧ h.size_ ≤ (c : Int)) ∧
    (h.is_max_heap = false → ∀ i : Nat, 2 ≤ i → (i : Int) ≤ h.size_ →
      slot h.storage_.data_ (i / 2) ≤ slot h.storage_.data_ i) ∧
    (h.is_max_heap = true → ∀ i : Nat, 2 ≤ i → (i : Int) ≤ h.size_ →
      slot h.storage_.data_ i ≤ slot h.storage_.data_ (i / 2)) ∧
    h.is_max_heap = h0.is_max_heap ∧
    (∀ v, h.size_ < (c : Int) → ∃ h1, h.store fuel v = .ok h1) ∧
    (∃ r h1, h.take fuel = .ok (r, h1)) := by
  have hinv : 0 ≤ h.size_ ∧ h.size_ ≤ (c : Int) ∧ h.storage_.data_.length = c + 1 ∧
      h.is_max_heap = h0.is_max_heap ∧ h.ordered := by
    induction hr with
    | fresh =>
      rcases hfresh with rfl | rfl
      · refine ⟨by simp [Heap.new], by simp [Heap.new], ?_, rfl, ?_⟩
        · simp [Heap.new, ManagedDynamicArray.new]
        · exact ordered_of_size_zero _ rfl
      · refine ⟨by simp [MaxHeap.new, Heap.new], by simp [MaxHeap.new, Heap.new], ?_, rfl, ?_⟩
        · simp [MaxHeap.new, Heap.new, ManagedDynamicArray.new]
        · exact ordered_of_size_zero _ rfl
    | store h h1 v _ hlt hres ih =>
      obtain ⟨hp, _, hl, hk, ho⟩ := ih
      obtain ⟨h', hres', hsz', hk', hl', _, _, ho'⟩ :=
        store_spec fuel h v h.size_.toNat (by omega) (by omega) (by omega)
      rw [hres] at hres'
      cases hres'
      refine ⟨by omega, by omega, hl'.trans hl, hk'.trans hk, ho' ho⟩
    | take h h1 r _ hres ih =>
      obtain ⟨hp, hc, hl, hk, ho⟩ := ih
      by_cases h0' : h.size_ = 0
      · rw [take_of_size_zero fuel h h0'] at hres
        cases hres
        exact ⟨hp, hc, hl, hk, ho⟩
      · obtain ⟨m, hm⟩ : ∃ m : Nat, h.size_ = ((m + 1 : Nat) : Int) :=
          ⟨h.size_.toNat - 1, by omega⟩
        obtain ⟨h', hres', hsz', hk', hl', _, _, ho'⟩ :=
          take_spec fuel h m hm (by omega) (by omega)
        rw [hres] at hres'
        cases hres'
        refine ⟨by omega, by omega, hl'.trans hl, hk'.trans hk, ho' ho⟩
  obtain ⟨hp, hc, hl, hk, ho⟩ := hinv
  refine ⟨⟨hp, hc⟩, ?_, ?_, hk, ?_, ?_⟩
  · intro hmin i hi hin
    have := ho i hi (by omega)
    simpa [dom, hmin] using this
  · intro hmax i hi hin
    have := ho i hi (by omega)
    simpa [dom, hmax] using this
  · intro v hlt
    obtain ⟨h', hres', _⟩ :=
      store_spec fuel h v h.size_.toNat (by omega) (by omega) (by omega)
    exact ⟨h', hres'⟩
  · by_cases h0' : h.size_ = 0
    · exact ⟨none, h, take_of_size_zero fuel h h0'⟩
    · obtain ⟨m, hm⟩ : ∃ m : Nat, h.size_ = ((m + 1 : Nat) : Int) :=
        ⟨h.size_.toNat - 1, by omega⟩
      obtain ⟨h', hres', _⟩ := take_spec fuel h m hm (by omega) (by omega)
      exact ⟨_, h', hres'⟩

theorem heap_invariant_witness :
    (0 ≤ (⟨2, ⟨[0, 3, 5], 3⟩, false⟩ : Heap).size_ ∧
      (⟨2, ⟨[0, 3, 5], 3⟩, false⟩ : Heap).size_ ≤ ((2 : Nat) : Int)) ∧
    ((⟨2, ⟨[0, 3, 5], 3⟩, false⟩ : Heap).is_max_heap = false →
      ∀ i : Nat, 2 ≤ i → (i : Int) ≤ (⟨2, ⟨[0, 3, 5], 3⟩, false⟩ : Heap).size_ →
      slot (⟨2, ⟨[0, 3, 5], 3⟩, false⟩ : Heap).storage_.data_ (i / 2)
        ≤ slot (⟨2, ⟨[0, 3, 5], 3⟩, false⟩ : Heap).storage_.data_ i) ∧
    ((⟨2, ⟨[0, 3, 5], 3⟩, false⟩ : Heap).is_max_heap = true →
      ∀ i : Nat, 2 ≤ i → (i : Int) ≤ (⟨2, ⟨[0, 3, 5], 3⟩, false⟩ : Heap).size_ →
      slot (⟨2, ⟨[0, 3, 5], 3⟩, false⟩ : Heap).storage_.data_ i
        ≤ slot (⟨2, ⟨[0, 3, 5], 3⟩, false⟩ : Heap).storage_.data_ (i / 2)) ∧
    (⟨2, ⟨[0, 3, 5], 3⟩, false⟩ : Heap).is_max_heap = (Heap.new 2).is_max_heap ∧
    (∀ v, (⟨2, ⟨[0, 3, 5], 3⟩, false⟩ : Heap).size_ < ((2 : Nat) : Int) →
      ∃ h1, (⟨2, ⟨[0, 3, 5], 3⟩, false⟩ : Heap).store 4 v = .ok h1) ∧
    (∃ r h1, (⟨2, ⟨[0, 3, 5], 3⟩, false⟩ : Heap).take 4 = .ok (r, h1)) :=
  heap_invariant 4 2 (Heap.new 2) ⟨2, ⟨[0, 3, 5], 3⟩, false⟩ (by decide) (Or.inl rfl)
    (Reachable.store ⟨1, ⟨[0, 5, 0], 3⟩, false⟩ _ 3
      (Reachable.store (Heap.new 2) _ 5 Reachable.fresh (by decide) (by decide))
      (by decide) (by decide))

/-! ## Counted loops -/

theorem for_loop_inv {σ : Type} (lo hi : Int) (body : Int → σ → Except Fault σ)
    (I : Nat → σ → Prop) (s : σ) (h0 : I 0 s)
    (hstep : ∀ (k : Nat) (st : σ), (k : Int) < hi - lo → I k st →
      ∃ st', body (lo + (k : Int)) st = .ok st' ∧ I (k + 1) st') :
    ∃ st', for_loop lo hi body s = .ok st' ∧ I (hi - lo).toNat st' := by
  unfold for_loop
  have key : ∀ m : Nat, m ≤ (hi - lo).toNat →
      ∃ st', (List.range m).foldlM
          (fun (st : σ) (k : Nat) => body (lo + (k : Int)) st) s = .ok st' ∧ I m st' := by
    intro m
    induction m with
    | zero => intro _; exact ⟨s, rfl, h0⟩
    | succ m ih =>
      intro hm
      obtain ⟨st1, h1, hI1⟩ := ih (by omega)
      obtain ⟨st2, h2, hI2⟩ := hstep m st1 (by omega) hI1
      refine ⟨st2, ?_, hI2⟩
      rw [List.range_succ, List.foldlM_append, h1]
      simp only [List.foldlM_cons, List.foldlM_nil]
      show (body (lo + (m : Int)) st1 >>= fun x => pure x) = Except.ok st2
      rw [h2]; rfl
  exact key _ (le_refl _)

theorem take_set_succ (arr : List Int) (k : Nat) (v : Int) (hk : k < arr.length) :
    (arr.set k v).take (k + 1) = arr.take k ++ [v] := by
  induction arr generalizing k with
  | nil => simp at hk
  | cons a t ih =>
    cases k with
    | zero => simp
    | succ k =>
      simp only [List.length_cons] at hk
      simp [ih k (by omega)]

theorem take_succ_slot (ary : List Int) (k : Nat) (hk : k < ary.length) :
    ary.take (k + 1) = ary.take k ++ [slot ary k] := by
  rw [List.take_succ, List.getElem?_eq_getElem hk, slot_eq_getElem ary k hk]
  rfl

theorem root_dom_elems (h : Heap) (n : Nat) (hsz : h.size_ = (n : Int))
    (hlen : n < h.storage_.data_.length) (ho : h.ordered) :
    ∀ x ∈ h.elems, dom h.is_max_heap (slot h.storage_.data_ 1) x := by
  intro x hx
  obtain ⟨i, hi1, hin, rfl⟩ := (mem_elems_iff h n hsz hlen x).1 hx
  have ho' : HeapOn h.is_max_heap h.storage_.data_ n := by
    have := ho
    unfold Heap.ordered at this
    rwa [hsz, Int.toNat_ofNat] at this
  exact root_dom _ _ _ ho' i hi1 hin

/-! ## Heap sort -/

theorem heap_sort_fill (fuel : Nat) (ary : List Int) (hf : 2 * ary.length ≤ fuel) :
    ∃ heap1, for_loop 0 (ary.length : Int) (fun i (heap : Heap) =>
        match index_read ary i with
        | .ok v => heap.store fuel v
        | .error e => .error e) (Heap.new ary.length) = .ok heap1 ∧
      heap1.size_ = (ary.length : Int) ∧
      heap1.storage_.data_.length = ary.length + 1 ∧
      heap1.is_max_heap = false ∧ heap1.ordered ∧ heap1.elems.Perm ary := by
  obtain ⟨heap1, hres, hI⟩ := for_loop_inv 0 (ary.length : Int) (fun i (heap : Heap) =>
        match index_read ary i with
        | .ok v => heap.store fuel v
        | .error e => .error e)
      (fun k heap => heap.size_ = (k : Int) ∧
        heap.storage_.data_.length = ary.length + 1 ∧
        heap.is_max_heap = false ∧ heap.ordered ∧ heap.elems.Perm (ary.take k))
      (Heap.new ary.length)
      ⟨rfl, by simp [Heap.new, ManagedDynamicArray.new], rfl,
        ordered_of_size_zero _ rfl, by simp [elems_new]⟩
      (by
        intro k heap hk ⟨hsz, hl, hkind, ho, hp⟩
        have hk' : k < ary.length := by omega
        obtain ⟨h', hres, hsz', hk1, hl1, _, hp1, ho1⟩ :=
          store_spec fuel heap (slot ary k) k hsz (by omega) (by omega)
        refine ⟨h', ?_, hsz', hl1.trans hl, hk1.trans hkind, ho1 ho, ?_⟩
        · simp only [zero_add, index_read_ok ary k hk', hres]
        · rw [take_succ_slot ary k hk']
          exact hp1.trans (List.Perm.append_right _ hp))
  simp only [sub_zero, Int.toNat_ofNat] at hI
  obtain ⟨hsz, hl, hkind, ho, hp⟩ := hI
  refine ⟨heap1, hres, hsz, hl, hkind, ho, ?_⟩
  simpa using hp

theorem heap_sort_drain (fuel : Nat) (ary : List Int) (heap1 : Heap)
    (hf : 2 * ary.length ≤ fuel) (hsz : heap1.size_ = (ary.length : Int))
    (hl : heap1.storage_.data_.length = ary.length + 1)
    (hkind : heap1.is_max_heap = false) (ho : heap1.ordered)
    (hp : heap1.elems.Perm ary) :
    ∃ st, for_loop 0 (ary.length : Int) (fun i (st : Heap × List Int) =>
        match st.1.take fuel with
        | .error e => .error e
        | .ok (none, _) => .error .assertion_failed
        | .ok (some v, heap2) =>
          match index_write st.2 i v with
          | .ok ary1 => .ok (heap2, ary1)
          | .error e => .error e) (heap1, ary) = .ok st ∧
      st.2.Sorted (· ≤ ·) ∧ st.2.Perm ary ∧ st.1.size_ = 0 := by
  obtain ⟨st, hres, hI⟩ := for_loop_inv 0 (ary.length : Int)
      (fun i (st : Heap × List Int) =>
        match st.1.take fuel with
        | .error e => .error e
        | .ok (none, _) => .error .assertion_failed
        | .ok (some v, heap2) =>
          match index_write st.2 i v with
          | .ok ary1 => .ok (heap2, ary1)
          | .error e => .error e)
      (fun k st => k ≤ ary.length ∧ st.1.size_ = ((ary.length - k : Nat) : Int) ∧
        st.1.storage_.data_.length = ary.length + 1 ∧
        st.1.is_max_heap = false ∧ st.1.ordered ∧ st.2.length = ary.length ∧
        (st.2.take k ++ st.1.elems).Perm ary ∧ (st.2.take k).Pairwise (· ≤ ·) ∧
        ∀ x ∈ st.2.take k, ∀ y ∈ st.1.elems, x ≤ y)
      (heap1, ary)
      ⟨Nat.zero_le _, by simpa using hsz, hl, hkind, ho, rfl, by simpa using hp,
        by simp, by simp⟩
      (by
        intro k st hk ⟨_, hsz1, hl1, hkind1, ho1, hlen1, hp1, hs1, hle1⟩
        have hk' : k < ary.length := by omega
        obtain ⟨m, hm⟩ : ∃ m, ary.length - k = m + 1 := ⟨ary.length - k - 1, by omega⟩
        rw [hm] at hsz1
        obtain ⟨h', hres, hsz', hk2, hl2, _, hp2, ho2⟩ :=
          take_spec fuel st.1 m hsz1 (by omega) (by omega)
        have hroot := root_dom_elems st.1 (m + 1) hsz1 (by omega) ho1
        have hroot' : ∀ x ∈ st.1.elems, slot st.1.storage_.data_ 1 ≤ x := by
          intro x hx
          simpa [dom, hkind1] using hroot x hx
        have hmem : slot st.1.storage_.data_ 1 ∈ st.1.elems :=
          hp2.subset (List.mem_cons_self _ _)
        refine ⟨(h', st.2.set k (slot st.1.storage_.data_ 1)), ?_, by omega, ?_,
          hl2.trans hl1, hk2.trans hkind1, ho2 ho1, by simpa using hlen1, ?_, ?_, ?_⟩
        · simp only [zero_add, hres, index_write_ok st.2 k _ (by omega)]
        · rw [hsz']; congr 1; omega
        · rw [take_set_succ _ _ _ (by omega), List.append_assoc]
          exact (List.Perm.append_left _ hp2).trans hp1
        · rw [take_set_succ _ _ _ (by omega), List.pairwise_append]
          refine ⟨hs1, List.pairwise_singleton _ _, ?_⟩
          intro x hx y hy
          rw [List.mem_singleton] at hy
          subst hy
          exact hle1 x hx _ hmem
        · rw [take_set_succ _ _ _ (by omega)]
          intro x hx y hy
          have hy' : y ∈ st.1.elems := hp2.subset (List.mem_cons_of_mem _ hy)
          rcases List.mem_append.1 hx with hx | hx
          · exact hle1 x hx y hy'
          · rw [List.mem_singleton] at hx
            subst hx
            exact hroot' y hy')
  simp only [sub_zero, Int.toNat_ofNat] at hI
  obtain ⟨_, hsz2, _, _, _, hlen2, hp2, hs2, _⟩ := hI
  have hnil : st.1.elems = [] := by
    simp [Heap.elems, hsz2]
  rw [hnil, List.append_nil, ← hlen2, List.take_length] at hp2
  rw [← hlen2, List.take_length] at hs2
  exact ⟨st, hres, hs2, hp2, by simpa using hsz2⟩

/-- C1: for every array `ary` (with fuel for the sift recursion, `2 * length`
suffices) `HeapSorter::sort` returns, and the array it leaves is sorted in
non-descending order and is a permutation of the input. -/
theorem heap_sort_correct (fuel : Nat) (ary : List Int) (hf : 2 * ary.length ≤ fuel) :
    ∃ out, HeapSorter.sort fuel ary = .ok out ∧ out.Sorted (· ≤ ·) ∧ out.Perm ary := by
  obtain ⟨heap1, hres1, hsz, hl, hkind, ho, hp⟩ := heap_sort_fill fuel ary hf
  obtain ⟨st, hres2, hs, hp2, _⟩ := heap_sort_drain fuel ary heap1 hf hsz hl hkind ho hp
  refine ⟨st.2, ?_, hs, hp2⟩
  unfold HeapSorter.sort
  simp only [hres1, hres2]

theorem heap_sort_correct_witness :
    2 * [3, 1, 2].length ≤ 6 ∧
    (∃ out, HeapSorter.sort 6 [3, 1, 2] = .ok out ∧ out.Sorted (· ≤ ·) ∧
      out.Perm [3, 1, 2]) ∧
    HeapSorter.sort 6 [3, 1, 2] = .ok [1, 2, 3] :=
  ⟨by decide, heap_sort_correct 6 [3, 1, 2] (by decide), by decide!⟩

/-! ## Quick sort -/

theorem swapSlots_self (d : List Int) (i : Nat) : swapSlots d i i = d := by
  unfold swapSlots
  apply List.ext_getElem?
  intro k
  simp only [List.getElem?_set, List.length_set]
  by_cases hk : i = k
  · subst hk
    by_cases hi : i < d.length
    · simp [hi, slot, List.getElem?_eq_getElem hi]
    · simp [hi, List.getElem?_eq_none (not_lt.1 hi)]
  · simp [hk]

theorem swap_values_ok (ary : List Int) (x y : Nat) (hx : x < ary.length)
    (hy : y < ary.length) :
    Sorter.swap_values ary (x : Int) (y : Int) = .ok (swapSlots ary x y) := by
  unfold Sorter.swap_values
  by_cases hxy : x = y
  · subst hxy
    simp [swapSlots_self]
  · have hne : ¬ (x : Int) = (y : Int) := by omega
    have hy2 : y < (ary.set x (slot ary y)).length := by simpa using hy
    simp only [beq_iff_eq, hne, if_false, index_read_ok _ _ hx, index_read_ok _ _ hy,
      index_write_ok _ _ _ hx, index_write_ok _ _ _ hy2]
    rfl

theorem SegPerm.seg_refl (lo hi : Int) (a : List Int) : SegPerm lo hi a a :=
  ⟨rfl, List.Perm.refl _, fun _ _ => rfl, fun k h1 h2 => ⟨k, h1, h2, rfl⟩⟩

theorem SegPerm.seg_trans {lo hi : Int} {a b c : List Int} (r1 : SegPerm lo hi a b)
    (r2 : SegPerm lo hi b c) : SegPerm lo hi a c := by
  refine ⟨r2.length_eq.trans r1.length_eq, r2.perm.trans r1.perm,
    fun k hk => (r2.frame k hk).trans (r1.frame k hk), ?_⟩
  intro k h1 h2
  obtain ⟨k1, h3, h4, e1⟩ := r2.from_seg k h1 h2
  obtain ⟨k2, h5, h6, e2⟩ := r1.from_seg k1 h3 h4
  exact ⟨k2, h5, h6, e1.trans e2⟩

theorem SegPerm.seg_mono {lo hi lo' hi' : Int} {a b : List Int} (r : SegPerm lo' hi' a b)
    (hlo : lo ≤ lo') (hhi : hi' ≤ hi) : SegPerm lo hi a b := by
  refine ⟨r.length_eq, r.perm, fun k hk => r.frame k (by omega), ?_⟩
  intro k h1 h2
  by_cases hin : lo' ≤ (k : Int) ∧ (k : Int) ≤ hi'
  · obtain ⟨k1, h3, h4, e1⟩ := r.from_seg k hin.1 hin.2
    exact ⟨k1, by omega, by omega, e1⟩
  · exact ⟨k, h1, h2, r.frame k (by omega)⟩

theorem SegPerm.seg_swap (lo hi : Int) (a : List Int) (i j : Nat) (hi1 : lo ≤ (i : Int))
    (hi2 : (i : Int) ≤ hi) (hj1 : lo ≤ (j : Int)) (hj2 : (j : Int) ≤ hi)
    (hia : i < a.length) (hja : j < a.length) : SegPerm lo hi a (swapSlots a i j) := by
  refine ⟨length_swapSlots _ _ _, swapSlots_perm _ _ _ hia hja, ?_, ?_⟩
  · intro k hk
    rw [slot_swapSlots _ _ _ _ hia hja, if_neg (by omega), if_neg (by omega)]
  · intro k h1 h2
    rw [slot_swapSlots _ _ _ _ hia hja]
    by_cases hkj : k = j
    · rw [if_pos hkj]; exact ⟨i, hi1, hi2, rfl⟩
    · rw [if_neg hkj]
      by_cases hki : k = i
      · rw [if_pos hki]; exact ⟨j, hj1, hj2, rfl⟩
      · rw [if_neg hki]; exact ⟨k, h1, h2, rfl⟩

theorem partition_body_spec (pivot : Int) (arr : List Int) (b i : Nat) (hbi : b ≤ i)
    (hi : i < arr.length) :
    QuickSorter.partition_body pivot (i : Int) (arr, (b : Int) - 1)
      = if slot arr i ≤ pivot then .ok (swapSlots arr b i, ((b + 1 : Nat) : Int) - 1)
        else .ok (arr, (b : Int) - 1) := by
  unfold QuickSorter.partition_body
  have e : (b : Int) - 1 + 1 = (b : Int) := by omega
  have e2 : (b : Int) + 1 - 1 = (b : Int) := by omega
  simp only [index_read_ok _ _ hi, e, swap_values_ok arr b i (by omega) hi]
  push_cast
  rw [e2]

theorem partition_scan (ary : List Int) (low high : Nat) (hlh : low ≤ high)
    (hh : high < ary.length) :
    ∃ (arr : List Int) (b : Nat),
      for_loop (low : Int) (high : Int) (QuickSorter.partition_body (slot ary high))
        (ary, (low : Int) - 1) = .ok (arr, (b : Int) - 1) ∧
      low ≤ b ∧ b ≤ high ∧ SegPerm low high ary arr ∧ slot arr high = slot ary high ∧
      (∀ j, low ≤ j → j < b → slot arr j ≤ slot ary high) ∧
      (∀ j, b ≤ j → j < high → slot ary high < slot arr j) := by
  obtain ⟨st, hres, hI⟩ := for_loop_inv (low : Int) (high : Int)
      (QuickSorter.partition_body (slot ary high))
      (fun k st => ∃ b : Nat, st.2 = (b : Int) - 1 ∧ low ≤ b ∧ b ≤ low + k ∧
        SegPerm low high ary st.1 ∧ slot st.1 high = slot ary high ∧
        (∀ j, low ≤ j → j < b → slot st.1 j ≤ slot ary high) ∧
        (∀ j, b ≤ j → j < low + k → slot ary high < slot st.1 j))
      (ary, (low : Int) - 1)
      ⟨low, rfl, le_refl _, le_refl _, SegPerm.seg_refl _ _ _, rfl,
        fun j h1 h2 => by omega, fun j h1 h2 => by omega⟩
      (by
        rintro k ⟨arr, npi⟩ hk ⟨b, hb, hlb, hbk, hseg, hpiv, hle, hgt⟩
        simp only at hb hseg hpiv hle hgt
        subst hb
        have hlen : arr.length = ary.length := hseg.length_eq
        have hik : low + k < high := by omega
        have hcast : (low : Int) + (k : Int) = ((low + k : Nat) : Int) := by push_cast; rfl
        rw [hcast, partition_body_spec _ arr b (low + k) hbk (by omega)]
        by_cases hv : slot arr (low + k) ≤ slot ary high
        · rw [if_pos hv]
          have hsl : ∀ j, slot (swapSlots arr b (low + k)) j
              = if j = low + k then slot arr b
                else if j = b then slot arr (low + k) else slot arr j :=
            fun j => slot_swapSlots _ _ _ _ (by omega) (by omega)
          refine ⟨_, rfl, b + 1, rfl, by omega, by omega, ?_, ?_, ?_, ?_⟩
          · exact hseg.seg_trans (SegPerm.seg_swap _ _ _ _ _ (by omega) (by omega) (by omega)
              (by omega) (by omega) (by omega))
          · show slot (swapSlots arr b (low + k)) high = slot ary high
            rw [hsl, if_neg (by omega), if_neg (by omega)]
            exact hpiv
          · intro j h1 h2
            show slot (swapSlots arr b (low + k)) j ≤ slot ary high
            rw [hsl]
            by_cases hj : j = low + k
            · rw [if_pos hj]
              have : b = low + k := by omega
              rw [this]; exact hv
            · rw [if_neg hj]
              by_cases hjb : j = b
              · rw [if_pos hjb]; exact hv
              · rw [if_neg hjb]; exact hle j h1 (by omega)
          · intro j h1 h2
            show slot ary high < slot (swapSlots arr b (low + k)) j
            rw [hsl]
            by_cases hj : j = low + k
            · rw [if_pos hj]
              exact hgt b (le_refl _) (by omega)
            · rw [if_neg hj, if_neg (by omega)]
              exact hgt j (by omega) (by omega)
        · rw [if_neg hv]
          refine ⟨_, rfl, b, rfl, hlb, by omega, hseg, hpiv, hle, ?_⟩
          intro j h1 h2
          by_cases hj : j = low + k
          · rw [hj]; exact lt_of_not_le hv
          · exact hgt j h1 (by omega))
  obtain ⟨b, hb, hlb, hbk, hseg, hpiv, hle, hgt⟩ := hI
  have hk : low + ((high : Int) - (low : Int)).toNat = high := by omega
  rw [hk] at hbk hgt
  refine ⟨st.1, b, ?_, hlb, hbk, hseg, hpiv, hle, hgt⟩
  rw [hres, ← hb]

theorem partition_spec (ary : List Int) (low high : Nat) (hlh : low ≤ high)
    (hh : high < ary.length) :
    ∃ (out : List Int) (p : Nat),
      QuickSorter.partition ary (low : Int) (high : Int) = .ok (out, (p : Int)) ∧
      low ≤ p ∧ p ≤ high ∧ SegPerm low high ary out ∧ slot out p = slot ary high ∧
      (∀ j, low ≤ j → j < p → slot out j ≤ slot ary high) ∧
      (∀ j, p < j → j ≤ high → slot ary high < slot out j) := by
  obtain ⟨arr, b, hres, hlb, hbh, hseg, hpiv, hle, hgt⟩ := partition_scan ary low high hlh hh
  have hlen : arr.length = ary.length := hseg.length_eq
  have e : (b : Int) - 1 + 1 = (b : Int) := by omega
  have hsl : ∀ j, slot (swapSlots arr b high) j
      = if j = high then slot arr b else if j = b then slot arr high else slot arr j :=
    fun j => slot_swapSlots _ _ _ _ (by omega) (by omega)
  refine ⟨swapSlots arr b high, b, ?_, hlb, hbh, ?_, ?_, ?_, ?_⟩
  · unfold QuickSorter.partition
    simp only [index_read_ok _ _ hh, hres, e, swap_values_ok arr b high (by omega) (by omega)]
  · exact hseg.seg_trans (SegPerm.seg_swap _ _ _ _ _ (by omega) (by omega) (by omega)
      (by omega) (by omega) (by omega))
  · rw [hsl]
    by_cases hb : b = high
    · rw [if_pos hb, hb]; exact hpiv
    · rw [if_neg hb, if_pos rfl]; exact hpiv
  · intro j h1 h2
    rw [hsl, if_neg (by omega), if_neg (by omega)]
    exact hle j h1 h2
  · intro j h1 h2
    rw [hsl]
    by_cases hj : j = high
    · rw [if_pos hj]; exact hgt b (le_refl _) (by omega)
    · rw [if_neg hj, if_neg (by omega)]
      exact hgt j (by omega) (by omega)

theorem sort_between_indexes_spec :
    ∀ (s fuel : Nat) (ary : List Int) (low high : Int),
      high + 1 - low ≤ (s : Int) → s < fuel →
      (low < high → 0 ≤ low ∧ high < (ary.length : Int)) →
      ∃ out, QuickSorter.sort_between_indexes fuel ary low high = .ok out ∧
        SegPerm low high ary out ∧
        ∀ i j : Nat, low ≤ (i : Int) → i ≤ j → (j : Int) ≤ high →
          slot out i ≤ slot out j := by
  intro s
  induction s with
  | zero =>
    intro fuel ary low high hs hf _
    obtain ⟨f, rfl⟩ : ∃ f, fuel = f + 1 := ⟨fuel - 1, by omega⟩
    have hlt : ¬ low < high := by omega
    refine ⟨ary, by simp only [QuickSorter.sort_between_indexes, hlt, if_false],
      SegPerm.seg_refl _ _ _, ?_⟩
    intro i j h1 h2 h3
    omega
  | succ s ih =>
    intro fuel ary low high hs hf hb
    obtain ⟨f, rfl⟩ : ∃ f, fuel = f + 1 := ⟨fuel - 1, by omega⟩
    by_cases hlt : low < high
    · obtain ⟨hlo, hhi⟩ := hb hlt
      obtain ⟨lo, rfl⟩ : ∃ lo : Nat, low = (lo : Int) := ⟨low.toNat, by omega⟩
      obtain ⟨hi, rfl⟩ : ∃ hi : Nat, high = (hi : Int) := ⟨high.toNat, by omega⟩
      obtain ⟨arr1, p, hres1, hlp, hph, hseg1, hpiv, hle, hgt⟩ :=
        partition_spec ary lo hi (by omega) (by omega)
      have hlen1 : arr1.length = ary.length := hseg1.length_eq
      obtain ⟨arr2, hres2, hseg2, hsort2⟩ :=
        ih f arr1 (lo : Int) ((p : Int) - 1) (by push_cast at hs; omega) (by omega)
          (fun _ => ⟨by omega, by omega⟩)
      have hlen2 : arr2.length = arr1.length := hseg2.length_eq
      obtain ⟨arr3, hres3, hseg3, hsort3⟩ :=
        ih f arr2 ((p : Int) + 1) (hi : Int) (by push_cast at hs; omega) (by omega)
          (fun _ => ⟨by omega, by omega⟩)
      refine ⟨arr3, ?_, ?_, ?_⟩
      · simp only [QuickSorter.sort_between_indexes, hlt, if_true, hres1, hres2, hres3]
      · exact hseg1.seg_trans ((hseg2.seg_mono (le_refl _) (by omega)).seg_trans
          (hseg3.seg_mono (by omega) (le_refl _)))
      · -- values left of, at and right of the pivot position in the final array
        have hleft : ∀ k : Nat, lo ≤ k → k < p → slot arr3 k ≤ slot ary hi := by
          intro k h1 h2
          rw [hseg3.frame k (Or.inl (by omega))]
          obtain ⟨k', h3, h4, e⟩ := hseg2.from_seg k (by omega) (by omega)
          rw [e]
          exact hle k' (by omega) (by omega)
        have hmid : slot arr3 p = slot ary hi := by
          rw [hseg3.frame p (Or.inl (by omega)), hseg2.frame p (Or.inr (by omega))]
          exact hpiv
        have hright : ∀ k : Nat, p < k → k ≤ hi → slot ary hi < slot arr3 k := by
          intro k h1 h2
          obtain ⟨k', h3, h4, e⟩ := hseg3.from_seg k (by omega) (by omega)
          rw [e, hseg2.frame k' (Or.inr (by omega))]
          exact hgt k' (by omega) (by omega)
        intro i j h1 h2 h3
        by_cases hjp : j < p
        · rw [hseg3.frame i (Or.inl (by omega)), hseg3.frame j (Or.inl (by omega))]
          exact hsort2 i j h1 h2 (by omega)
        · by_cases hip : p < i
          · exact hsort3 i j (by omega) h2 h3
          · have hi_le : slot arr3 i ≤ slot ary hi := by
              by_cases hi_eq : i = p
              · rw [hi_eq, hmid]
              · exact hleft i (by omega) (by omega)
            have hj_ge : slot ary hi ≤ slot arr3 j := by
              by_cases hj_eq : j = p
              · rw [hj_eq, hmid]
              · exact le_of_lt (hright j (by omega) (by omega))
            exact le_trans hi_le hj_ge
    · refine ⟨ary, by simp only [QuickSorter.sort_between_indexes, hlt, if_false],
        SegPerm.seg_refl _ _ _, ?_⟩
      intro i j h1 h2 h3
      have : i = j := by omega
      rw [this]

theorem sorted_of_slots (out : List Int)
    (h : ∀ i j : Nat, i ≤ j → j < out.length → slot out i ≤ slot out j) :
    out.Sorted (· ≤ ·) := by
  unfold List.Sorted
  rw [List.pairwise_iff_getElem]
  intro i j hi hj hij
  have := h i j (le_of_lt hij) hj
  rwa [slot_eq_getElem _ _ hi, slot_eq_getElem _ _ hj] at this

/-- C10: for every array `ary`, the empty one included, `QuickSorter::sort`
returns (the recursion depth never exceeds `length`, so any fuel above it
suffices), and the array it leaves is sorted in non-descending order and is a
permutation of the input. -/
theorem quick_sort_correct (fuel : Nat) (ary : List Int) (hf : ary.length < fuel) :
    ∃ out, QuickSorter.sort fuel ary = .ok out ∧ out.Sorted (· ≤ ·) ∧ out.Perm ary := by
  obtain ⟨out, hres, hseg, hsort⟩ :=
    sort_between_indexes_spec ary.length fuel ary 0 ((ary.length : Int) - 1)
      (by omega) hf (fun _ => ⟨le_refl _, by omega⟩)
  refine ⟨out, hres, ?_, hseg.perm⟩
  apply sorted_of_slots
  intro i j hij hj
  have hlen := hseg.length_eq
  exact hsort i j (by omega) hij (by omega)

theorem quick_sort_correct_witness :
    [3, 1, 2].length < 4 ∧
    (∃ out, QuickSorter.sort 4 [3, 1, 2] = .ok out ∧ out.Sorted (· ≤ ·) ∧
      out.Perm [3, 1, 2]) ∧
    QuickSorter.sort 4 [3, 1, 2] = .ok [1, 2, 3] ∧
    QuickSorter.sort 1 [] = .ok [] :=
  ⟨by decide, quick_sort_correct 4 [3, 1, 2] (by decide), by decide!, by decide!⟩

/-! ## Buffers: `copy_from` and `as_slice_from` -/

theorem memcpy_ok (dst src : List Int) (off n : Nat) (hsrc : off + n ≤ src.length)
    (hdst : n ≤ dst.length) :
    memcpy dst src (off : Int) (n : Int) = .ok ((src.drop off).take n ++ dst.drop n) := by
  unfold memcpy
  have h1 : ¬ ((n : Int) < 0) := by omega
  have h2 : ¬ ((off : Int) < 0) := by omega
  have h3 : ¬ ((src.length : Int) < (off : Int) + (n : Int)) := by omega
  have h4 : ¬ ((dst.length : Int) < (n : Int)) := by omega
  simp only [h1, h2, h3, h4, if_false, Int.toNat_ofNat]

theorem slot_append_left (a b : List Int) (k : Nat) (hk : k < a.length) :
    slot (a ++ b) k = slot a k := by
  simp [slot, List.getElem?_append_left hk]

theorem slot_append_right (a b : List Int) (k : Nat) (hk : a.length ≤ k) :
    slot (a ++ b) k = slot b (k - a.length) := by
  simp [slot, List.getElem?_append_right hk]

theorem slot_drop (a : List Int) (n k : Nat) : slot (a.drop n) k = slot a (n + k) := by
  simp [slot, List.getElem?_drop]

theorem slot_take (a : List Int) (n k : Nat) (hk : k < n) : slot (a.take n) k = slot a k := by
  simp [slot, List.getElem?_take_of_lt hk]

theorem copy_from_ok (a : ManagedDynamicArray) (src : List Int) (off n : Nat)
    (hwf : a.size_ = (a.data_.length : Int)) (hsrc : off + n ≤ src.length)
    (hn : n ≤ a.data_.length) :
    ∃ a', a.copy_from src (off : Int) (n : Int) = .ok a' ∧ a'.size_ = a.size_ ∧
      a'.data_ = (src.drop off).take n ++ a.data_.drop n ∧
      a'.data_.length = a.data_.length ∧
      (∀ k, k < n → slot a'.data_ k = slot src (off + k)) ∧
      (∀ k, n ≤ k → slot a'.data_ k = slot a.data_ k) := by
  have hgt : ¬ ((n : Int) > a.size_) := by omega
  have hlen : ((src.drop off).take n).length = n := by
    simp only [List.length_take, List.length_drop]; omega
  refine ⟨{ a with data_ := (src.drop off).take n ++ a.data_.drop n }, ?_, rfl, rfl, ?_, ?_, ?_⟩
  · unfold ManagedDynamicArray.copy_from
    simp only [hgt, if_false, memcpy_ok a.data_ src off n hsrc hn]
  · simp only [List.length_append, hlen, List.length_drop]; omega
  · intro k hk
    simp only
    rw [slot_append_left _ _ _ (by omega), slot_take _ _ _ hk, slot_drop]
  · intro k hk
    simp only
    rw [slot_append_right _ _ _ (by omega), hlen, slot_drop]
    congr 1; omega

/-- C19: for every `ManagedDynamicArray` `a` of size `s` (its buffer has
`size_` elements) and every source holding at least `n ≥ 0` elements from the
pointer on, `copy_from(src, n)` raises the runtime error iff `n > s`; the check
precedes the copy, so in that case nothing is written to the buffer.  When
`n ≤ s` the call returns, elements `[0, n)` equal `src[0..n)` and the elements
at indices `≥ n`, like the size, are unchanged. -/
theorem copy_from_spec (a : ManagedDynamicArray) (src : List Int) (off n : Nat)
    (hwf : a.size_ = (a.data_.length : Int)) (hsrc : off + n ≤ src.length) :
    (a.copy_from src (off : Int) (n : Int) = .error .runtime_error ↔ (n : Int) > a.size_) ∧
    ((n : Int) ≤ a.size_ →
      ∃ a', a.copy_from src (off : Int) (n : Int) = .ok a' ∧ a'.size_ = a.size_ ∧
        a'.data_.length = a.data_.length ∧
        (∀ k, k < n → slot a'.data_ k = slot src (off + k)) ∧
        (∀ k, n ≤ k → slot a'.data_ k = slot a.data_ k)) := by
  have hok : (n : Int) ≤ a.size_ →
      ∃ a', a.copy_from src (off : Int) (n : Int) = .ok a' ∧ a'.size_ = a.size_ ∧
        a'.data_.length = a.data_.length ∧
        (∀ k, k < n → slot a'.data_ k = slot src (off + k)) ∧
        (∀ k, n ≤ k → slot a'.data_ k = slot a.data_ k) := by
    intro hle
    obtain ⟨a', h1, h2, _, h3, h4, h5⟩ := copy_from_ok a src off n hwf hsrc (by omega)
    exact ⟨a', h1, h2, h3, h4, h5⟩
  refine ⟨⟨?_, ?_⟩, hok⟩
  · intro herr
    by_contra hle
    obtain ⟨a', h1, _⟩ := hok (by omega)
    rw [h1] at herr
    cases herr
  · intro hgt
    unfold ManagedDynamicArray.copy_from
    simp only [hgt, if_true]

theorem copy_from_spec_witness :
    (⟨[0, 0, 0], 3⟩ : ManagedDynamicArray).size_
      = ((⟨[0, 0, 0], 3⟩ : ManagedDynamicArray).data_.length : Int) ∧
    1 + 2 ≤ [7, 8, 9, 10].length ∧
    ((⟨[0, 0, 0], 3⟩ : ManagedDynamicArray).copy_from [7, 8, 9, 10] 1 2
      = .ok ⟨[8, 9, 0], 3⟩) ∧
    ((⟨[0, 0, 0], 3⟩ : ManagedDynamicArray).copy_from [7, 8, 9, 10] 0 4
      = .error .runtime_error) ∧
    (((⟨[0, 0, 0], 3⟩ : ManagedDynamicArray).copy_from [7, 8, 9, 10] ((1 : Nat) : Int)
        ((2 : Nat) : Int) = .error .runtime_error
      ↔ (((2 : Nat) : Int) > (⟨[0, 0, 0], 3⟩ : ManagedDynamicArray).size_))) :=
  ⟨rfl, by decide, by decide, by decide,
    (copy_from_spec ⟨[0, 0, 0], 3⟩ [7, 8, 9, 10] 1 2 rfl (by decide)).1⟩

theorem as_slice_from_ok (src : List Int) (start fin : Nat) (hse : start ≤ fin)
    (hlen : fin < src.length) :
    ManagedDynamicArray.as_slice_from src (start : Int) (fin : Int)
      = .ok ⟨(src.drop start).take (fin + 1 - start), ((fin + 1 - start : Nat) : Int)⟩ := by
  have hsz : (fin : Int) - (start : Int) + 1 = ((fin + 1 - start : Nat) : Int) := by omega
  unfold ManagedDynamicArray.as_slice_from
  simp only [hsz]
  have hneg : ¬ (((fin + 1 - start : Nat) : Int) < 0) := by omega
  simp only [hneg, if_false, Int.toNat_ofNat]
  obtain ⟨a', h1, h2, h3, _⟩ :=
    copy_from_ok (ManagedDynamicArray.new (fin + 1 - start)) src start (fin + 1 - start)
      (by simp [ManagedDynamicArray.new]) (by omega) (by simp [ManagedDynamicArray.new])
  have hsz2 : (ManagedDynamicArray.new (fin + 1 - start)).size_
      = ((fin + 1 - start : Nat) : Int) := rfl
  rw [hsz2] at h2 ⊢
  rw [h1]
  congr 1
  cases a' with
  | mk d s =>
    simp only at h2 h3
    subst h2
    rw [h3]
    simp [ManagedDynamicArray.new]

/-- C20: for every view `src` and indices `0 ≤ start ≤ end < length(src)`,
`as_slice_from(src, start, end)` returns a new buffer of `end - start + 1`
elements whose element `k` is `src[start + k]` (the elements of `[start, end]`,
both ends included).  `src` is only read: the call yields the new buffer and no
changed source. -/
theorem as_slice_from_spec (src : List Int) (start fin : Nat) (hse : start ≤ fin)
    (hlen : fin < src.length) :
    ∃ a, ManagedDynamicArray.as_slice_from src (start : Int) (fin : Int) = .ok a ∧
      a.size_ = (fin : Int) - (start : Int) + 1 ∧
      (a.data_.length : Int) = (fin : Int) - (start : Int) + 1 ∧
      a.to_span = a.data_ ∧
      (∀ k : Nat, (k : Int) < (fin : Int) - (start : Int) + 1 →
        slot a.data_ k = slot src (start + k)) := by
  refine ⟨_, as_slice_from_ok src start fin hse hlen, ?_, ?_, ?_, ?_⟩
  · simp only; omega
  · simp only [List.length_take, List.length_drop]; omega
  · simp only [ManagedDynamicArray.to_span, Int.toNat_ofNat]
    rw [List.take_take]
    simp
  · intro k hk
    simp only
    rw [slot_take _ _ _ (by omega), slot_drop]

theorem as_slice_from_spec_witness :
    (2 : Nat) ≤ 4 ∧ 4 < [0, 1, 2, 3, 4, 5].length ∧
    (∃ a, ManagedDynamicArray.as_slice_from [0, 1, 2, 3, 4, 5] ((2 : Nat) : Int)
        ((4 : Nat) : Int) = .ok a ∧
      a.size_ = ((4 : Nat) : Int) - ((2 : Nat) : Int) + 1 ∧
      (a.data_.length : Int) = ((4 : Nat) : Int) - ((2 : Nat) : Int) + 1 ∧
      a.to_span = a.data_ ∧
      (∀ k : Nat, (k : Int) < ((4 : Nat) : Int) - ((2 : Nat) : Int) + 1 →
        slot a.data_ k = slot [0, 1, 2, 3, 4, 5] (2 + k))) ∧
    ManagedDynamicArray.as_slice_from [0, 1, 2, 3, 4, 5] 2 4 = .ok ⟨[2, 3, 4], 3⟩ :=
  ⟨by decide, by decide, as_slice_from_spec [0, 1, 2, 3, 4, 5] 2 4 (by decide) (by decide),
    by decide⟩


/-! ## Adjacent exchanges and inversions -/

theorem for_loop_down_inv {σ : Type} (start stop : Int) (body : Int → σ → Except Fault σ)
    (I : Nat → σ → Prop) (s : σ) (h0 : I 0 s)
    (hstep : ∀ (k : Nat) (st : σ), (k : Int) < start - stop → I k st →
      ∃ st', body (start - (k : Int)) st = .ok st' ∧ I (k + 1) st') :
    ∃ st', for_loop_down start stop body s = .ok st' ∧ I (start - stop).toNat st' := by
  unfold for_loop_down
  have key : ∀ m : Nat, m ≤ (start - stop).toNat →
      ∃ st', (List.range m).foldlM
          (fun (st : σ) (k : Nat) => body (start - (k : Int)) st) s = .ok st' ∧
        I m st' := by
    intro m
    induction m with
    | zero => intro _; exact ⟨s, rfl, h0⟩
    | succ m ih =>
      intro hm
      obtain ⟨st1, h1, hI1⟩ := ih (by omega)
      obtain ⟨st2, h2, hI2⟩ := hstep m st1 (by omega) hI1
      refine ⟨st2, ?_, hI2⟩
      rw [List.range_succ, List.foldlM_append, h1]
      simp only [List.foldlM_cons, List.foldlM_nil]
      show (body (start - (m : Int)) st1 >>= fun x => pure x) = Except.ok st2
      rw [h2]; rfl
  exact key _ (le_refl _)

theorem slots_le_of_adjacent (l : List Int)
    (h : ∀ j, j + 1 < l.length → slot l j ≤ slot l (j + 1)) :
    ∀ i j : Nat, i ≤ j → j < l.length → slot l i ≤ slot l j := by
  intro i j hij
  induction j with
  | zero =>
    intro _
    have : i = 0 := by omega
    rw [this]
  | succ j ih =>
    intro hj
    by_cases he : i = j + 1
    · rw [he]
    · exact le_trans (ih (by omega) (by omega)) (h j hj)

theorem sorted_of_adjacent (l : List Int)
    (h : ∀ j, j + 1 < l.length → slot l j ≤ slot l (j + 1)) : l.Sorted (· ≤ ·) :=
  sorted_of_slots l (slots_le_of_adjacent l h)

theorem split_adjacent (l : List Int) (j : Nat) (hj : j + 1 < l.length) :
    l = l.take j ++ slot l j :: slot l (j + 1) :: l.drop (j + 2) := by
  rw [slot_eq_getElem l j (by omega), slot_eq_getElem l (j + 1) hj]
  conv_lhs => rw [← List.take_append_drop j l]
  congr 1
  rw [List.drop_eq_getElem_cons (by omega : j < l.length)]
  congr 1
  rw [List.drop_eq_getElem_cons hj]

theorem swapSlots_append_adjacent (p s : List Int) (a b : Int) :
    swapSlots (p ++ a :: b :: s) p.length (p.length + 1) = p ++ b :: a :: s := by
  unfold swapSlots
  have h1 : slot (p ++ a :: b :: s) (p.length + 1) = b := by
    rw [slot_append_right _ _ _ (by omega)]
    simp [slot]
  have h2 : slot (p ++ a :: b :: s) p.length = a := by
    rw [slot_append_right _ _ _ (le_refl _)]
    simp [slot]
  rw [h1, h2]
  induction p with
  | nil => simp
  | cons x p ih => simp [ih]

theorem inversions_append_cons_swap (p s : List Int) (a b : Int) (hba : b < a) :
    inversions (p ++ b :: a :: s) + 1 = inversions (p ++ a :: b :: s) := by
  induction p with
  | nil =>
    have hab : ¬ a < b := by omega
    simp only [List.nil_append, inversions, List.countP_cons, hba, hab, decide_True,
      decide_False, if_true, if_false]
    simp
    omega
  | cons x p ih =>
    simp only [List.cons_append, inversions]
    show List.countP (fun y => decide (y < x)) (p ++ b :: a :: s)
        + inversions (p ++ b :: a :: s) + 1
      = List.countP (fun y => decide (y < x)) (p ++ a :: b :: s)
        + inversions (p ++ a :: b :: s)
    have hc : List.countP (fun y => decide (y < x)) (p ++ b :: a :: s)
        = List.countP (fun y => decide (y < x)) (p ++ a :: b :: s) := by
      simp only [List.countP_append, List.countP_cons]
      omega
    rw [hc]
    omega

theorem inversions_swapSlots (l : List Int) (j : Nat) (hj : j + 1 < l.length)
    (hgt : slot l (j + 1) < slot l j) :
    inversions (swapSlots l j (j + 1)) + 1 = inversions l := by
  have hs := split_adjacent l j hj
  have hlen : (l.take j).length = j := by simp; omega
  have e : swapSlots l j (j + 1)
      = l.take j ++ slot l (j + 1) :: slot l j :: l.drop (j + 2) := by
    conv_lhs => rw [hs]
    have := swapSlots_append_adjacent (l.take j) (l.drop (j + 2)) (slot l j) (slot l (j + 1))
    rw [hlen] at this
    exact this
  rw [e]
  conv_rhs => rw [hs]
  exact inversions_append_cons_swap _ _ _ _ hgt

theorem inversions_le_sq (l : List Int) : inversions l ≤ l.length * l.length := by
  induction l with
  | nil => simp [inversions]
  | cons a t ih =>
    simp only [inversions, List.length_cons]
    have := List.countP_le_length (fun x => decide (x < a)) (l := t)
    nlinarith

/-! ## Bubble sort and cocktail-shaker sort -/

theorem ltr_body_eq (arr : List Int) (sw : Bool) (k : Nat) (hk : k + 1 < arr.length) :
    BubbleSorter.ltr_body ((1 : Int) + (k : Int)) (arr, sw)
      = if slot arr k > slot arr (k + 1) then .ok (swapSlots arr k (k + 1), true)
        else .ok (arr, sw) := by
  have e1 : (1 : Int) + (k : Int) - 1 = (k : Int) := by omega
  have e2 : (1 : Int) + (k : Int) = ((k + 1 : Nat) : Int) := by omega
  unfold BubbleSorter.ltr_body
  simp only [e1]
  rw [e2]
  simp only [index_read_ok arr k (by omega), index_read_ok arr (k + 1) hk,
    swap_values_ok arr k (k + 1) (by omega) hk]

theorem rtl_body_eq (arr : List Int) (sw : Bool) (j : Nat) (hj : j + 1 < arr.length) :
    CocktailShakerSorter.rtl_body ((j + 1 : Nat) : Int) (arr, sw)
      = if slot arr (j + 1) < slot arr j then .ok (swapSlots arr j (j + 1), true)
        else .ok (arr, sw) := by
  have e1 : ((j + 1 : Nat) : Int) - 1 = (j : Int) := by omega
  unfold CocktailShakerSorter.rtl_body
  simp only [e1, index_read_ok arr j (by omega), index_read_ok arr (j + 1) hj,
    swap_values_ok arr j (j + 1) (by omega) hj]

/-- What one bubble pass achieves, in either direction. -/
theorem pass_step (ary arr : List Int) (j : Nat) (hj : j + 1 < arr.length)
    (hperm : arr.Perm ary) (hinv : inversions arr ≤ inversions ary) (hgt : slot arr (j + 1) < slot arr j) :
    (swapSlots arr j (j + 1)).Perm ary ∧
    (swapSlots arr j (j + 1)).length = arr.length ∧
    inversions (swapSlots arr j (j + 1)) < inversions ary := by
  have := inversions_swapSlots arr j hj hgt
  exact ⟨(swapSlots_perm arr j (j + 1) (by omega) hj).trans hperm, length_swapSlots _ _ _,
    by omega⟩

theorem ltr_sort_spec (ary : List Int) :
    ∃ (out : List Int) (sw : Bool), BubbleSorter.ltr_sort ary = .ok (out, sw) ∧
      out.Perm ary ∧ out.length = ary.length ∧
      (sw = false → out = ary ∧ ary.Sorted (· ≤ ·)) ∧
      (sw = true → inversions out < inversions ary) := by
  obtain ⟨st, hres, hI⟩ := for_loop_inv 1 (ary.length : Int) BubbleSorter.ltr_body
      (fun k st => st.1.Perm ary ∧ st.1.length = ary.length ∧
        inversions st.1 ≤ inversions ary ∧
        (st.2 = false → st.1 = ary ∧ ∀ j, j < k → slot ary j ≤ slot ary (j + 1)) ∧
        (st.2 = true → inversions st.1 < inversions ary))
      (ary, false)
      ⟨List.Perm.refl _, rfl, le_refl _, fun _ => ⟨rfl, fun j hj => by omega⟩,
        fun h => by simp at h⟩
      (by
        rintro k ⟨arr, sw⟩ hk ⟨hperm, hlen, hinv, hfalse, htrue⟩
        simp only at hperm hlen hinv hfalse htrue
        have hk1 : k + 1 < arr.length := by omega
        rw [ltr_body_eq arr sw k hk1]
        by_cases hgt : slot arr k > slot arr (k + 1)
        · rw [if_pos hgt]
          obtain ⟨h1, h2, h3⟩ := pass_step ary arr k hk1 hperm hinv hgt
          exact ⟨_, rfl, h1, h2.trans hlen, le_of_lt h3, fun h => by simp at h, fun _ => h3⟩
        · rw [if_neg hgt]
          refine ⟨_, rfl, hperm, hlen, hinv, ?_, htrue⟩
          intro hf
          obtain ⟨he, hadj⟩ := hfalse hf
          refine ⟨he, ?_⟩
          intro j hj
          by_cases hjk : j = k
          · subst hjk
            rw [← he]
            exact not_lt.1 hgt
          · exact hadj j (by omega))
  obtain ⟨hperm, hlen, _, hfalse, htrue⟩ := hI
  refine ⟨st.1, st.2, hres, hperm, hlen, ?_, htrue⟩
  intro hf
  obtain ⟨he, hadj⟩ := hfalse hf
  refine ⟨he, sorted_of_adjacent ary ?_⟩
  intro j hj
  exact hadj j (by omega)

theorem rtl_sort_spec (ary : List Int) :
    ∃ (out : List Int) (sw : Bool), CocktailShakerSorter.rtl_sort ary = .ok (out, sw) ∧
      out.Perm ary ∧ out.length = ary.length ∧
      (sw = false → out = ary ∧ ary.Sorted (· ≤ ·)) ∧
      (sw = true → inversions out < inversions ary) := by
  obtain ⟨st, hres, hI⟩ := for_loop_down_inv ((ary.length : Int) - 1) 0
      CocktailShakerSorter.rtl_body
      (fun k st => st.1.Perm ary ∧ st.1.length = ary.length ∧
        inversions st.1 ≤ inversions ary ∧
        (st.2 = false → st.1 = ary ∧
          ∀ j, ary.length ≤ j + k + 1 → j + 1 < ary.length → slot ary j ≤ slot ary (j + 1)) ∧
        (st.2 = true → inversions st.1 < inversions ary))
      (ary, false)
      ⟨List.Perm.refl _, rfl, le_refl _, fun _ => ⟨rfl, fun j h1 h2 => by omega⟩,
        fun h => by simp at h⟩
      (by
        rintro k ⟨arr, sw⟩ hk ⟨hperm, hlen, hinv, hfalse, htrue⟩
        simp only at hperm hlen hinv hfalse htrue
        obtain ⟨j, hj⟩ : ∃ j : Nat, j + k + 2 = ary.length := ⟨ary.length - k - 2, by omega⟩
        have hj1 : j + 1 < arr.length := by omega
        have hidx : (ary.length : Int) - 1 - (k : Int) = ((j + 1 : Nat) : Int) := by omega
        rw [hidx, rtl_body_eq arr sw j hj1]
        by_cases hgt : slot arr (j + 1) < slot arr j
        · rw [if_pos hgt]
          obtain ⟨h1, h2, h3⟩ := pass_step ary arr j hj1 hperm hinv hgt
          exact ⟨_, rfl, h1, h2.trans hlen, le_of_lt h3, fun h => by simp at h, fun _ => h3⟩
        · rw [if_neg hgt]
          refine ⟨_, rfl, hperm, hlen, hinv, ?_, htrue⟩
          intro hf
          obtain ⟨he, hadj⟩ := hfalse hf
          refine ⟨he, ?_⟩
          intro i hi1 hi2
          by_cases hij : i = j
          · subst hij
            rw [← he]
            exact not_lt.1 hgt
          · exact hadj i (by omega) hi2)
  obtain ⟨hperm, hlen, _, hfalse, htrue⟩ := hI
  refine ⟨st.1, st.2, hres, hperm, hlen, ?_, htrue⟩
  intro hf
  obtain ⟨he, hadj⟩ := hfalse hf
  refine ⟨he, sorted_of_adjacent ary ?_⟩
  intro j hj
  exact hadj j (by omega) hj

theorem bubble_sort_while_spec :
    ∀ (m fuel : Nat) (ary : List Int), inversions ary ≤ m → m < fuel →
      ∃ out, BubbleSorter.sort_while fuel ary = .ok out ∧ out.Sorted (· ≤ ·) ∧
        out.Perm ary := by
  intro m
  induction m using Nat.strong_induction_on with
  | _ m ih =>
    intro fuel ary hm hf
    obtain ⟨f, rfl⟩ : ∃ f, fuel = f + 1 := ⟨fuel - 1, by omega⟩
    obtain ⟨out, sw, hres, hperm, _, hfalse, htrue⟩ := ltr_sort_spec ary
    cases sw with
    | false =>
      obtain ⟨he, hs⟩ := hfalse rfl
      refine ⟨out, ?_, he ▸ hs, hperm⟩
      simp [BubbleSorter.sort_while, hres]
    | true =>
      have hlt := htrue rfl
      obtain ⟨out2, hres2, hs2, hp2⟩ :=
        ih (inversions out) (by omega) f out (le_refl _) (by omega)
      refine ⟨out2, ?_, hs2, hp2.trans hperm⟩
      simp [BubbleSorter.sort_while, hres, hres2]

theorem sorted_of_length_lt_two (ary : List Int) (h : ary.length < 2) :
    ary.Sorted (· ≤ ·) := by
  match ary, h with
  | [], _ => exact List.sorted_nil
  | [a], _ => exact List.sorted_singleton a

theorem bubble_sort_spec (fuel : Nat) (ary : List Int)
    (hf : ary.length * ary.length < fuel) :
    ∃ out, BubbleSorter.sort fuel ary = .ok out ∧ out.Sorted (· ≤ ·) ∧ out.Perm ary := by
  unfold BubbleSorter.sort
  by_cases h2 : (ary.length : Int) < 2
  · exact ⟨ary, by simp only [h2, if_true], sorted_of_length_lt_two ary (by omega),
      List.Perm.refl _⟩
  · simp only [h2, if_false]
    exact bubble_sort_while_spec (ary.length * ary.length) fuel ary (inversions_le_sq ary) hf

theorem cocktail_sort_while_spec :
    ∀ (m fuel : Nat) (ary : List Int) (i : Int), (i = 0 ∨ i = 1) → inversions ary ≤ m →
      m < fuel →
      ∃ out, CocktailShakerSorter.sort_while fuel ary i = .ok out ∧ out.Sorted (· ≤ ·) ∧
        out.Perm ary := by
  intro m
  induction m using Nat.strong_induction_on with
  | _ m ih =>
    intro fuel ary i hi hm hf
    obtain ⟨f, rfl⟩ : ∃ f, fuel = f + 1 := ⟨fuel - 1, by omega⟩
    have hpass : ∃ (out : List Int) (sw : Bool),
        (if i = 0 then BubbleSorter.ltr_sort ary
          else if i = 1 then CocktailShakerSorter.rtl_sort ary
          else .error (.out_of_bounds i)) = .ok (out, sw) ∧
        out.Perm ary ∧ out.length = ary.length ∧
        (sw = false → out = ary ∧ ary.Sorted (· ≤ ·)) ∧
        (sw = true → inversions out < inversions ary) := by
      rcases hi with rfl | rfl
      · simpa using ltr_sort_spec ary
      · simpa using rtl_sort_spec ary
    have hnext : Int.land (i + 1) 1 = 0 ∨ Int.land (i + 1) 1 = 1 := by
      rcases hi with rfl | rfl
      · right; decide
      · left; decide
    obtain ⟨out, sw, hres, hperm, _, hfalse, htrue⟩ := hpass
    cases sw with
    | false =>
      obtain ⟨he, hs⟩ := hfalse rfl
      refine ⟨out, ?_, he ▸ hs, hperm⟩
      simp [CocktailShakerSorter.sort_while, hres]
    | true =>
      have hlt := htrue rfl
      obtain ⟨out2, hres2, hs2, hp2⟩ :=
        ih (inversions out) (by omega) f out _ hnext (le_refl _) (by omega)
      refine ⟨out2, ?_, hs2, hp2.trans hperm⟩
      simp [CocktailShakerSorter.sort_while, hres, hres2]

theorem cocktail_sort_spec (fuel : Nat) (ary : List Int)
    (hf : ary.length * ary.length < fuel) :
    ∃ out, CocktailShakerSorter.sort fuel ary = .ok out ∧ out.Sorted (· ≤ ·) ∧
      out.Perm ary := by
  unfold CocktailShakerSorter.sort
  by_cases h2 : (ary.length : Int) < 2
  · exact ⟨ary, by simp only [h2, if_true], sorted_of_length_lt_two ary (by omega),
      List.Perm.refl _⟩
  · simp only [h2, if_false]
    exact cocktail_sort_while_spec (ary.length * ary.length) fuel ary 0 (Or.inl rfl)
      (inversions_le_sq ary) hf

/-! ## Insertion sort -/

theorem set_slot_self (l : List Int) (i : Nat) : l.set i (slot l i) = l := by
  apply List.ext_getElem?
  intro k
  simp only [List.getElem?_set]
  by_cases hk : i = k
  · subst hk
    by_cases hi : i < l.length
    · simp [hi, slot, List.getElem?_eq_getElem hi]
    · simp [hi, List.getElem?_eq_none (not_lt.1 hi)]
  · simp [hk]

theorem Shifting.sorted_of_stop {old : Int} {i m : Nat} {arr : List Int}
    (h : Shifting old i m arr) (hstop : ∀ a, a < m → slot arr a ≤ old) :
    ∀ a b, a ≤ b → b ≤ i → slot arr a ≤ slot arr b := by
  intro a b hab hbi
  by_cases hbm : b < m
  · exact h.left a b hab hbm
  · by_cases hbe : b = m
    · by_cases hae : a = m
      · rw [hae, hbe]
      · rw [hbe, h.at_m]; exact hstop a (by omega)
    · by_cases ham : a < m
      · exact h.cross a b ham (by omega) hbi
      · by_cases hae : a = m
        · rw [hae, h.at_m]; exact le_of_lt (h.above b (by omega) hbi)
        · exact h.right a b (by omega) hab hbi

theorem shift_loop_spec (old : Int) (i : Nat) :
    ∀ (m fuel : Nat) (arr : List Int), m ≤ i → i < arr.length → m < fuel →
      Shifting old i m arr →
      ∃ (out : List Int) (j1 : Int),
        InsertionSorter.shift_loop old fuel arr ((m : Int) - 1) = .ok (out, j1) ∧
        SegPerm 0 i arr out ∧ (∀ a b, a ≤ b → b ≤ i → slot out a ≤ slot out b) ∧
        -1 ≤ j1 ∧ j1 < (m : Int) ∧ slot out (j1 + 1).toNat = old := by
  intro m
  induction m with
  | zero =>
    intro fuel arr _ hi hf hsh
    obtain ⟨f, rfl⟩ : ∃ f, fuel = f + 1 := ⟨fuel - 1, by omega⟩
    refine ⟨arr, -1, ?_, SegPerm.seg_refl _ _ _, hsh.sorted_of_stop (fun a ha => by omega),
      le_refl _, by omega, ?_⟩
    · simp [InsertionSorter.shift_loop]
    · simpa using hsh.at_m
  | succ m ih =>
    intro fuel arr hmi hi hf hsh
    obtain ⟨f, rfl⟩ : ∃ f, fuel = f + 1 := ⟨fuel - 1, by omega⟩
    have ej : ((m + 1 : Nat) : Int) - 1 = (m : Int) := by omega
    have ej1 : (m : Int) + 1 = ((m + 1 : Nat) : Int) := by omega
    have hge : (m : Int) ≥ 0 := by omega
    rw [ej]
    by_cases hv : slot arr m > old
    · have hsl : ∀ k, slot (swapSlots arr m (m + 1)) k
          = if k = m + 1 then slot arr m else if k = m then slot arr (m + 1)
            else slot arr k :=
        fun k => slot_swapSlots _ _ _ _ (by omega) (by omega)
      have hsh' : Shifting old i m (swapSlots arr m (m + 1)) := by
        refine ⟨?_, ?_, ?_, ?_, ?_⟩
        · rw [hsl, if_neg (by omega), if_pos rfl]; exact hsh.at_m
        · intro a b hab hb
          rw [hsl, hsl, if_neg (by omega), if_neg (by omega), if_neg (by omega),
            if_neg (by omega)]
          exact hsh.left a b hab (by omega)
        · intro a b ha hab hb
          rw [hsl a, hsl b]
          by_cases ha1 : a = m + 1
          · rw [if_pos ha1]
            by_cases hb1 : b = m + 1
            · rw [if_pos hb1]
            · rw [if_neg hb1, if_neg (by omega)]
              exact hsh.cross m b (by omega) (by omega) hb
          · rw [if_neg ha1, if_neg (by omega), if_neg (by omega), if_neg (by omega)]
            exact hsh.right a b (by omega) hab hb
        · intro a b ha hb hbi
          rw [hsl a, hsl b, if_neg (by omega), if_neg (by omega)]
          by_cases hb1 : b = m + 1
          · rw [if_pos hb1]
            exact hsh.left a m (by omega) (by omega)
          · rw [if_neg hb1, if_neg (by omega)]
            exact hsh.cross a b (by omega) (by omega) hbi
        · intro b hb hbi
          rw [hsl b]
          by_cases hb1 : b = m + 1
          · rw [if_pos hb1]; exact hv
          · rw [if_neg hb1, if_neg (by omega)]
            exact hsh.above b (by omega) hbi
      obtain ⟨out, j1, hres, hseg, hsorted, hj1, hj2, hold⟩ :=
        ih f (swapSlots arr m (m + 1)) (by omega)
          (by rw [length_swapSlots]; exact hi) (by omega) hsh'
      refine ⟨out, j1, ?_, ?_, hsorted, hj1, by omega, hold⟩
      · simp only [InsertionSorter.shift_loop, hge, if_true, index_read_ok arr m (by omega),
          hv, ej1, swap_values_ok arr m (m + 1) (by omega) (by omega), hres]
      · exact (SegPerm.seg_swap 0 i arr m (m + 1) (by omega) (by omega) (by omega)
          (by omega) (by omega) (by omega)).seg_trans hseg
    · refine ⟨arr, (m : Int), ?_, SegPerm.seg_refl _ _ _, ?_, by omega, by omega, ?_⟩
      · simp only [InsertionSorter.shift_loop, hge, if_true, index_read_ok arr m (by omega),
          hv, if_false]
      · refine hsh.sorted_of_stop ?_
        intro a ha
        exact le_trans (hsh.left a m (by omega) (by omega)) (not_lt.1 hv)
      · rw [ej1, Int.toNat_ofNat]; exact hsh.at_m

theorem insertion_body_spec (fuel : Nat) (arr : List Int) (i : Nat) (hi : i < arr.length)
    (hf : i < fuel) (hsorted : ∀ a b, a ≤ b → b < i → slot arr a ≤ slot arr b) :
    ∃ out, InsertionSorter.sort_body fuel (i : Int) arr = .ok out ∧
      out.Perm arr ∧ out.length = arr.length ∧
      ∀ a b, a ≤ b → b ≤ i → slot out a ≤ slot out b := by
  have hsh : Shifting (slot arr i) i i arr :=
    ⟨rfl, hsorted, fun a b h1 h2 h3 => by omega, fun a b h1 h2 h3 => by omega,
      fun b h1 h2 => by omega⟩
  obtain ⟨out, j1, hres, hseg, hs, hj1, hj2, hold⟩ :=
    shift_loop_spec (slot arr i) i i fuel arr (le_refl _) hi hf hsh
  refine ⟨out, ?_, hseg.perm, hseg.length_eq, hs⟩
  unfold InsertionSorter.sort_body
  simp only [index_read_ok arr i hi, hres]
  by_cases hshift : j1 = (i : Int) - 1
  · simp [hshift]
  · have hne : (j1 != (i : Int) - 1) = true := by simpa using hshift
    obtain ⟨t, ht⟩ : ∃ t : Nat, j1 + 1 = (t : Int) := ⟨(j1 + 1).toNat, by omega⟩
    have hlen := hseg.length_eq
    rw [ht, Int.toNat_ofNat] at hold
    simp only [hne, if_true, ht, index_write_ok out t _ (by omega)]
    rw [← hold, set_slot_self]

theorem insertion_sort_spec (fuel : Nat) (ary : List Int) (hf : ary.length ≤ fuel) :
    ∃ out, InsertionSorter.sort fuel ary = .ok out ∧ out.Sorted (· ≤ ·) ∧ out.Perm ary := by
  unfold InsertionSorter.sort
  by_cases h2 : (ary.length : Int) < 2
  · exact ⟨ary, by simp only [h2, if_true], sorted_of_length_lt_two ary (by omega),
      List.Perm.refl _⟩
  · simp only [h2, if_false]
    obtain ⟨out, hres, hperm, hlen, hs⟩ := for_loop_inv 1 (ary.length : Int)
        (InsertionSorter.sort_body fuel)
        (fun k arr => arr.Perm ary ∧ arr.length = ary.length ∧
          ∀ a b, a ≤ b → b ≤ k → slot arr a ≤ slot arr b)
        ary
        ⟨List.Perm.refl _, rfl, fun a b h1 h2 => by
          have : a = b := by omega
          rw [this]⟩
        (by
          intro k arr hk ⟨hperm, hlen, hs⟩
          have e : (1 : Int) + (k : Int) = ((k + 1 : Nat) : Int) := by omega
          rw [e]
          obtain ⟨out, hres, hp, hl, hs'⟩ :=
            insertion_body_spec fuel arr (k + 1) (by omega) (by omega)
              (fun a b h1 h2 => hs a b h1 (by omega))
          exact ⟨out, hres, hp.trans hperm, hl.trans hlen, hs'⟩)
    refine ⟨out, hres, ?_, hperm⟩
    apply sorted_of_slots
    intro a b hab hb
    exact hs a b hab (by omega)

/-! ## Selection sort -/

theorem scan_body_eq (ary : List Int) (m j : Nat) (hm : m < ary.length)
    (hj : j < ary.length) :
    SelectionSorter.scan_body ary (j : Int) (m : Int)
      = if slot ary m > slot ary j then .ok (j : Int) else .ok (m : Int) := by
  unfold SelectionSorter.scan_body
  simp only [index_read_ok ary m hm, index_read_ok ary j hj]

theorem selection_scan_spec (ary : List Int) (i : Nat) (hi : i < ary.length) :
    ∃ m : Nat, for_loop ((i : Int) + 1) (ary.length : Int) (SelectionSorter.scan_body ary)
        (i : Int) = .ok (m : Int) ∧ i ≤ m ∧ m < ary.length ∧
      ∀ t, i ≤ t → t < ary.length → slot ary m ≤ slot ary t := by
  obtain ⟨st, hres, hI⟩ := for_loop_inv ((i : Int) + 1) (ary.length : Int)
      (SelectionSorter.scan_body ary)
      (fun k st => ∃ m : Nat, st = (m : Int) ∧ i ≤ m ∧ m ≤ i + k ∧
        ∀ t, i ≤ t → t ≤ i + k → slot ary m ≤ slot ary t)
      (i : Int)
      ⟨i, rfl, le_refl _, by omega, fun t h1 h2 => by
        have : t = i := by omega
        rw [this]⟩
      (by
        rintro k st hk ⟨m, rfl, him, hmk, hmin⟩
        have e : (i : Int) + 1 + (k : Int) = ((i + k + 1 : Nat) : Int) := by omega
        rw [e, scan_body_eq ary m (i + k + 1) (by omega) (by omega)]
        by_cases hgt : slot ary m > slot ary (i + k + 1)
        · rw [if_pos hgt]
          refine ⟨_, rfl, i + k + 1, rfl, by omega, by omega, ?_⟩
          intro t h1 h2
          by_cases ht : t = i + k + 1
          · rw [ht]
          · exact le_trans (le_of_lt hgt) (hmin t h1 (by omega))
        · rw [if_neg hgt]
          refine ⟨_, rfl, m, rfl, him, by omega, ?_⟩
          intro t h1 h2
          by_cases ht : t = i + k + 1
          · rw [ht]; exact not_lt.1 hgt
          · exact hmin t h1 (by omega))
  obtain ⟨m, hst, him, hmk, hmin⟩ := hI
  refine ⟨m, by rw [hres, hst], him, by omega, ?_⟩
  intro t h1 h2
  exact hmin t h1 (by omega)

theorem selection_body_spec (arr : List Int) (i : Nat) (hi : i < arr.length) :
    ∃ m : Nat, SelectionSorter.sort_body (arr.length : Int) (i : Int) arr
        = .ok (swapSlots arr i m) ∧ i ≤ m ∧ m < arr.length ∧
      ∀ t, i ≤ t → t < arr.length → slot arr m ≤ slot arr t := by
  obtain ⟨m, hres, him, hm, hmin⟩ := selection_scan_spec arr i hi
  refine ⟨m, ?_, him, hm, hmin⟩
  unfold SelectionSorter.sort_body
  simp only [hres]
  by_cases he : i = m
  · subst he
    simp [swapSlots_self]
  · have hne : ((i : Int) != (m : Int)) = true := by
      simp only [bne_iff_ne, ne_eq]; omega
    simp only [hne, if_true, swap_values_ok arr i m hi hm]

theorem selection_sort_spec (ary : List Int) :
    ∃ out, SelectionSorter.sort ary = .ok out ∧ out.Sorted (· ≤ ·) ∧ out.Perm ary := by
  unfold SelectionSorter.sort
  by_cases h2 : (ary.length : Int) < 2
  · exact ⟨ary, by simp only [h2, if_true], sorted_of_length_lt_two ary (by omega),
      List.Perm.refl _⟩
  · simp only [h2, if_false]
    obtain ⟨out, hres, hperm, hlen, hs, hcross⟩ := for_loop_inv 0 ((ary.length : Int) - 1)
        (SelectionSorter.sort_body (ary.length : Int))
        (fun k arr => arr.Perm ary ∧ arr.length = ary.length ∧
          (∀ a b, a ≤ b → b < k → slot arr a ≤ slot arr b) ∧
          (∀ a b, a < k → k ≤ b → b < ary.length → slot arr a ≤ slot arr b))
        ary
        ⟨List.Perm.refl _, rfl, fun a b h1 h2 => by omega, fun a b h1 => by omega⟩
        (by
          intro k arr hk ⟨hperm, hlen, hs, hcross⟩
          have hk' : k < arr.length := by omega
          obtain ⟨m, hres, hkm, hm, hmin⟩ := selection_body_spec arr k hk'
          rw [hlen] at hres
          have hsl : ∀ t, slot (swapSlots arr k m) t
              = if t = m then slot arr k else if t = k then slot arr m else slot arr t :=
            fun t => slot_swapSlots _ _ _ _ hk' hm
          have hnew : ∀ t, k ≤ t → t < ary.length →
              slot arr m ≤ slot (swapSlots arr k m) t := by
            intro t h1 h2
            rw [hsl]
            by_cases htm : t = m
            · rw [if_pos htm]; exact hmin k (le_refl _) hk'
            · rw [if_neg htm]
              by_cases htk : t = k
              · rw [if_pos htk]
              · rw [if_neg htk]; exact hmin t h1 (by omega)
          have hold : ∀ a, a < k → slot (swapSlots arr k m) a = slot arr a := by
            intro a ha
            rw [hsl, if_neg (by omega), if_neg (by omega)]
          have hk_slot : slot (swapSlots arr k m) k = slot arr m := by
            rw [hsl]
            by_cases hkm' : k = m
            · rw [if_pos hkm', hkm']
            · rw [if_neg hkm', if_pos rfl]
          refine ⟨swapSlots arr k m, by simpa using hres,
            (swapSlots_perm arr k m hk' hm).trans hperm,
            (length_swapSlots _ _ _).trans hlen, ?_, ?_⟩
          · intro a b hab hb
            by_cases hbk : b = k
            · by_cases hak : a = k
              · rw [hak, hbk]
              · rw [hbk, hk_slot, hold a (by omega)]
                exact hcross a m (by omega) hkm (by omega)
            · rw [hold a (by omega), hold b (by omega)]
              exact hs a b hab (by omega)
          · intro a b ha hb hbn
            by_cases hak : a = k
            · rw [hak, hk_slot]
              exact hnew b (by omega) hbn
            · rw [hold a (by omega)]
              have hsrc : ∃ t, k ≤ t ∧ t < ary.length ∧
                  slot (swapSlots arr k m) b = slot arr t := by
                rw [hsl]
                by_cases hbm : b = m
                · exact ⟨k, le_refl _, by omega, by rw [if_pos hbm]⟩
                · exact ⟨b, by omega, hbn, by rw [if_neg hbm, if_neg (by omega)]⟩
              obtain ⟨t, ht1, ht2, ht3⟩ := hsrc
              rw [ht3]
              exact hcross a t (by omega) ht1 ht2)
    simp only [sub_zero] at hs hcross
    have hn : ((ary.length : Int) - 1).toNat = ary.length - 1 := by omega
    rw [hn] at hs hcross
    refine ⟨out, hres, ?_, hperm⟩
    apply sorted_of_slots
    intro a b hab hb
    by_cases hbl : b < ary.length - 1
    · exact hs a b hab hbl
    · by_cases hae : a = b
      · rw [hae]
      · exact hcross a b (by omega) (by omega) (by omega)

/-! ## Merge sort -/

theorem merge_body_take_x (xs ys arr : List Int) (k xi yi : Nat) (hk : k < arr.length)
    (hxi : xi < xs.length)
    (hpick : ys.length ≤ yi ∨ (yi < ys.length ∧ slot xs xi ≤ slot ys yi)) :
    MergeSorter.merge_body xs ys (k : Int) (arr, (xi : Int), (yi : Int))
      = .ok (arr.set k (slot xs xi), ((xi + 1 : Nat) : Int), (yi : Int)) := by
  have hx : ((xi : Int) < (xs.length : Int)) := by omega
  unfold MergeSorter.merge_body
  simp only [hx, decide_True, Bool.not_true, Bool.false_eq_true, if_false]
  rcases hpick with hy | ⟨hy, hle⟩
  · have hy' : ¬ ((yi : Int) < (ys.length : Int)) := by omega
    simp only [hy', decide_False, Bool.not_false, if_true, index_read_ok xs xi hxi,
      index_write_ok arr k _ hk]
    push_cast; rfl
  · have hy' : ((yi : Int) < (ys.length : Int)) := by omega
    simp only [hy', decide_True, Bool.not_true, Bool.false_eq_true, if_false,
      index_read_ok xs xi hxi, index_read_ok ys yi hy, hle, index_write_ok arr k _ hk]
    push_cast; rfl

theorem merge_body_take_y (xs ys arr : List Int) (k xi yi : Nat) (hk : k < arr.length)
    (hyi : yi < ys.length)
    (hpick : xs.length ≤ xi ∨ (xi < xs.length ∧ slot ys yi < slot xs xi)) :
    MergeSorter.merge_body xs ys (k : Int) (arr, (xi : Int), (yi : Int))
      = .ok (arr.set k (slot ys yi), (xi : Int), ((yi + 1 : Nat) : Int)) := by
  have hy : ((yi : Int) < (ys.length : Int)) := by omega
  unfold MergeSorter.merge_body
  rcases hpick with hx | ⟨hx, hlt⟩
  · have hx' : ¬ ((xi : Int) < (xs.length : Int)) := by omega
    simp only [hx', decide_False, Bool.not_false, if_true, index_read_ok ys yi hyi,
      index_write_ok arr k _ hk]
    push_cast; rfl
  · have hx' : ((xi : Int) < (xs.length : Int)) := by omega
    have hnle : ¬ (slot xs xi ≤ slot ys yi) := by omega
    simp only [hx', hy, decide_True, Bool.not_true, Bool.false_eq_true, if_false,
      index_read_ok xs xi hx, index_read_ok ys yi hyi, hnle, decide_False,
      index_write_ok arr k _ hk]
    push_cast; rfl

theorem merge_loop_spec (xs ys ary : List Int) (hlen : ary.length = xs.length + ys.length)
    (hxs : ∀ a b, a ≤ b → b < xs.length → slot xs a ≤ slot xs b)
    (hys : ∀ a b, a ≤ b → b < ys.length → slot ys a ≤ slot ys b) :
    ∃ st, for_loop 0 (ary.length : Int) (MergeSorter.merge_body xs ys) (ary, 0, 0) = .ok st ∧
      st.1.Sorted (· ≤ ·) ∧ st.1.Perm (xs ++ ys) := by
  obtain ⟨st, hres, hI⟩ := for_loop_inv 0 (ary.length : Int) (MergeSorter.merge_body xs ys)
      (fun k st => ∃ xi yi : Nat, st.2.1 = (xi : Int) ∧ st.2.2 = (yi : Int) ∧
        xi ≤ xs.length ∧ yi ≤ ys.length ∧ xi + yi = k ∧ st.1.length = ary.length ∧
        (st.1.take k).Perm (xs.take xi ++ ys.take yi) ∧
        (st.1.take k).Pairwise (· ≤ ·) ∧
        (∀ v ∈ st.1.take k, (∀ a, xi ≤ a → a < xs.length → v ≤ slot xs a) ∧
          (∀ b, yi ≤ b → b < ys.length → v ≤ slot ys b)))
      (ary, 0, 0)
      ⟨0, 0, rfl, rfl, Nat.zero_le _, Nat.zero_le _, rfl, rfl, by simp, by simp, by simp⟩
      (by
        rintro k ⟨arr, sx, sy⟩ hk ⟨xi, yi, hx, hy, hxl, hyl, hsum, hal, hperm, hpw, hbnd⟩
        simp only at hx hy hal hperm hpw hbnd
        subst hx hy
        have hk' : k < arr.length := by omega
        simp only [zero_add]
        by_cases hpick : xi < xs.length ∧
            (ys.length ≤ yi ∨ (yi < ys.length ∧ slot xs xi ≤ slot ys yi))
        · obtain ⟨hxi, hp⟩ := hpick
          rw [merge_body_take_x xs ys arr k xi yi hk' hxi hp]
          refine ⟨_, rfl, xi + 1, yi, rfl, rfl, by omega, hyl, by omega,
            by simpa using hal, ?_, ?_, ?_⟩
          · rw [take_set_succ arr k _ hk', take_succ_slot xs xi hxi]
            refine (List.Perm.append_right _ hperm).trans ?_
            simp only [List.append_assoc]
            exact List.Perm.append_left _ List.perm_append_comm
          · rw [take_set_succ arr k _ hk', List.pairwise_append]
            refine ⟨hpw, List.pairwise_singleton _ _, ?_⟩
            intro v hv w hw
            rw [List.mem_singleton] at hw
            subst hw
            exact (hbnd v hv).1 xi (le_refl _) hxi
          · rw [take_set_succ arr k _ hk']
            intro v hv
            rcases List.mem_append.1 hv with hv | hv
            · exact ⟨fun a h1 h2 => (hbnd v hv).1 a (by omega) h2, (hbnd v hv).2⟩
            · rw [List.mem_singleton] at hv
              subst hv
              refine ⟨fun a h1 h2 => hxs xi a (by omega) h2, ?_⟩
              intro b h1 h2
              rcases hp with hp | ⟨_, hle⟩
              · omega
              · exact le_trans hle (hys yi b h1 h2)
        · have hyi : yi < ys.length := by
            by_contra hcon
            apply hpick
            exact ⟨by omega, Or.inl (by omega)⟩
          have hp : xs.length ≤ xi ∨ (xi < xs.length ∧ slot ys yi < slot xs xi) := by
            by_cases hxi : xi < xs.length
            · right
              refine ⟨hxi, ?_⟩
              by_contra hcon
              exact hpick ⟨hxi, Or.inr ⟨hyi, not_lt.1 hcon⟩⟩
            · left; omega
          rw [merge_body_take_y xs ys arr k xi yi hk' hyi hp]
          refine ⟨_, rfl, xi, yi + 1, rfl, rfl, hxl, by omega, by omega,
            by simpa using hal, ?_, ?_, ?_⟩
          · rw [take_set_succ arr k _ hk', take_succ_slot ys yi hyi, ← List.append_assoc]
            exact List.Perm.append_right _ hperm
          · rw [take_set_succ arr k _ hk', List.pairwise_append]
            refine ⟨hpw, List.pairwise_singleton _ _, ?_⟩
            intro v hv w hw
            rw [List.mem_singleton] at hw
            subst hw
            exact (hbnd v hv).2 yi (le_refl _) hyi
          · rw [take_set_succ arr k _ hk']
            intro v hv
            rcases List.mem_append.1 hv with hv | hv
            · exact ⟨(hbnd v hv).1, fun b h1 h2 => (hbnd v hv).2 b (by omega) h2⟩
            · rw [List.mem_singleton] at hv
              subst hv
              refine ⟨?_, fun b h1 h2 => hys yi b (by omega) h2⟩
              intro a h1 h2
              rcases hp with hp | ⟨_, hlt⟩
              · omega
              · exact le_trans (le_of_lt hlt) (hxs xi a h1 h2))
  simp only [sub_zero, Int.toNat_ofNat] at hI
  obtain ⟨xi, yi, _, _, hxl, hyl, hsum, hal, hperm, hpw, _⟩ := hI
  have hxe : xi = xs.length := by omega
  have hye : yi = ys.length := by omega
  rw [← hal, List.take_length] at hperm hpw
  rw [hxe, hye, List.take_length, List.take_length] at hperm
  exact ⟨st, hres, hpw, hperm⟩

theorem slots_le_of_sorted (l : List Int) (h : l.Sorted (· ≤ ·)) :
    ∀ a b, a ≤ b → b < l.length → slot l a ≤ slot l b := by
  intro a b hab hb
  rw [slot_eq_getElem l a (by omega), slot_eq_getElem l b hb]
  by_cases he : a = b
  · subst he; exact le_refl _
  · exact (List.pairwise_iff_getElem.1 h) a b (by omega) hb (by omega)

theorem merge_sort_spec (small : List Int → Except Fault (List Int)) (N : Nat)
    (hsmall : ∀ b : List Int, b.length < 10 → b.length ≤ N →
      ∃ out, small b = .ok out ∧ out.Sorted (· ≤ ·) ∧ out.Perm b) :
    ∀ (n fuel : Nat) (ary : List Int), ary.length ≤ n → n < fuel → ary.length ≤ N →
      ∃ out, MergeSorter.sort small fuel ary = .ok out ∧ out.Sorted (· ≤ ·) ∧
        out.Perm ary := by
  intro n
  induction n using Nat.strong_induction_on with
  | _ n ih =>
    intro fuel ary hn hf hN
    obtain ⟨f, rfl⟩ : ∃ f, fuel = f + 1 := ⟨fuel - 1, by omega⟩
    by_cases h10 : (ary.length : Int) < 10
    · obtain ⟨out, hres, hs, hp⟩ := hsmall ary (by omega) hN
      exact ⟨out, by simp only [MergeSorter.sort, h10, if_true, hres], hs, hp⟩
    · have hmid : Int.tdiv (ary.length : Int) 2 = ((ary.length / 2 : Nat) : Int) := rfl
      have e1 : ((ary.length / 2 : Nat) : Int) - 1 = ((ary.length / 2 - 1 : Nat) : Int) := by
        omega
      have e2 : (ary.length : Int) - 1 = ((ary.length - 1 : Nat) : Int) := by omega
      have hx := as_slice_from_ok ary 0 (ary.length / 2 - 1) (by omega) (by omega)
      have hy := as_slice_from_ok ary (ary.length / 2) (ary.length - 1) (by omega) (by omega)
      have hxspan : (⟨(ary.drop 0).take (ary.length / 2 - 1 + 1 - 0),
          ((ary.length / 2 - 1 + 1 - 0 : Nat) : Int)⟩ : ManagedDynamicArray).to_span
          = ary.take (ary.length / 2) := by
        have : ary.length / 2 - 1 + 1 - 0 = ary.length / 2 := by omega
        simp only [ManagedDynamicArray.to_span, Int.toNat_ofNat, this, List.drop_zero,
          List.take_take, min_self]
      have hyspan : (⟨(ary.drop (ary.length / 2)).take (ary.length - 1 + 1 - ary.length / 2),
          ((ary.length - 1 + 1 - ary.length / 2 : Nat) : Int)⟩ : ManagedDynamicArray).to_span
          = ary.drop (ary.length / 2) := by
        simp only [ManagedDynamicArray.to_span, Int.toNat_ofNat, List.take_take, min_self]
        apply List.take_of_length_le
        simp only [List.length_drop]; omega
      obtain ⟨xs, hxres, hxs, hxp⟩ :=
        ih (ary.length / 2) (by omega) f (ary.take (ary.length / 2))
          (by simp only [List.length_take]; omega) (by omega)
          (by simp only [List.length_take]; omega)
      obtain ⟨ys, hyres, hys, hyp⟩ :=
        ih (ary.length - ary.length / 2) (by omega) f (ary.drop (ary.length / 2))
          (by simp only [List.length_drop]; omega) (by omega)
          (by simp only [List.length_drop]; omega)
      have hlen : ary.length = xs.length + ys.length := by
        rw [hxp.length_eq, hyp.length_eq, List.length_take, List.length_drop]; omega
      obtain ⟨st, hres, hs, hp⟩ :=
        merge_loop_spec xs ys ary hlen (slots_le_of_sorted xs hxs) (slots_le_of_sorted ys hys)
      refine ⟨st.1, ?_, hs, ?_⟩
      · have hx' := hx
        simp only [Nat.cast_zero] at hx'
        simp only [MergeSorter.sort, h10, if_false, hmid, e1, e2, hx', hy, hxspan, hyspan,
          hxres, hyres, hres]
      · refine hp.trans ?_
        have := List.Perm.append hxp hyp
        rwa [List.take_append_drop] at this

/-! ## The sorters: the stated properties -/

theorem heap_sort_spec (fuel : Nat) (ary : List Int) (hf : 2 * ary.length ≤ fuel) :
    ∃ out, HeapSorter.sort fuel ary = .ok out ∧ out.Sorted (· ≤ ·) ∧ out.Perm ary := by
  obtain ⟨heap1, hres1, hsz, hl, hkind, ho, hp⟩ := heap_sort_fill fuel ary hf
  obtain ⟨st, hres2, hs, hp2, _⟩ := heap_sort_drain fuel ary heap1 hf hsz hl hkind ho hp
  refine ⟨st.2, ?_, hs, hp2⟩
  unfold HeapSorter.sort
  simp only [hres1, hres2]

theorem quick_sort_spec (fuel : Nat) (ary : List Int) (hf : ary.length < fuel) :
    ∃ out, QuickSorter.sort fuel ary = .ok out ∧ out.Sorted (· ≤ ·) ∧ out.Perm ary := by
  obtain ⟨out, hres, hseg, hsort⟩ :=
    sort_between_indexes_spec ary.length fuel ary 0 ((ary.length : Int) - 1)
      (by omega) hf (fun _ => ⟨le_refl _, by omega⟩)
  refine ⟨out, hres, ?_, hseg.perm⟩
  apply sorted_of_slots
  intro i j hij hj
  have hlen := hseg.length_eq
  exact hsort i j (by omega) hij (by omega)

theorem merge_sort_delegates_small (small : List Int → Except Fault (List Int))
    (fuel : Nat) (ary : List Int) (hlen : ary.length < 10) (hf : 0 < fuel) :
    MergeSorter.sort small fuel ary = small ary := by
  obtain ⟨f, rfl⟩ : ∃ f, fuel = f + 1 := ⟨fuel - 1, by omega⟩
  have h10 : (ary.length : Int) < 10 := by omega
  simp only [MergeSorter.sort, h10, if_true]

/-- C11: for every array `ary` and every fallback sorter that turns each array
of fewer than 10 elements into its non-descending sorted permutation,
`MergeSorter(fallback)::sort` returns (the recursion depth stays below
`length + 1`) and leaves `ary` sorted in non-descending order and a permutation
of its original contents. -/
theorem merge_sort_correct (small : List Int → Except Fault (List Int)) (fuel : Nat)
    (ary : List Int)
    (hsmall : ∀ b : List Int, b.length < 10 →
      ∃ out, small b = .ok out ∧ out.Sorted (· ≤ ·) ∧ out.Perm b)
    (hf : ary.length < fuel) :
    ∃ out, MergeSorter.sort small fuel ary = .ok out ∧ out.Sorted (· ≤ ·) ∧
      out.Perm ary :=
  merge_sort_spec small ary.length (fun b hb _ => hsmall b hb) ary.length fuel ary
    (le_refl _) hf (le_refl _)

theorem merge_sort_correct_witness :
    [3, 1, 2, 9, 8, 7, 6, 5, 4, 3, 2, 1, 0].length < 14 ∧
    (∃ out, MergeSorter.sort (InsertionSorter.sort 10) 14
        [3, 1, 2, 9, 8, 7, 6, 5, 4, 3, 2, 1, 0] = .ok out ∧
      out.Sorted (· ≤ ·) ∧ out.Perm [3, 1, 2, 9, 8, 7, 6, 5, 4, 3, 2, 1, 0]) ∧
    MergeSorter.sort (InsertionSorter.sort 10) 14 [3, 1, 2, 9, 8, 7, 6, 5, 4, 3, 2, 1, 0]
      = .ok [0, 1, 1, 2, 2, 3, 3, 4, 5, 6, 7, 8, 9] :=
  ⟨by decide,
    merge_sort_correct (InsertionSorter.sort 10) 14 [3, 1, 2, 9, 8, 7, 6, 5, 4, 3, 2, 1, 0]
      (fun b hb => insertion_sort_spec 10 b (by omega)) (by decide),
    by decide!⟩

/-- C12: for every array of fewer than 10 elements and every configured
fallback sorter, `MergeSorter::sort` delegates entirely to the fallback: its
outcome is exactly the outcome of `fallback.sort` on that array, merge sort
itself neither splitting nor merging. -/
theorem merge_sort_delegates (small : List Int → Except Fault (List Int)) (fuel : Nat)
    (ary : List Int) (hlen : ary.length < 10) (hf : 0 < fuel) :
    MergeSorter.sort small fuel ary = small ary :=
  merge_sort_delegates_small small fuel ary hlen hf

theorem merge_sort_delegates_witness :
    [9, 4, 7, 1, 8, 2, 6, 3, 5].length < 10 ∧ 0 < 1 ∧
    MergeSorter.sort SelectionSorter.sort 1 [9, 4, 7, 1, 8, 2, 6, 3, 5]
      = SelectionSorter.sort [9, 4, 7, 1, 8, 2, 6, 3, 5] ∧
    SelectionSorter.sort [9, 4, 7, 1, 8, 2, 6, 3, 5] = .ok [1, 2, 3, 4, 5, 6, 7, 8, 9] :=
  ⟨by decide, by decide,
    merge_sort_delegates SelectionSorter.sort 1 [9, 4, 7, 1, 8, 2, 6, 3, 5] (by decide)
      (by decide),
    by decide!⟩

/-- C13: for every array `ary`, `BubbleSorter::sort` returns (every pass that
swaps removes an inversion, so fewer than `length²` + 1 passes run) and leaves
`ary` sorted in non-descending order and a permutation of its original
contents. -/
theorem bubble_sort_correct (fuel : Nat) (ary : List Int)
    (hf : ary.length * ary.length < fuel) :
    ∃ out, BubbleSorter.sort fuel ary = .ok out ∧ out.Sorted (· ≤ ·) ∧ out.Perm ary :=
  bubble_sort_spec fuel ary hf

theorem bubble_sort_correct_witness :
    [3, 1, 2].length * [3, 1, 2].length < 10 ∧
    (∃ out, BubbleSorter.sort 10 [3, 1, 2] = .ok out ∧ out.Sorted (· ≤ ·) ∧
      out.Perm [3, 1, 2]) ∧
    BubbleSorter.sort 10 [3, 1, 2] = .ok [1, 2, 3] :=
  ⟨by decide, bubble_sort_correct 10 [3, 1, 2] (by decide), by decide!⟩

/-- C14: for every array `ary`, `CocktailShakerSorter::sort`, whose loop runs a
left-to-right pass first, then alternates right-to-left and left-to-right
passes and stops at the first pass that swaps nothing, returns and leaves
`ary` sorted in non-descending order and a permutation of its original
contents. -/
theorem cocktail_sort_correct (fuel : Nat) (ary : List Int)
    (hf : ary.length * ary.length < fuel) :
    ∃ out, CocktailShakerSorter.sort fuel ary = .ok out ∧ out.Sorted (· ≤ ·) ∧
      out.Perm ary :=
  cocktail_sort_spec fuel ary hf

theorem cocktail_sort_correct_witness :
    [3, 1, 2, 0].length * [3, 1, 2, 0].length < 17 ∧
    (∃ out, CocktailShakerSorter.sort 17 [3, 1, 2, 0] = .ok out ∧ out.Sorted (· ≤ ·) ∧
      out.Perm [3, 1, 2, 0]) ∧
    CocktailShakerSorter.sort 17 [3, 1, 2, 0] = .ok [0, 1, 2, 3] :=
  ⟨by decide, cocktail_sort_correct 17 [3, 1, 2, 0] (by decide), by decide!⟩

/-- C15: for every array `ary`, `InsertionSorter::sort` returns (the inner
shift loop runs at most `length` times) and leaves `ary` sorted in
non-descending order and a permutation of its original contents. -/
theorem insertion_sort_correct (fuel : Nat) (ary : List Int) (hf : ary.length ≤ fuel) :
    ∃ out, InsertionSorter.sort fuel ary = .ok out ∧ out.Sorted (· ≤ ·) ∧ out.Perm ary :=
  insertion_sort_spec fuel ary hf

theorem insertion_sort_correct_witness :
    [3, 1, 2].length ≤ 3 ∧
    (∃ out, InsertionSorter.sort 3 [3, 1, 2] = .ok out ∧ out.Sorted (· ≤ ·) ∧
      out.Perm [3, 1, 2]) ∧
    InsertionSorter.sort 3 [3, 1, 2] = .ok [1, 2, 3] :=
  ⟨by decide, insertion_sort_correct 3 [3, 1, 2] (by decide), by decide!⟩

/-- C16: for every array `ary`, `SelectionSorter::sort` returns and leaves
`ary` sorted in non-descending order and a permutation of its original
contents. -/
theorem selection_sort_correct (ary : List Int) :
    ∃ out, SelectionSorter.sort ary = .ok out ∧ out.Sorted (· ≤ ·) ∧ out.Perm ary :=
  selection_sort_spec ary

theorem idem_of_spec (S : List Int → Except Fault (List Int)) (a : List Int)
    (hS : ∀ b : List Int, b.length = a.length →
      ∃ out, S b = .ok out ∧ out.Sorted (· ≤ ·) ∧ out.Perm b) :
    (a.Sorted (· ≤ ·) → S a = .ok a) ∧ (∃ out, S a = .ok out ∧ S out = .ok out) := by
  constructor
  · intro ha
    obtain ⟨out, hres, hs, hp⟩ := hS a rfl
    rw [hres, List.eq_of_perm_of_sorted hp hs ha]
  · obtain ⟨out, hres, hs, hp⟩ := hS a rfl
    obtain ⟨out2, hres2, hs2, hp2⟩ := hS out hp.length_eq
    refine ⟨out, hres, ?_⟩
    rw [hres2, List.eq_of_perm_of_sorted hp2 hs2 hs]

theorem sq_bounds (n fuel : Nat) (hf : n * n < fuel) : n < fuel ∧ 2 * n ≤ fuel := by
  constructor
  · nlinarith
  · rcases Nat.lt_or_ge n 2 with h | h
    · interval_cases n <;> omega
    · nlinarith

/-- C17: idempotence of each of the seven sorters (merge sort with the
insertion-sort fallback): an array already in non-descending order is left
unchanged, and sorting twice in succession gives the same array as sorting
once. -/
theorem sort_idempotent (fuel : Nat) (a : List Int) (hf : a.length * a.length < fuel) :
    (a.Sorted (· ≤ ·) →
      BubbleSorter.sort fuel a = .ok a ∧ CocktailShakerSorter.sort fuel a = .ok a ∧
      InsertionSorter.sort fuel a = .ok a ∧ SelectionSorter.sort a = .ok a ∧
      HeapSorter.sort fuel a = .ok a ∧
      MergeSorter.sort (InsertionSorter.sort fuel) fuel a = .ok a ∧
      QuickSorter.sort fuel a = .ok a) ∧
    (∃ out, BubbleSorter.sort fuel a = .ok out ∧ BubbleSorter.sort fuel out = .ok out) ∧
    (∃ out, CocktailShakerSorter.sort fuel a = .ok out ∧
      CocktailShakerSorter.sort fuel out = .ok out) ∧
    (∃ out, InsertionSorter.sort fuel a = .ok out ∧
      InsertionSorter.sort fuel out = .ok out) ∧
    (∃ out, SelectionSorter.sort a = .ok out ∧ SelectionSorter.sort out = .ok out) ∧
    (∃ out, HeapSorter.sort fuel a = .ok out ∧ HeapSorter.sort fuel out = .ok out) ∧
    (∃ out, MergeSorter.sort (InsertionSorter.sort fuel) fuel a = .ok out ∧
      MergeSorter.sort (InsertionSorter.sort fuel) fuel out = .ok out) ∧
    (∃ out, QuickSorter.sort fuel a = .ok out ∧ QuickSorter.sort fuel out = .ok out) := by
  obtain ⟨hlt, h2n⟩ := sq_bounds a.length fuel hf
  have hb := idem_of_spec (BubbleSorter.sort fuel) a
    (fun b hb => bubble_sort_spec fuel b (by rw [hb]; exact hf))
  have hc := idem_of_spec (CocktailShakerSorter.sort fuel) a
    (fun b hb => cocktail_sort_spec fuel b (by rw [hb]; exact hf))
  have hi := idem_of_spec (InsertionSorter.sort fuel) a
    (fun b hb => insertion_sort_spec fuel b (by omega))
  have hs := idem_of_spec SelectionSorter.sort a (fun b _ => selection_sort_spec b)
  have hh := idem_of_spec (HeapSorter.sort fuel) a
    (fun b hb => heap_sort_spec fuel b (by omega))
  have hm := idem_of_spec (MergeSorter.sort (InsertionSorter.sort fuel) fuel) a
    (fun b hb => merge_sort_spec (InsertionSorter.sort fuel) b.length
      (fun c hc _ => insertion_sort_spec fuel c (by omega)) b.length fuel b (le_refl _)
      (by omega) (le_refl _))
  have hq := idem_of_spec (QuickSorter.sort fuel) a
    (fun b hb => quick_sort_spec fuel b (by omega))
  exact ⟨fun ha => ⟨hb.1 ha, hc.1 ha, hi.1 ha, hs.1 ha, hh.1 ha, hm.1 ha, hq.1 ha⟩,
    hb.2, hc.2, hi.2, hs.2, hh.2, hm.2, hq.2⟩

theorem sort_idempotent_witness :
    [1, 2, 2].length * [1, 2, 2].length < 10 ∧ [1, 2, 2].Sorted (· ≤ ·) ∧
    BubbleSorter.sort 10 [1, 2, 2] = .ok [1, 2, 2] ∧
    (∃ out, QuickSorter.sort 10 [1, 2, 2] = .ok out ∧ QuickSorter.sort 10 out = .ok out) :=
  ⟨by decide, by decide,
    ((sort_idempotent 10 [1, 2, 2] (by decide)).1 (by decide)).1,
    (sort_idempotent 10 [1, 2, 2] (by decide)).2.2.2.2.2.2.2⟩

theorem trivial_of_spec (S : List Int → Except Fault (List Int)) (a : List Int)
    (hlen : a.length ≤ 1) (hS : ∃ out, S a = .ok out ∧ out.Sorted (· ≤ ·) ∧ out.Perm a) :
    S a = .ok a := by
  obtain ⟨out, hres, _, hp⟩ := hS
  rw [hres]
  congr 1
  match a, hlen with
  | [], _ => exact List.perm_nil.1 hp
  | [x], _ => exact List.perm_singleton.1 hp

/-- C18: for each of the seven sorters, merge sort being configured with any
of the other six as its fallback, and every array of length 0 or 1, `sort`
returns with the array unchanged: no element access is out of range and no
other fault occurs. -/
theorem sort_trivial (fuel : Nat) (a : List Int) (hlen : a.length ≤ 1) (hf : 2 ≤ fuel) :
    BubbleSorter.sort fuel a = .ok a ∧ CocktailShakerSorter.sort fuel a = .ok a ∧
    InsertionSorter.sort fuel a = .ok a ∧ SelectionSorter.sort a = .ok a ∧
    HeapSorter.sort fuel a = .ok a ∧ QuickSorter.sort fuel a = .ok a ∧
    MergeSorter.sort (BubbleSorter.sort fuel) fuel a = .ok a ∧
    MergeSorter.sort (CocktailShakerSorter.sort fuel) fuel a = .ok a ∧
    MergeSorter.sort (InsertionSorter.sort fuel) fuel a = .ok a ∧
    MergeSorter.sort SelectionSorter.sort fuel a = .ok a ∧
    MergeSorter.sort (HeapSorter.sort fuel) fuel a = .ok a ∧
    MergeSorter.sort (QuickSorter.sort fuel) fuel a = .ok a := by
  have hsq : a.length * a.length < fuel := by
    have : a.length * a.length ≤ 1 := by
      have : a.length = 0 ∨ a.length = 1 := by omega
      rcases this with h | h <;> simp [h]
    omega
  have hb := trivial_of_spec (BubbleSorter.sort fuel) a hlen (bubble_sort_spec fuel a hsq)
  have hc := trivial_of_spec (CocktailShakerSorter.sort fuel) a hlen
    (cocktail_sort_spec fuel a hsq)
  have hi := trivial_of_spec (InsertionSorter.sort fuel) a hlen
    (insertion_sort_spec fuel a (by omega))
  have hs := trivial_of_spec SelectionSorter.sort a hlen (selection_sort_spec a)
  have hh := trivial_of_spec (HeapSorter.sort fuel) a hlen (heap_sort_spec fuel a (by omega))
  have hq := trivial_of_spec (QuickSorter.sort fuel) a hlen
    (quick_sort_spec fuel a (by omega))
  have hd : ∀ S : List Int → Except Fault (List Int), MergeSorter.sort S fuel a = S a :=
    fun S => merge_sort_delegates_small S fuel a (by omega) (by omega)
  exact ⟨hb, hc, hi, hs, hh, hq, by rw [hd, hb], by rw [hd, hc], by rw [hd, hi],
    by rw [hd, hs], by rw [hd, hh], by rw [hd, hq]⟩

theorem sort_trivial_witness :
    [7].length ≤ 1 ∧ (2 : Nat) ≤ 2 ∧ QuickSorter.sort 2 [7] = .ok [7] ∧
    MergeSorter.sort (HeapSorter.sort 2) 2 [] = .ok [] :=
  ⟨by decide, by decide, (sort_trivial 2 [7] (by decide) (by decide)).2.2.2.2.2.1,
    (sort_trivial 2 [] (by decide) (by decide)).2.2.2.2.2.2.2.2.2.2.1⟩

/-! ## Slices, the tie-break of sift-down, partition -/

/-- C21, as amended: `as_slice_from(src, start_idx, end_idx)` treats both
`start_idx` and `end_idx` as inclusive: for `0 ≤ start ≤ end < length(src)` the
returned array holds exactly `src[start_idx] .. src[end_idx]`, so it has
`end_idx - start_idx + 1` elements and its last element is `src[end_idx]`. -/
theorem as_slice_from_inclusive (src : List Int) (start fin : Nat) (hse : start ≤ fin)
    (hlen : fin < src.length) :
    ∃ a, ManagedDynamicArray.as_slice_from src (start : Int) (fin : Int) = .ok a ∧
      a.data_ = segment src start fin ∧ a.data_.length = fin - start + 1 ∧
      a.size_ = ((fin - start + 1 : Nat) : Int) ∧
      slot a.data_ (fin - start) = slot src fin := by
  refine ⟨_, as_slice_from_ok src start fin hse hlen, rfl, ?_, ?_, ?_⟩
  · simp only [List.length_take, List.length_drop]; omega
  · simp only; congr 1; omega
  · simp only
    rw [slot_take _ _ _ (by omega), slot_drop]
    congr 1; omega

theorem as_slice_from_inclusive_witness :
    (2 : Nat) ≤ 4 ∧ 4 < [0, 1, 2, 3, 4, 5].length ∧
    ∃ a, ManagedDynamicArray.as_slice_from [0, 1, 2, 3, 4, 5] ((2 : Nat) : Int)
        ((4 : Nat) : Int) = .ok a ∧
      a.data_ = segment [0, 1, 2, 3, 4, 5] 2 4 ∧ a.data_.length = 4 - 2 + 1 ∧
      a.size_ = ((4 - 2 + 1 : Nat) : Int) ∧
      slot a.data_ (4 - 2) = slot [0, 1, 2, 3, 4, 5] 4 :=
  ⟨by decide, by decide,
    as_slice_from_inclusive [0, 1, 2, 3, 4, 5] 2 4 (by decide) (by decide)⟩

/-- C21, counterexample: on `src = [0,1,2,3,4,5]` the call
`as_slice_from(src, 2, 4)` returns the three elements `2,3,4`, not the two
elements `src[2], src[3]` of an exclusive end; and with the exclusive end
`6 = length(src)` the copy reads past the source. -/
theorem as_slice_from_exclusive_counterexample :
    ManagedDynamicArray.as_slice_from [0, 1, 2, 3, 4, 5] 2 4 = .ok ⟨[2, 3, 4], 3⟩ ∧
    ([2, 3, 4] : List Int).length ≠ 4 - 2 ∧
    ManagedDynamicArray.as_slice_from [0, 1, 2, 3, 4, 5] 2 6
      = .error (.out_of_bounds 6) := by
  decide

/-- C22, as amended: in `heapify_down` on a node whose two children both exist
and hold equal values, `compare` is false on the tie, so the second (right,
index `2i + 1`) child is the swap partner, in a min-heap and in a max-heap
alike. -/
theorem heapify_down_tie_right (fuel : Nat) (heap : Heap) (i n : Nat)
    (hsz : heap.size_ = (n : Int)) (htwo : 2 * i + 1 ≤ n)
    (hn : n < heap.storage_.data_.length)
    (htie : slot heap.storage_.data_ (2 * i) = slot heap.storage_.data_ (2 * i + 1)) :
    HeapNode.heapify_down (fuel + 1) ⟨(i : Int)⟩ heap
      = HeapNode.try_swap_value fuel ⟨(i : Int)⟩ heap ⟨((2 * i + 1 : Nat) : Int)⟩ .DOWN := by
  rw [heapify_down_two fuel heap i n hsz htwo hn, htie]
  have hc : heap.compare (slot heap.storage_.data_ (2 * i + 1))
      (slot heap.storage_.data_ (2 * i + 1)) = false := by
    unfold Heap.compare max_comparer min_comparer
    split <;> simp
  simp only [hc, Bool.false_eq_true, if_false]

theorem heapify_down_tie_right_witness :
    (⟨3, ⟨[0, 5, 3, 3], 4⟩, false⟩ : Heap).size_ = ((3 : Nat) : Int) ∧
    2 * 1 + 1 ≤ 3 ∧
    HeapNode.heapify_down (3 + 1) ⟨((1 : Nat) : Int)⟩ ⟨3, ⟨[0, 5, 3, 3], 4⟩, false⟩
      = HeapNode.try_swap_value 3 ⟨((1 : Nat) : Int)⟩ ⟨3, ⟨[0, 5, 3, 3], 4⟩, false⟩
          ⟨((2 * 1 + 1 : Nat) : Int)⟩ .DOWN :=
  ⟨rfl, by decide,
    heapify_down_tie_right 3 ⟨3, ⟨[0, 5, 3, 3], 4⟩, false⟩ 1 3 rfl (by decide) (by decide)
      (by decide)⟩

/-- C22, counterexample: on the min-heap with storage `[_, 5, 3, 3]` and size 3,
`heapify_down` from the root swaps with index 3, giving `[_, 3, 3, 5]`, not
with index 2 (which would give `[_, 3, 5, 3]`). -/
theorem heapify_down_tie_counterexample :
    HeapNode.heapify_down 4 ⟨1⟩ ⟨3, ⟨[0, 5, 3, 3], 4⟩, false⟩
      = .ok ⟨3, ⟨[0, 3, 3, 5], 4⟩, false⟩ ∧
    (⟨3, ⟨[0, 3, 3, 5], 4⟩, false⟩ : Heap) ≠ ⟨3, ⟨[0, 3, 5, 3], 4⟩, false⟩ := by
  decide

theorem segment_perm (d d' : List Int) (lo hi : Nat) (hlen : d'.length = d.length)
    (hp : d'.Perm d)
    (hframe : ∀ k, (k < lo ∨ hi < k) → slot d' k = slot d k) :
    (segment d' lo hi).Perm (segment d lo hi) := by
  unfold segment
  have hA : d'.take lo = d.take lo := by
    apply List.ext_getElem?
    intro k
    by_cases hk : k < lo
    · rw [List.getElem?_take_of_lt hk, List.getElem?_take_of_lt hk]
      exact getElem?_eq_of_slot d d' hlen k (hframe k (Or.inl hk))
    · rw [List.getElem?_eq_none (by simp; omega), List.getElem?_eq_none (by simp; omega)]
  have hR : (d'.drop lo).drop (hi + 1 - lo) = (d.drop lo).drop (hi + 1 - lo) := by
    apply List.ext_getElem?
    intro k
    simp only [List.getElem?_drop]
    by_cases hk : hi < lo + (hi + 1 - lo + k)
    · exact getElem?_eq_of_slot d d' hlen _ (hframe _ (Or.inr hk))
    · have e : lo + (hi + 1 - lo + k) = lo + k := by omega
      have hk2 : k = 0 ∧ hi + 1 ≤ lo := by omega
      rw [e]
      by_cases h0 : hi + 1 = lo
      · omega
      · exact getElem?_eq_of_slot d d' hlen _ (hframe _ (Or.inr (by omega)))
  have e1 : d = d.take lo ++ ((d.drop lo).take (hi + 1 - lo)
      ++ (d.drop lo).drop (hi + 1 - lo)) := by
    rw [List.take_append_drop, List.take_append_drop]
  have e2 : d' = d'.take lo ++ ((d'.drop lo).take (hi + 1 - lo)
      ++ (d'.drop lo).drop (hi + 1 - lo)) := by
    rw [List.take_append_drop, List.take_append_drop]
  rw [e1, e2, hA, hR] at hp
  exact (List.perm_append_right_iff _).1 ((List.perm_append_left_iff _).1 hp)

/-- C29: for every array and indices `0 ≤ low ≤ high < length`,
`QuickSorter::partition(ary, low, high)` returns an index `p` with
`low ≤ p ≤ high`; afterwards `ary[p]` is the original `ary[high]` (the pivot),
every element of `[low, p)` is `≤` the pivot, every element of `(p, high]` is
`>` the pivot, the segment `[low, high]` is a permutation of its original
contents, and the elements outside `[low, high]` are unchanged. -/
theorem partition_correct (ary : List Int) (low high : Nat) (hlh : low ≤ high)
    (hh : high < ary.length) :
    ∃ (out : List Int) (p : Nat),
      QuickSorter.partition ary (low : Int) (high : Int) = .ok (out, (p : Int)) ∧
      low ≤ p ∧ p ≤ high ∧ slot out p = slot ary high ∧
      (∀ j, low ≤ j → j < p → slot out j ≤ slot ary high) ∧
      (∀ j, p < j → j ≤ high → slot ary high < slot out j) ∧
      (segment out low high).Perm (segment ary low high) ∧
      out.length = ary.length ∧
      (∀ k, (k < low ∨ high < k) → slot out k = slot ary k) := by
  obtain ⟨out, p, hres, hlp, hph, hseg, hpiv, hle, hgt⟩ := partition_spec ary low high hlh hh
  have hframe : ∀ k, (k < low ∨ high < k) → slot out k = slot ary k := by
    intro k hk
    exact hseg.frame k (by omega)
  exact ⟨out, p, hres, hlp, hph, hpiv, hle, hgt,
    segment_perm ary out low high hseg.length_eq hseg.perm hframe, hseg.length_eq, hframe⟩

theorem partition_correct_witness :
    (1 : Nat) ≤ 4 ∧ 4 < [9, 5, 1, 7, 3, 0].length ∧
    (∃ (out : List Int) (p : Nat),
      QuickSorter.partition [9, 5, 1, 7, 3, 0] ((1 : Nat) : Int) ((4 : Nat) : Int)
        = .ok (out, (p : Int)) ∧
      1 ≤ p ∧ p ≤ 4 ∧ slot out p = slot [9, 5, 1, 7, 3, 0] 4 ∧
      (∀ j, 1 ≤ j → j < p → slot out j ≤ slot [9, 5, 1, 7, 3, 0] 4) ∧
      (∀ j, p < j → j ≤ 4 → slot [9, 5, 1, 7, 3, 0] 4 < slot out j) ∧
      (segment out 1 4).Perm (segment [9, 5, 1, 7, 3, 0] 1 4) ∧
      out.length = [9, 5, 1, 7, 3, 0].length ∧
      (∀ k, (k < 1 ∨ 4 < k) → slot out k = slot [9, 5, 1, 7, 3, 0] k)) ∧
    QuickSorter.partition [9, 5, 1, 7, 3, 0] 1 4 = .ok ([9, 1, 3, 7, 5, 0], 2) :=
  ⟨by decide, by decide, partition_correct [9, 5, 1, 7, 3, 0] 1 4 (by decide) (by decide),
    by decide!⟩

/-! ## Single bubble passes -/

theorem inversions_eq_zero_of_sorted (l : List Int) (h : l.Sorted (· ≤ ·)) :
    inversions l = 0 := by
  induction l with
  | nil => rfl
  | cons a t ih =>
    have hs := List.sorted_cons.1 h
    simp only [inversions, ih hs.2, Nat.add_zero]
    rw [List.countP_eq_zero]
    intro x hx
    have := hs.1 x hx
    simp only [decide_eq_true_eq, not_lt]
    exact this

theorem ltr_body_counted_eq (arr : List Int) (sw : Bool) (c k : Nat)
    (hk : k + 1 < arr.length) :
    BubbleSorter.ltr_body_counted ((1 : Int) + (k : Int)) ((arr, sw), c)
      = if slot arr k > slot arr (k + 1) then .ok ((swapSlots arr k (k + 1), true), c + 1)
        else .ok ((arr, sw), c) := by
  have e1 : (1 : Int) + (k : Int) - 1 = (k : Int) := by omega
  have e2 : (1 : Int) + (k : Int) = ((k + 1 : Nat) : Int) := by omega
  unfold BubbleSorter.ltr_body_counted
  simp only [e1]
  rw [e2]
  simp only [index_read_ok arr k (by omega), index_read_ok arr (k + 1) hk,
    swap_values_ok arr k (k + 1) (by omega) hk]

theorem rtl_body_counted_eq (arr : List Int) (sw : Bool) (c j : Nat)
    (hj : j + 1 < arr.length) :
    CocktailShakerSorter.rtl_body_counted ((j + 1 : Nat) : Int) ((arr, sw), c)
      = if slot arr (j + 1) < slot arr j then .ok ((swapSlots arr j (j + 1), true), c + 1)
        else .ok ((arr, sw), c) := by
  have e1 : ((j + 1 : Nat) : Int) - 1 = (j : Int) := by omega
  unfold CocktailShakerSorter.rtl_body_counted
  simp only [e1, index_read_ok arr j (by omega), index_read_ok arr (j + 1) hj,
    swap_values_ok arr j (j + 1) (by omega) hj]

theorem ltr_sort_counted_spec (ary : List Int) :
    ∃ (out : List Int) (sw : Bool) (c : Nat),
      BubbleSorter.ltr_sort_counted ary = .ok ((out, sw), c) ∧
      BubbleSorter.ltr_sort ary = .ok (out, sw) ∧ (sw = true ↔ 1 ≤ c) := by
  obtain ⟨st, hres, hI⟩ := for_loop_inv 1 (ary.length : Int) BubbleSorter.ltr_body_counted
      (fun k st => st.1.1.length = ary.length ∧
        (List.range k).foldlM
          (fun (s : List Int × Bool) (t : Nat) =>
            BubbleSorter.ltr_body ((1 : Int) + (t : Int)) s) (ary, false) = .ok st.1 ∧
        (st.1.2 = true ↔ 1 ≤ st.2))
      ((ary, false), 0)
      ⟨rfl, rfl, by simp⟩
      (by
        rintro k ⟨⟨arr, sw⟩, c⟩ hk ⟨hlen, hplain, hflag⟩
        simp only at hlen hplain hflag
        have hk1 : k + 1 < arr.length := by omega
        rw [ltr_body_counted_eq arr sw c k hk1]
        have hstep : (List.range (k + 1)).foldlM
            (fun (s : List Int × Bool) (t : Nat) =>
              BubbleSorter.ltr_body ((1 : Int) + (t : Int)) s) (ary, false)
            = BubbleSorter.ltr_body ((1 : Int) + (k : Int)) (arr, sw) := by
          rw [List.range_succ, List.foldlM_append, hplain]
          simp only [List.foldlM_cons, List.foldlM_nil]
          show (BubbleSorter.ltr_body ((1 : Int) + (k : Int)) (arr, sw) >>= fun x => pure x)
            = BubbleSorter.ltr_body ((1 : Int) + (k : Int)) (arr, sw)
          cases BubbleSorter.ltr_body ((1 : Int) + (k : Int)) (arr, sw) <;> rfl
        rw [ltr_body_eq arr sw k hk1] at hstep
        by_cases hgt : slot arr k > slot arr (k + 1)
        · rw [if_pos hgt] at hstep ⊢
          exact ⟨_, rfl, by simpa [length_swapSlots] using hlen, hstep, by simp⟩
        · rw [if_neg hgt] at hstep ⊢
          exact ⟨_, rfl, hlen, hstep, hflag⟩)
  obtain ⟨_, hplain, hflag⟩ := hI
  refine ⟨st.1.1, st.1.2, st.2, hres, ?_, hflag⟩
  unfold BubbleSorter.ltr_sort for_loop
  exact hplain

theorem rtl_sort_counted_spec (ary : List Int) :
    ∃ (out : List Int) (sw : Bool) (c : Nat),
      CocktailShakerSorter.rtl_sort_counted ary = .ok ((out, sw), c) ∧
      CocktailShakerSorter.rtl_sort ary = .ok (out, sw) ∧ (sw = true ↔ 1 ≤ c) := by
  obtain ⟨st, hres, hI⟩ := for_loop_down_inv ((ary.length : Int) - 1) 0
      CocktailShakerSorter.rtl_body_counted
      (fun k st => st.1.1.length = ary.length ∧
        (List.range k).foldlM
          (fun (s : List Int × Bool) (t : Nat) =>
            CocktailShakerSorter.rtl_body ((ary.length : Int) - 1 - (t : Int)) s)
          (ary, false) = .ok st.1 ∧
        (st.1.2 = true ↔ 1 ≤ st.2))
      ((ary, false), 0)
      ⟨rfl, rfl, by simp⟩
      (by
        rintro k ⟨⟨arr, sw⟩, c⟩ hk ⟨hlen, hplain, hflag⟩
        simp only at hlen hplain hflag
        obtain ⟨j, hj⟩ : ∃ j : Nat, j + k + 2 = ary.length := ⟨ary.length - k - 2, by omega⟩
        have hj1 : j + 1 < arr.length := by omega
        have hidx : (ary.length : Int) - 1 - (k : Int) = ((j + 1 : Nat) : Int) := by omega
        rw [hidx, rtl_body_counted_eq arr sw c j hj1]
        have hstep : (List.range (k + 1)).foldlM
            (fun (s : List Int × Bool) (t : Nat) =>
              CocktailShakerSorter.rtl_body ((ary.length : Int) - 1 - (t : Int)) s)
            (ary, false)
            = CocktailShakerSorter.rtl_body ((j + 1 : Nat) : Int) (arr, sw) := by
          rw [List.range_succ, List.foldlM_append, hplain]
          simp only [List.foldlM_cons, List.foldlM_nil, hidx]
          show (CocktailShakerSorter.rtl_body ((j + 1 : Nat) : Int) (arr, sw)
              >>= fun x => pure x)
            = CocktailShakerSorter.rtl_body ((j + 1 : Nat) : Int) (arr, sw)
          cases CocktailShakerSorter.rtl_body ((j + 1 : Nat) : Int) (arr, sw) <;> rfl
        rw [rtl_body_eq arr sw j hj1] at hstep
        by_cases hgt : slot arr (j + 1) < slot arr j
        · rw [if_pos hgt] at hstep ⊢
          exact ⟨_, rfl, by simpa [length_swapSlots] using hlen, hstep, by simp⟩
        · rw [if_neg hgt] at hstep ⊢
          exact ⟨_, rfl, hlen, hstep, hflag⟩)
  obtain ⟨_, hplain, hflag⟩ := hI
  refine ⟨st.1.1, st.1.2, st.2, hres, ?_, hflag⟩
  unfold CocktailShakerSorter.rtl_sort for_loop_down
  exact hplain

theorem pass_flag_iff (ary out : List Int) (sw : Bool)
    (hfalse : sw = false → out = ary ∧ ary.Sorted (· ≤ ·))
    (htrue : sw = true → inversions out < inversions ary) :
    (sw = false ↔ ary.Sorted (· ≤ ·)) ∧ (sw = false → out = ary) := by
  refine ⟨⟨fun h => (hfalse h).2, ?_⟩, fun h => (hfalse h).1⟩
  intro hs
  cases sw with
  | false => rfl
  | true =>
    have := htrue rfl
    rw [inversions_eq_zero_of_sorted ary hs] at this
    omega

/-- C30: for every array, a single left-to-right pass `ltr_sort`, and likewise
a single right-to-left pass `rtl_sort`, returns; it returns true iff it swapped
at least one pair, and it returns false iff the array was already in
non-descending order, in which case the array is left unchanged. -/
theorem pass_flag_spec (ary : List Int) :
    (∃ (out : List Int) (sw : Bool) (c : Nat),
      BubbleSorter.ltr_sort_counted ary = .ok ((out, sw), c) ∧
      BubbleSorter.ltr_sort ary = .ok (out, sw) ∧ (sw = true ↔ 1 ≤ c) ∧
      (sw = false ↔ ary.Sorted (· ≤ ·)) ∧ (sw = false → out = ary)) ∧
    (∃ (out : List Int) (sw : Bool) (c : Nat),
      CocktailShakerSorter.rtl_sort_counted ary = .ok ((out, sw), c) ∧
      CocktailShakerSorter.rtl_sort ary = .ok (out, sw) ∧ (sw = true ↔ 1 ≤ c) ∧
      (sw = false ↔ ary.Sorted (· ≤ ·)) ∧ (sw = false → out = ary)) := by
  constructor
  · obtain ⟨out, sw, c, h1, h2, h3⟩ := ltr_sort_counted_spec ary
    obtain ⟨out', sw', h2', _, _, hfalse, htrue⟩ := ltr_sort_spec ary
    rw [h2] at h2'
    cases h2'
    obtain ⟨h4, h5⟩ := pass_flag_iff ary out sw hfalse htrue
    exact ⟨out, sw, c, h1, h2, h3, h4, h5⟩
  · obtain ⟨out, sw, c, h1, h2, h3⟩ := rtl_sort_counted_spec ary
    obtain ⟨out', sw', h2', _, _, hfalse, htrue⟩ := rtl_sort_spec ary
    rw [h2] at h2'
    cases h2'
    obtain ⟨h4, h5⟩ := pass_flag_iff ary out sw hfalse htrue
    exact ⟨out, sw, c, h1, h2, h3, h4, h5⟩

/-! ## Heap sort never finds its heap empty -/

theorem heap_sort_drain_prefix (fuel : Nat) (ary : List Int) (heap1 : Heap)
    (hf : 2 * ary.length ≤ fuel) (hsz : heap1.size_ = (ary.length : Int))
    (hl : heap1.storage_.data_.length = ary.length + 1) (k : Nat) (hk : k ≤ ary.length) :
    ∃ st, for_loop 0 (k : Int) (fun i (st : Heap × List Int) =>
        match st.1.take fuel with
        | .error e => .error e
        | .ok (none, _) => .error .assertion_failed
        | .ok (some v, heap2) =>
          match index_write st.2 i v with
          | .ok ary1 => .ok (heap2, ary1)
          | .error e => .error e) (heap1, ary) = .ok st ∧
      st.1.size_ = (ary.length : Int) - (k : Int) := by
  obtain ⟨st, hres, hI⟩ := for_loop_inv 0 (k : Int)
      (fun i (st : Heap × List Int) =>
        match st.1.take fuel with
        | .error e => .error e
        | .ok (none, _) => .error .assertion_failed
        | .ok (some v, heap2) =>
          match index_write st.2 i v with
          | .ok ary1 => .ok (heap2, ary1)
          | .error e => .error e)
      (fun j st => st.1.size_ = (ary.length : Int) - (j : Int) ∧
        st.1.storage_.data_.length = ary.length + 1 ∧ st.2.length = ary.length)
      (heap1, ary)
      ⟨by simpa using hsz, hl, rfl⟩
      (by
        intro j st hj ⟨hsz1, hl1, hlen1⟩
        obtain ⟨m, hm⟩ : ∃ m : Nat, st.1.size_ = ((m + 1 : Nat) : Int) :=
          ⟨ary.length - j - 1, by omega⟩
        obtain ⟨h', hres, hsz', _, hl2, _, _, _⟩ :=
          take_spec fuel st.1 m hm (by omega) (by omega)
        refine ⟨(h', st.2.set j (slot st.1.storage_.data_ 1)), ?_, ?_, hl2.trans hl1,
          by simpa using hlen1⟩
        · simp only [zero_add, hres, index_write_ok st.2 j _ (by omega)]
        · simp only; omega)
  simp only [sub_zero, Int.toNat_ofNat] at hI
  exact ⟨st, hres, hI.1⟩

/-- C24: in `HeapSorter::sort` on any array of length `n`, each of the `n` `take`
calls of the extraction loop returns a value: the loop completes each of its
first `k ≤ n` iterations without the assertion failing, the heap then holds
`n - k` elements, so it is empty exactly after the `n`-th `take`, and the
whole call returns. -/
theorem heap_sort_takes_succeed (fuel : Nat) (ary : List Int)
    (hf : 2 * ary.length ≤ fuel) :
    ∃ heap1, for_loop 0 (ary.length : Int) (fun i (heap : Heap) =>
        match index_read ary i with
        | .ok v => heap.store fuel v
        | .error e => .error e) (Heap.new ary.length) = .ok heap1 ∧
      (∀ k : Nat, k ≤ ary.length →
        ∃ st, for_loop 0 (k : Int) (fun i (st : Heap × List Int) =>
            match st.1.take fuel with
            | .error e => .error e
            | .ok (none, _) => .error .assertion_failed
            | .ok (some v, heap2) =>
              match index_write st.2 i v with
              | .ok ary1 => .ok (heap2, ary1)
              | .error e => .error e) (heap1, ary) = .ok st ∧
          st.1.size_ = (ary.length : Int) - (k : Int) ∧
          (st.1.size_ = 0 ↔ k = ary.length)) ∧
      (∃ out, HeapSorter.sort fuel ary = .ok out) := by
  obtain ⟨heap1, hres1, hsz, hl, _, _, _⟩ := heap_sort_fill fuel ary hf
  refine ⟨heap1, hres1, ?_, ?_⟩
  · intro k hk
    obtain ⟨st, hres, hs⟩ := heap_sort_drain_prefix fuel ary heap1 hf hsz hl k hk
    exact ⟨st, hres, hs, by omega⟩
  · obtain ⟨out, hres, _⟩ := heap_sort_spec fuel ary hf
    exact ⟨out, hres⟩

theorem heap_sort_takes_succeed_witness :
    2 * [3, 1, 2].length ≤ 6 ∧ (∃ out, HeapSorter.sort 6 [3, 1, 2] = .ok out) :=
  ⟨by decide, (heap_sort_takes_succeed 6 [3, 1, 2] (by decide)).choose_spec.2.2⟩

/-! ## The logged engine computes what the engine computes -/

theorem erase_logged (ev : List Event) (r : Except Fault (Heap × List Event)) :
    erase (logged ev r) = erase r := by
  cases r with
  | error e => rfl
  | ok p => cases p; rfl

theorem erase_ok {α : Type} (a : α) (t : List Event) :
    erase (Except.ok (a, t) : Except Fault (α × List Event)) = .ok a := rfl

theorem erase_error {α : Type} (e : Fault) :
    erase (Except.error e : Except Fault (α × List Event)) = .error e := rfl

theorem erase_sifts : ∀ fuel : Nat,
    (∀ n heap, erase (HeapNode.heapify_down_traced fuel n heap)
      = HeapNode.heapify_down fuel n heap) ∧
    (∀ n heap, erase (HeapNode.heapify_up_traced fuel n heap)
      = HeapNode.heapify_up fuel n heap) ∧
    (∀ n heap other dir, erase (HeapNode.try_swap_value_traced fuel n heap other dir)
      = HeapNode.try_swap_value fuel n heap other dir) := by
  intro fuel
  induction fuel with
  | zero =>
    refine ⟨fun _ _ => rfl, fun _ _ => rfl, fun _ _ _ _ => rfl⟩
  | succ f ih =>
    obtain ⟨ihd, ihu, ihs⟩ := ih
    refine ⟨?_, ?_, ?_⟩
    · intro n heap
      simp only [HeapNode.heapify_down_traced, HeapNode.heapify_down]
      cases h1 : (n.left heap).get_value heap <;>
        cases h2 : (n.right heap).get_value heap <;>
        simp only [apply_ite erase, erase_ok, erase_error, erase_logged, ihs]
    · intro n heap
      simp only [HeapNode.heapify_up_traced, HeapNode.heapify_up, erase_logged, ihs]
    · intro n heap other dir
      simp only [HeapNode.try_swap_value_traced, HeapNode.try_swap_value]
      cases h1 : n.get_value heap with
      | error e =>
        simp only [apply_ite erase, erase_ok, erase_error]
      | ok val =>
        cases h2 : other.get_value heap with
        | error e => simp only [apply_ite erase, erase_ok, erase_error]
        | ok other_val =>
          cases h3 : n.set_value heap other_val with
          | error e => simp only [h3, apply_ite erase, erase_ok, erase_error]
          | ok heap1 =>
            cases h4 : other.set_value heap1 val <;>
              simp only [h3, h4, apply_ite erase, erase_ok, erase_error, erase_logged, ihd,
                ihu]

theorem erase_eq_ok {α : Type} (r : Except Fault (α × List Event)) (a : α)
    (t : List Event) (h : r = .ok (a, t)) : erase r = .ok a := by
  rw [h]; rfl

theorem erase_peek (h : Heap) : erase h.peek_traced = h.peek := by
  unfold Heap.peek_traced Heap.peek
  cases h1 : h.storage_.get ROOT_INDEX <;>
    simp only [apply_ite erase, erase_ok, erase_error]

theorem erase_store (fuel : Nat) (h : Heap) (v : Int) :
    erase (h.store_traced fuel v) = h.store fuel v := by
  unfold Heap.store_traced Heap.store
  cases h1 : ManagedDynamicArray.set h.storage_ (h.size_ + 1) v <;>
    simp only [h1, apply_ite erase, erase_ok, erase_error, erase_logged,
      (erase_sifts fuel).2.1]

theorem erase_take (fuel : Nat) (h : Heap) :
    erase (h.take_traced fuel) = h.take fuel := by
  unfold Heap.take_traced Heap.take Heap.peek_traced Heap.peek
  by_cases h0 : (h.size_ == 0) = true
  · simp only [h0, if_true, erase_ok]
  · simp only [h0, if_false, Bool.false_eq_true]
    cases h1 : h.storage_.get ROOT_INDEX with
    | error e => simp only [erase_error]
    | ok taken =>
      simp only []
      cases h2 : h.storage_.get h.size_ with
      | error e => simp only [erase_error]
      | ok last =>
        simp only []
        cases h3 : ManagedDynamicArray.set h.storage_ ROOT_INDEX last with
        | error e => simp only [erase_error]
        | ok s =>
          simp only []
          have hd := (erase_sifts fuel).1 ⟨ROOT_INDEX⟩
            { size_ := h.size_ - 1, storage_ := s, is_max_heap := h.is_max_heap }
          cases h4 : HeapNode.heapify_down_traced fuel ⟨ROOT_INDEX⟩
              { size_ := h.size_ - 1, storage_ := s, is_max_heap := h.is_max_heap } with
          | error e =>
            rw [h4] at hd
            simp only [apply_ite erase, erase_ok, erase_error, ← hd]
          | ok p =>
            obtain ⟨h3', t⟩ := p
            rw [h4] at hd
            simp only [apply_ite erase, erase_ok, erase_error, ← hd]

/-! ## Logs: bounds and counts -/

theorem swaps_nil : swaps [] = 0 := rfl

theorem swaps_cons_swap (t : List Event) : swaps (Event.swap :: t) = swaps t + 1 := rfl

theorem swaps_cons_access (i : Int) (t : List Event) :
    swaps (Event.access i :: t) = swaps t := rfl

theorem swaps_cons_node (i : Int) (t : List Event) :
    swaps (Event.node i :: t) = swaps t := rfl

theorem swaps_append (a b : List Event) : swaps (a ++ b) = swaps a + swaps b := by
  induction a with
  | nil => simp [swaps_nil]
  | cons e t ih =>
    cases e with
    | access idx => simp [swaps_cons_access, ih]
    | node idx => simp [swaps_cons_node, ih]
    | swap => simp only [List.cons_append, swaps_cons_swap, ih]; omega

theorem accessesWithin_nil (lo hi : Int) : AccessesWithin lo hi [] := by
  intro idx h; simp at h

theorem accessesWithin_append (lo hi : Int) (a b : List Event) :
    AccessesWithin lo hi (a ++ b) ↔ AccessesWithin lo hi a ∧ AccessesWithin lo hi b := by
  unfold AccessesWithin
  constructor
  · intro h
    exact ⟨fun idx hm => h idx (List.mem_append_left _ hm),
      fun idx hm => h idx (List.mem_append_right _ hm)⟩
  · intro h idx hm
    rcases List.mem_append.1 hm with hm | hm
    · exact h.1 idx hm
    · exact h.2 idx hm

theorem accessesWithin_cons_access (lo hi i : Int) (t : List Event) :
    AccessesWithin lo hi (Event.access i :: t)
      ↔ (lo ≤ i ∧ i ≤ hi) ∧ AccessesWithin lo hi t := by
  unfold AccessesWithin
  constructor
  · intro h
    exact ⟨h i (List.mem_cons_self _ _), fun idx hm => h idx (List.mem_cons_of_mem _ hm)⟩
  · intro h idx hm
    rcases List.mem_cons.1 hm with hm | hm
    · cases hm; exact h.1
    · exact h.2 idx hm

theorem accessesWithin_cons_node (lo hi i : Int) (t : List Event) :
    AccessesWithin lo hi (Event.node i :: t) ↔ AccessesWithin lo hi t := by
  unfold AccessesWithin
  constructor
  · intro h idx hm
    exact h idx (List.mem_cons_of_mem _ hm)
  · intro h idx hm
    rcases List.mem_cons.1 hm with hm | hm
    · cases hm
    · exact h idx hm

theorem accessesWithin_cons_swap (lo hi : Int) (t : List Event) :
    AccessesWithin lo hi (Event.swap :: t) ↔ AccessesWithin lo hi t := by
  unfold AccessesWithin
  constructor
  · intro h idx hm
    exact h idx (List.mem_cons_of_mem _ hm)
  · intro h idx hm
    rcases List.mem_cons.1 hm with hm | hm
    · cases hm
    · exact h idx hm

theorem accessesWithin_mono {lo hi hi' : Int} {t : List Event} (hle : hi ≤ hi')
    (h : AccessesWithin lo hi t) : AccessesWithin lo hi' t := by
  intro idx hm
  have := h idx hm
  omega

theorem nodesWithin_nil (lo hi : Int) : NodesWithin lo hi [] := by
  intro idx h; simp at h

theorem nodesWithin_append (lo hi : Int) (a b : List Event) :
    NodesWithin lo hi (a ++ b) ↔ NodesWithin lo hi a ∧ NodesWithin lo hi b := by
  unfold NodesWithin
  constructor
  · intro h
    exact ⟨fun idx hm => h idx (List.mem_append_left _ hm),
      fun idx hm => h idx (List.mem_append_right _ hm)⟩
  · intro h idx hm
    rcases List.mem_append.1 hm with hm | hm
    · exact h.1 idx hm
    · exact h.2 idx hm

theorem nodesWithin_cons_node (lo hi i : Int) (t : List Event) :
    NodesWithin lo hi (Event.node i :: t)
      ↔ (i = INVALID_INDEX ∨ (lo ≤ i ∧ i ≤ hi)) ∧ NodesWithin lo hi t := by
  unfold NodesWithin
  constructor
  · intro h
    exact ⟨h i (List.mem_cons_self _ _), fun idx hm => h idx (List.mem_cons_of_mem _ hm)⟩
  · intro h idx hm
    rcases List.mem_cons.1 hm with hm | hm
    · cases hm; exact h.1
    · exact h.2 idx hm

theorem nodesWithin_cons_access (lo hi i : Int) (t : List Event) :
    NodesWithin lo hi (Event.access i :: t) ↔ NodesWithin lo hi t := by
  unfold NodesWithin
  constructor
  · intro h idx hm
    exact h idx (List.mem_cons_of_mem _ hm)
  · intro h idx hm
    rcases List.mem_cons.1 hm with hm | hm
    · cases hm
    · exact h idx hm

theorem nodesWithin_cons_swap (lo hi : Int) (t : List Event) :
    NodesWithin lo hi (Event.swap :: t) ↔ NodesWithin lo hi t := by
  unfold NodesWithin
  constructor
  · intro h idx hm
    exact h idx (List.mem_cons_of_mem _ hm)
  · intro h idx hm
    rcases List.mem_cons.1 hm with hm | hm
    · cases hm
    · exact h idx hm

theorem nodesWithin_mono {lo hi hi' : Int} {t : List Event} (hle : hi ≤ hi')
    (h : NodesWithin lo hi t) : NodesWithin lo hi' t := by
  intro idx hm
  rcases h idx hm with h1 | h1
  · exact Or.inl h1
  · exact Or.inr (by omega)

/-! ## The logged sifts at valid nodes -/

theorem try_swap_value_traced_valid (fuel : Nat) (heap : Heap) (i j : Nat)
    (dir : HeapifyDirection)
    (hi : i < heap.storage_.data_.length) (hj : j < heap.storage_.data_.length) :
    HeapNode.try_swap_value_traced (fuel + 1) ⟨(i : Int)⟩ heap ⟨(j : Int)⟩ dir
      = if dir = .DOWN ∧ heap.compare (slot heap.storage_.data_ j)
            (slot heap.storage_.data_ i) = true then
          logged [Event.access i, Event.access j, Event.access i, Event.access j,
              Event.swap]
            (HeapNode.heapify_down_traced fuel ⟨(j : Int)⟩
              (heap.withData (swapSlots heap.storage_.data_ i j)))
        else if dir = .UP ∧ heap.compare (slot heap.storage_.data_ i)
            (slot heap.storage_.data_ j) = true then
          logged [Event.access i, Event.access j, Event.access i, Event.access j,
              Event.swap]
            (HeapNode.heapify_up_traced fuel ⟨(j : Int)⟩
              (heap.withData (swapSlots heap.storage_.data_ i j)))
        else .ok (heap, [Event.access i, Event.access j]) := by
  have hi1 : (i : Int) ≠ -1 := by omega
  have hj1 : (j : Int) ≠ -1 := by omega
  have hj2 : j < (heap.storage_.data_.set i (slot heap.storage_.data_ j)).length := by
    simpa using hj
  simp only [HeapNode.try_swap_value_traced, HeapNode.exists, HeapNode.get_value,
    HeapNode.set_value, ManagedDynamicArray.get, ManagedDynamicArray.set,
    index_read_ok _ _ hi, index_read_ok _ _ hj, index_write_ok _ _ _ hi,
    index_write_ok _ _ _ hj2, INVALID_INDEX]
  simp [hi1, hj1, Heap.withData, swapSlots]

theorem try_swap_value_traced_invalid (fuel : Nat) (heap : Heap) (n : HeapNode)
    (dir : HeapifyDirection) :
    HeapNode.try_swap_value_traced (fuel + 1) n heap ⟨INVALID_INDEX⟩ dir
      = .ok (heap, []) := by
  simp [HeapNode.try_swap_value_traced, HeapNode.exists]

theorem heapify_down_traced_leaf (fuel : Nat) (heap : Heap) (i n : Nat)
    (hsz : heap.size_ = n) (hleaf : n < 2 * i) :
    HeapNode.heapify_down_traced (fuel + 1) ⟨(i : Int)⟩ heap
      = .ok (heap, [Event.node INVALID_INDEX, Event.node INVALID_INDEX]) := by
  have h1 : (n : Int) < 2 * (i : Int) := by omega
  have h2 : (n : Int) < 2 * (i : Int) + 1 := by omega
  simp [HeapNode.heapify_down_traced, HeapNode.left, HeapNode.right, HeapNode.from_index,
    Heap.is_out_of_range, HeapNode.exists, hsz, h1, h2]

theorem heapify_down_traced_one (fuel : Nat) (heap : Heap) (i n : Nat)
    (hsz : heap.size_ = n) (hone : n = 2 * i) (hi : 1 ≤ i) :
    HeapNode.heapify_down_traced (fuel + 1) ⟨(i : Int)⟩ heap
      = logged [Event.node ((2 * i : Nat) : Int), Event.node INVALID_INDEX]
          (HeapNode.try_swap_value_traced fuel ⟨(i : Int)⟩ heap ⟨((2 * i : Nat) : Int)⟩
            .DOWN) := by
  have h1 : ¬ (n : Int) < 2 * (i : Int) := by omega
  have h2 : (n : Int) < 2 * (i : Int) + 1 := by omega
  have h3 : ¬ (2 * (i : Int) = -1) := by omega
  simp [HeapNode.heapify_down_traced, HeapNode.left, HeapNode.right, HeapNode.from_index,
    Heap.is_out_of_range, HeapNode.exists, hsz, h1, h2, h3]

theorem heapify_down_traced_two (fuel : Nat) (heap : Heap) (i n : Nat)
    (hsz : heap.size_ = n) (htwo : 2 * i + 1 ≤ n) (hn : n < heap.storage_.data_.length) :
    HeapNode.heapify_down_traced (fuel + 1) ⟨(i : Int)⟩ heap
      = logged [Event.node ((2 * i : Nat) : Int), Event.node ((2 * i + 1 : Nat) : Int),
            Event.access ((2 * i : Nat) : Int), Event.access ((2 * i + 1 : Nat) : Int)]
          (if heap.compare (slot heap.storage_.data_ (2 * i))
              (slot heap.storage_.data_ (2 * i + 1)) = true then
            HeapNode.try_swap_value_traced fuel ⟨(i : Int)⟩ heap ⟨((2 * i : Nat) : Int)⟩
              .DOWN
          else
            HeapNode.try_swap_value_traced fuel ⟨(i : Int)⟩ heap
              ⟨((2 * i + 1 : Nat) : Int)⟩ .DOWN) := by
  have h1 : ¬ (n : Int) < 2 * (i : Int) := by omega
  have h2 : ¬ (n : Int) < 2 * (i : Int) + 1 := by omega
  have h3 : ¬ (2 * (i : Int) = -1) := by omega
  have h4 : ¬ (2 * (i : Int) + 1 = -1) := by omega
  have r1 := index_read_ok heap.storage_.data_ (2 * i) (by omega)
  have r2 := index_read_ok heap.storage_.data_ (2 * i + 1) (by omega)
  push_cast at r1 r2
  by_cases hc : heap.compare (slot heap.storage_.data_ (2 * i))
      (slot heap.storage_.data_ (2 * i + 1)) = true <;>
  simp [HeapNode.heapify_down_traced, HeapNode.left, HeapNode.right, HeapNode.from_index,
    Heap.is_out_of_range, HeapNode.exists, HeapNode.get_value, ManagedDynamicArray.get,
    hsz, h1, h2, h3, h4, r1, r2, hc]

theorem logged_ok (ev : List Event) (r : Except Fault (Heap × List Event)) (h : Heap)
    (t : List Event) (hr : r = .ok (h, t)) : logged ev r = .ok (h, ev ++ t) := by
  rw [hr]; rfl

/-- Sift-up from a valid index `i` returns; its log shows accesses and nodes
within `[1, i]` only, and every swap halves the index at least. -/
theorem heapify_up_traced_spec :
    ∀ (i fuel : Nat) (heap : Heap),
      i < heap.storage_.data_.length → 1 ≤ i → 2 * i ≤ fuel →
      ∃ heap' tr, HeapNode.heapify_up_traced fuel ⟨(i : Int)⟩ heap = .ok (heap', tr) ∧
        AccessesWithin 1 i tr ∧ NodesWithin 1 i tr ∧ 2 ^ swaps tr ≤ i := by
  intro i
  induction i using Nat.strong_induction_on with
  | _ i ih =>
    intro fuel heap hlen hi hfuel
    obtain ⟨f, rfl⟩ : ∃ f, fuel = f + 2 := ⟨fuel - 2, by omega⟩
    have hstep : HeapNode.heapify_up_traced (f + 2) ⟨(i : Int)⟩ heap
        = logged [Event.node (HeapNode.parent ⟨(i : Int)⟩).index_]
            (HeapNode.try_swap_value_traced (f + 1) ⟨(i : Int)⟩ heap
              (HeapNode.parent ⟨(i : Int)⟩) .UP) := by
      simp only [HeapNode.heapify_up_traced]
    rw [hstep]
    by_cases h1 : i = 1
    · subst h1
      have hp : HeapNode.parent ⟨((1 : Nat) : Int)⟩ = ⟨INVALID_INDEX⟩ := rfl
      rw [hp, try_swap_value_traced_invalid]
      refine ⟨heap, _, rfl, ?_, ?_, ?_⟩
      · simp [accessesWithin_cons_node, accessesWithin_nil]
      · simp [nodesWithin_cons_node, nodesWithin_nil]
      · simp [swaps_cons_node, swaps_nil]
    · have hi2 : 2 ≤ i := by omega
      rw [parent_nonroot i hi2,
        try_swap_value_traced_valid f heap i (i / 2) .UP (by omega) (by omega)]
      have hp1 : 1 ≤ i / 2 := by omega
      have hpi : i / 2 < i := by omega
      by_cases hc : heap.compare (slot heap.storage_.data_ i)
          (slot heap.storage_.data_ (i / 2)) = true
      · simp only [hc, and_true, if_true, reduceCtorEq, false_and, if_false]
        obtain ⟨heap', tr, hres, hacc, hnod, hsw⟩ :=
          ih (i / 2) hpi f (heap.withData (swapSlots heap.storage_.data_ i (i / 2)))
            (by simp only [Heap.withData, length_swapSlots]; omega) hp1 (by omega)
        rw [logged_ok _ _ _ _ hres]
        refine ⟨heap', _, rfl, ?_, ?_, ?_⟩
        · simp only [List.cons_append, List.nil_append, accessesWithin_cons_node,
            accessesWithin_cons_access, accessesWithin_cons_swap]
          refine ⟨by omega, by omega, by omega, by omega, ?_⟩
          exact accessesWithin_mono (by omega) hacc
        · simp only [List.cons_append, List.nil_append, nodesWithin_cons_node,
            nodesWithin_cons_access, nodesWithin_cons_swap]
          refine ⟨Or.inr (by omega), ?_⟩
          exact nodesWithin_mono (by omega) hnod
        · simp only [List.cons_append, List.nil_append, swaps_cons_swap, swaps_cons_access,
            swaps_cons_node, pow_succ]
          omega
      · simp only [hc, and_false, if_false, reduceCtorEq, false_and]
        refine ⟨heap, _, rfl, ?_, ?_, ?_⟩
        · simp only [logged, List.cons_append, List.nil_append, accessesWithin_cons_node,
            accessesWithin_cons_access, accessesWithin_nil, and_true]
          omega
        · simp only [logged, List.cons_append, List.nil_append, nodesWithin_cons_node,
            nodesWithin_cons_access, nodesWithin_nil, and_true]
          exact Or.inr (by omega)
        · simp only [logged, List.cons_append, List.nil_append, swaps_cons_access, swaps_cons_node,
            swaps_nil, pow_zero]
          omega

/-- Sift-down from a valid index `i` of a heap of size `n` returns; its log
shows accesses and nodes within `[1, n]` only, and every swap doubles the index
at least. -/
theorem heapify_down_traced_spec (n : Nat) :
    ∀ (k i fuel : Nat) (heap : Heap),
      n - i = k → heap.size_ = n → n < heap.storage_.data_.length → 1 ≤ i → i ≤ n →
      2 * (n - i) + 1 ≤ fuel →
      ∃ heap' tr, HeapNode.heapify_down_traced fuel ⟨(i : Int)⟩ heap = .ok (heap', tr) ∧
        AccessesWithin 1 n tr ∧ NodesWithin 1 n tr ∧ i * 2 ^ swaps tr ≤ n := by
  intro k
  induction k using Nat.strong_induction_on with
  | _ k ih =>
    intro i fuel heap hk hsz hlen hi hin hfuel
    have hswap : ∀ (c f : Nat), c / 2 = i → c ≤ n → 2 ≤ c → 2 * (n - i) ≤ f + 1 →
        ∃ heap' tr, HeapNode.try_swap_value_traced (f + 1) ⟨(i : Int)⟩ heap ⟨(c : Int)⟩
            .DOWN = .ok (heap', tr) ∧
          AccessesWithin 1 n tr ∧ NodesWithin 1 n tr ∧ i * 2 ^ swaps tr ≤ n := by
      intro c f hci hcn hc2 hf
      have hic : i < c := by omega
      rw [try_swap_value_traced_valid f heap i c .DOWN (by omega) (by omega)]
      by_cases hc : heap.compare (slot heap.storage_.data_ c)
          (slot heap.storage_.data_ i) = true
      · simp only [hc, and_true, if_true]
        obtain ⟨heap', tr, hres, hacc, hnod, hsw⟩ :=
          ih (n - c) (by omega) c f (heap.withData (swapSlots heap.storage_.data_ i c))
            rfl (by simpa [Heap.withData] using hsz)
            (by simpa [Heap.withData, length_swapSlots] using hlen) (by omega) hcn
            (by omega)
        rw [logged_ok _ _ _ _ hres]
        refine ⟨heap', _, rfl, ?_, ?_, ?_⟩
        · simp only [List.cons_append, List.nil_append, accessesWithin_cons_access,
            accessesWithin_cons_swap]
          exact ⟨by omega, by omega, by omega, by omega, hacc⟩
        · simp only [List.cons_append, List.nil_append, nodesWithin_cons_access,
            nodesWithin_cons_swap]
          exact hnod
        · simp only [List.cons_append, List.nil_append, swaps_cons_swap, swaps_cons_access,
            swaps_cons_node, pow_succ]
          have h2 : i * (2 ^ swaps tr * 2) = (2 * i) * 2 ^ swaps tr := by ring
          have h3 : (2 * i) * 2 ^ swaps tr ≤ c * 2 ^ swaps tr :=
            Nat.mul_le_mul_right _ (by omega)
          omega
      · simp only [hc, and_false, if_false, reduceCtorEq, false_and]
        refine ⟨heap, _, rfl, ?_, ?_, ?_⟩
        · simp only [accessesWithin_cons_access, accessesWithin_nil, and_true]
          omega
        · simp only [nodesWithin_cons_access, nodesWithin_nil]
        · simp only [swaps_cons_access, swaps_cons_node, swaps_nil, pow_zero]
          omega
    obtain ⟨f, rfl⟩ : ∃ f, fuel = f + 1 := ⟨fuel - 1, by omega⟩
    by_cases hleaf : n < 2 * i
    · rw [heapify_down_traced_leaf f heap i n hsz hleaf]
      refine ⟨heap, _, rfl, ?_, ?_, ?_⟩
      · simp only [accessesWithin_cons_node, accessesWithin_nil]
      · simp only [nodesWithin_cons_node, nodesWithin_nil, true_or, and_true]
      · simp only [swaps_cons_access, swaps_cons_node, swaps_nil, pow_zero]
        omega
    · obtain ⟨g, rfl⟩ : ∃ g, f = g + 1 := ⟨f - 1, by omega⟩
      by_cases hone : n = 2 * i
      · rw [heapify_down_traced_one (g + 1) heap i n hsz hone hi]
        obtain ⟨heap', tr, hres, hacc, hnod, hsw⟩ :=
          hswap (2 * i) g (by omega) (by omega) (by omega) (by omega)
        rw [logged_ok _ _ _ _ hres]
        refine ⟨heap', _, rfl, ?_, ?_, ?_⟩
        · simp only [List.cons_append, List.nil_append, accessesWithin_cons_node]
          exact hacc
        · simp only [List.cons_append, List.nil_append, nodesWithin_cons_node, true_or,
            true_and]
          exact ⟨Or.inr (by omega), hnod⟩
        · simp only [List.cons_append, List.nil_append, swaps_cons_access, swaps_cons_node]
          exact hsw
      · rw [heapify_down_traced_two (g + 1) heap i n hsz (by omega) hlen]
        have hboth : ∀ c, (c = 2 * i ∨ c = 2 * i + 1) →
            ∃ heap' tr, logged [Event.node ((2 * i : Nat) : Int),
                Event.node ((2 * i + 1 : Nat) : Int),
                Event.access ((2 * i : Nat) : Int), Event.access ((2 * i + 1 : Nat) : Int)]
              (HeapNode.try_swap_value_traced (g + 1) ⟨(i : Int)⟩ heap ⟨(c : Int)⟩ .DOWN)
                = .ok (heap', tr) ∧
              AccessesWithin 1 n tr ∧ NodesWithin 1 n tr ∧ i * 2 ^ swaps tr ≤ n := by
          intro c hc
          obtain ⟨heap', tr, hres, hacc, hnod, hsw⟩ :=
            hswap c g (by omega) (by omega) (by omega) (by omega)
          rw [logged_ok _ _ _ _ hres]
          refine ⟨heap', _, rfl, ?_, ?_, ?_⟩
          · simp only [List.cons_append, List.nil_append, accessesWithin_cons_node,
              accessesWithin_cons_access]
            exact ⟨by omega, by omega, hacc⟩
          · simp only [List.cons_append, List.nil_append, nodesWithin_cons_node,
              nodesWithin_cons_access]
            exact ⟨Or.inr (by omega), Or.inr (by omega), hnod⟩
          · simp only [List.cons_append, List.nil_append, swaps_cons_access, swaps_cons_node]
            exact hsw
        by_cases hc : heap.compare (slot heap.storage_.data_ (2 * i))
            (slot heap.storage_.data_ (2 * i + 1)) = true
        · rw [if_pos hc]
          exact hboth (2 * i) (Or.inl rfl)
        · rw [if_neg hc]
          exact hboth (2 * i + 1) (Or.inr rfl)

/-! ## The logged operations -/

theorem store_traced_eq (fuel : Nat) (h : Heap) (v : Int) (n : Nat) (hsz : h.size_ = n)
    (hcap : n + 1 < h.storage_.data_.length) :
    h.store_traced fuel v
      = if n = 0 then .ok (h.appended n v, [Event.access ((n + 1 : Nat) : Int)])
        else logged [Event.access ((n + 1 : Nat) : Int), Event.node ((n + 1 : Nat) : Int)]
          (HeapNode.heapify_up_traced fuel ⟨((n + 1 : Nat) : Int)⟩ (h.appended n v)) := by
  have hw := index_write_ok h.storage_.data_ (n + 1) v hcap
  push_cast at hw
  unfold Heap.store_traced Heap.appended
  simp only [hsz, ManagedDynamicArray.set, hw, ROOT_INDEX]
  by_cases h0 : n = 0
  · subst h0; simp
  · have : ¬ ((n : Int) + 1 = 1) := by omega
    simp [h0, this]

theorem store_traced_spec (fuel : Nat) (h : Heap) (v : Int) (n : Nat) (hsz : h.size_ = n)
    (hcap : n + 1 < h.storage_.data_.length) (hf : 2 * (n + 1) ≤ fuel) :
    ∃ h' tr, h.store_traced fuel v = .ok (h', tr) ∧ h.store fuel v = .ok h' ∧
      h'.size_ = ((n + 1 : Nat) : Int) ∧
      AccessesWithin 1 ((n + 1 : Nat) : Int) tr ∧ NodesWithin 1 ((n + 1 : Nat) : Int) tr := by
  have key : ∃ h' tr, h.store_traced fuel v = .ok (h', tr) ∧
      AccessesWithin 1 ((n + 1 : Nat) : Int) tr ∧
      NodesWithin 1 ((n + 1 : Nat) : Int) tr := by
    rw [store_traced_eq fuel h v n hsz hcap]
    by_cases h0 : n = 0
    · rw [if_pos h0]
      refine ⟨_, _, rfl, ?_, ?_⟩
      · simp only [accessesWithin_cons_access, accessesWithin_nil, and_true]
        omega
      · simp only [nodesWithin_cons_access, nodesWithin_nil]
    · rw [if_neg h0]
      obtain ⟨h', tr, hres, hacc, hnod, _⟩ :=
        heapify_up_traced_spec (n + 1) fuel (h.appended n v)
          (by simpa [Heap.appended] using hcap) (by omega) hf
      rw [logged_ok _ _ _ _ hres]
      refine ⟨h', _, rfl, ?_, ?_⟩
      · simp only [List.cons_append, List.nil_append, accessesWithin_cons_access,
          accessesWithin_cons_node]
        exact ⟨by omega, hacc⟩
      · simp only [List.cons_append, List.nil_append, nodesWithin_cons_access,
          nodesWithin_cons_node]
        exact ⟨Or.inr (by omega), hnod⟩
  obtain ⟨h', tr, hres, hacc, hnod⟩ := key
  have hplain : h.store fuel v = .ok h' := by
    rw [← erase_store, hres]; rfl
  obtain ⟨h'', hres'', hsz'', _⟩ := store_spec fuel h v n hsz hcap hf
  rw [hplain] at hres''
  cases hres''
  exact ⟨h', tr, hres, hplain, hsz'', hacc, hnod⟩

theorem take_traced_of_size_zero (fuel : Nat) (h : Heap) (hsz : h.size_ = 0) :
    h.take_traced fuel = .ok ((none, h), []) := by
  simp [Heap.take_traced, Heap.peek_traced, hsz]

theorem take_traced_eq (fuel : Nat) (h : Heap) (m : Nat)
    (hsz : h.size_ = ((m + 1 : Nat) : Int)) (hlen : m + 1 < h.storage_.data_.length) :
    h.take_traced fuel
      = if 1 < m then
          match HeapNode.heapify_down_traced fuel ⟨1⟩ (h.popped m) with
          | .ok (h3, t) => .ok ((some (slot h.storage_.data_ 1), h3),
              [Event.access 1, Event.access ((m + 1 : Nat) : Int), Event.access 1,
                Event.node 1] ++ t)
          | .error e => .error e
        else .ok ((some (slot h.storage_.data_ 1), h.popped m),
          [Event.access 1, Event.access ((m + 1 : Nat) : Int), Event.access 1]) := by
  have hr1 := index_read_ok h.storage_.data_ 1 (by omega)
  have hrn := index_read_ok h.storage_.data_ (m + 1) hlen
  have hw := index_write_ok h.storage_.data_ 1 (slot h.storage_.data_ (m + 1)) (by omega)
  push_cast at hr1 hrn hw
  have hne : ¬ ((m : Int) + 1 = 0) := by omega
  unfold Heap.take_traced Heap.peek_traced Heap.popped
  simp only [hsz, ManagedDynamicArray.get, ManagedDynamicArray.set, ROOT_INDEX]
  push_cast
  simp only [hr1, hrn, hw, beq_iff_eq, hne, if_false, add_sub_cancel_right]
  by_cases h1 : 1 < m
  · have : (1 : Int) < (m : Int) := by omega
    simp only [h1, this, gt_iff_lt, if_true, List.cons_append, List.nil_append]
  · have : ¬ (1 : Int) < (m : Int) := by omega
    simp [h1, this]

theorem take_traced_spec (fuel : Nat) (h : Heap) (m : Nat)
    (hsz : h.size_ = ((m + 1 : Nat) : Int)) (hlen : m + 1 < h.storage_.data_.length)
    (hf : 2 * m ≤ fuel) :
    ∃ h' tr, h.take_traced fuel = .ok ((some (slot h.storage_.data_ 1), h'), tr) ∧
      h.take fuel = .ok (some (slot h.storage_.data_ 1), h') ∧ h'.size_ = (m : Int) ∧
      AccessesWithin 1 ((m + 1 : Nat) : Int) tr ∧ NodesWithin 1 (m : Int) tr := by
  have key : ∃ h' tr, h.take_traced fuel = .ok ((some (slot h.storage_.data_ 1), h'), tr) ∧
      AccessesWithin 1 ((m + 1 : Nat) : Int) tr ∧ NodesWithin 1 (m : Int) tr := by
    rw [take_traced_eq fuel h m hsz hlen]
    by_cases h1 : 1 < m
    · rw [if_pos h1]
      obtain ⟨h', tr, hres, hacc, hnod, _⟩ :=
        heapify_down_traced_spec m (m - 1) 1 fuel (h.popped m) rfl rfl
          (by simp only [Heap.popped, List.length_set]; omega) (by omega) (by omega)
          (by omega)
      have hres' : HeapNode.heapify_down_traced fuel ⟨1⟩ (h.popped m) = .ok (h', tr) := hres
      rw [hres']
      refine ⟨h', _, rfl, ?_, ?_⟩
      · simp only [List.cons_append, List.nil_append, accessesWithin_cons_access,
          accessesWithin_cons_node]
        exact ⟨by omega, by omega, by omega, accessesWithin_mono (by omega) hacc⟩
      · simp only [List.cons_append, List.nil_append, nodesWithin_cons_access,
          nodesWithin_cons_node]
        exact ⟨Or.inr (by omega), hnod⟩
    · rw [if_neg h1]
      refine ⟨_, _, rfl, ?_, ?_⟩
      · simp only [accessesWithin_cons_access, accessesWithin_nil, and_true]
        omega
      · simp only [nodesWithin_cons_access, nodesWithin_nil]
  obtain ⟨h', tr, hres, hacc, hnod⟩ := key
  have hplain : h.take fuel = .ok (some (slot h.storage_.data_ 1), h') := by
    rw [← erase_take, hres]; rfl
  obtain ⟨h'', hres'', hsz'', _⟩ := take_spec fuel h m hsz hlen hf
  rw [hplain] at hres''
  cases hres''
  exact ⟨h', tr, hres, hplain, hsz'', hacc, hnod⟩

theorem reachable_bounds (fuel c : Nat) (h0 h : Heap) (hf : 2 * c ≤ fuel)
    (hfresh : h0 = Heap.new c ∨ h0 = MaxHeap.new c) (hr : Reachable fuel c h0 h) :
    0 ≤ h.size_ ∧ h.size_ ≤ (c : Int) ∧ h.storage_.data_.length = c + 1 := by
  induction hr with
  | fresh =>
    rcases hfresh with rfl | rfl
    · refine ⟨by simp [Heap.new], by simp [Heap.new], ?_⟩
      simp [Heap.new, ManagedDynamicArray.new]
    · refine ⟨by simp [MaxHeap.new, Heap.new], by simp [MaxHeap.new, Heap.new], ?_⟩
      simp [MaxHeap.new, Heap.new, ManagedDynamicArray.new]
  | store h h1 v _ hlt hres ih =>
    obtain ⟨hp, _, hl⟩ := ih
    obtain ⟨h', hres', hsz', _, hl', _⟩ :=
      store_spec fuel h v h.size_.toNat (by omega) (by omega) (by omega)
    rw [hres] at hres'
    cases hres'
    exact ⟨by omega, by omega, hl'.trans hl⟩
  | take h h1 r _ hres ih =>
    obtain ⟨hp, hc, hl⟩ := ih
    by_cases h0' : h.size_ = 0
    · rw [take_of_size_zero fuel h h0'] at hres
      cases hres
      exact ⟨hp, hc, hl⟩
    · obtain ⟨m, hm⟩ : ∃ m : Nat, h.size_ = ((m + 1 : Nat) : Int) :=
        ⟨h.size_.toNat - 1, by omega⟩
      obtain ⟨h', hres', hsz', _, hl', _⟩ :=
        take_spec fuel h m hm (by omega) (by omega)
      rw [hres] at hres'
      cases hres'
      exact ⟨by omega, by omega, hl'.trans hl⟩

theorem peek_traced_spec (h : Heap) (hpos : 0 ≤ h.size_)
    (hlen : h.size_ < h.storage_.data_.length) :
    ∃ r tr, h.peek_traced = .ok (r, tr) ∧ h.peek = .ok r ∧
      AccessesWithin 1 h.size_ tr := by
  by_cases h0 : h.size_ = 0
  · refine ⟨none, [], ?_, ?_, accessesWithin_nil _ _⟩
    · simp [Heap.peek_traced, h0]
    · simp [Heap.peek, h0]
  · have hr1 := index_read_ok h.storage_.data_ 1 (by omega)
    push_cast at hr1
    refine ⟨some (slot h.storage_.data_ 1), [Event.access 1], ?_, ?_, ?_⟩
    · simp [Heap.peek_traced, h0, ManagedDynamicArray.get, hr1]
    · simp [Heap.peek, h0, ManagedDynamicArray.get, hr1]
    · simp only [accessesWithin_cons_access, accessesWithin_nil, and_true]
      omega

theorem exists_iff_of_within (idx s : Int)
    (h : idx = INVALID_INDEX ∨ (1 ≤ idx ∧ idx ≤ s)) :
    (HeapNode.mk idx).exists = true ↔ 1 ≤ idx ∧ idx ≤ s := by
  simp only [HeapNode.exists, INVALID_INDEX, bne_iff_ne, ne_eq]
  simp only [INVALID_INDEX] at h
  constructor
  · intro hne
    rcases h with h | h
    · exact absurd h hne
    · exact h
  · intro hb
    omega

/-! ## Storage accesses, node handles and swap counts of the heap engine -/

/-- C23: starting from a freshly constructed heap (`Heap` or `MaxHeap`) of
capacity `c`, in every state reached by an interleaved sequence of `store` and
`take` calls (`store` issued only while `size_ < c`) the storage has `c + 1`
slots, and `store` (while `size_ < c`), `take` and `peek` return without a
fault, every read or write of `storage_` that they or their sifts
(`heapify_up`, `heapify_down`, `try_swap_value`) make being at an index in
`[1, c]`; the logged operations return what the operations return. -/
theorem heap_accesses_in_bounds (fuel c : Nat) (h0 h : Heap) (hf : 2 * c ≤ fuel)
    (hfresh : h0 = Heap.new c ∨ h0 = MaxHeap.new c) (hr : Reachable fuel c h0 h) :
    h.storage_.data_.length = c + 1 ∧
    (∀ v, h.size_ < (c : Int) →
      ∃ h1 tr, h.store_traced fuel v = .ok (h1, tr) ∧ h.store fuel v = .ok h1 ∧
        AccessesWithin 1 (c : Int) tr) ∧
    (∃ r h1 tr, h.take_traced fuel = .ok ((r, h1), tr) ∧ h.take fuel = .ok (r, h1) ∧
        AccessesWithin 1 (c : Int) tr) ∧
    (∃ r tr, h.peek_traced = .ok (r, tr) ∧ h.peek = .ok r ∧
        AccessesWithin 1 (c : Int) tr) := by
  obtain ⟨hp, hc, hl⟩ := reachable_bounds fuel c h0 h hf hfresh hr
  refine ⟨hl, ?_, ?_, ?_⟩
  · intro v hlt
    obtain ⟨h1, tr, hres, hplain, _, hacc, _⟩ :=
      store_traced_spec fuel h v h.size_.toNat (by omega) (by omega) (by omega)
    exact ⟨h1, tr, hres, hplain, accessesWithin_mono (by omega) hacc⟩
  · by_cases h0' : h.size_ = 0
    · exact ⟨none, h, [], take_traced_of_size_zero fuel h h0',
        take_of_size_zero fuel h h0', accessesWithin_nil _ _⟩
    · obtain ⟨m, hm⟩ : ∃ m : Nat, h.size_ = ((m + 1 : Nat) : Int) :=
        ⟨h.size_.toNat - 1, by omega⟩
      obtain ⟨h1, tr, hres, hplain, _, hacc, _⟩ :=
        take_traced_spec fuel h m hm (by omega) (by omega)
      exact ⟨_, h1, tr, hres, hplain, accessesWithin_mono (by omega) hacc⟩
  · obtain ⟨r, tr, hres, hplain, hacc⟩ := peek_traced_spec h hp (by omega)
    exact ⟨r, tr, hres, hplain, accessesWithin_mono hc hacc⟩

theorem heap_accesses_in_bounds_witness :
    (⟨2, ⟨[0, 3, 5], 3⟩, false⟩ : Heap).storage_.data_.length = 2 + 1 ∧
    (∀ v, (⟨2, ⟨[0, 3, 5], 3⟩, false⟩ : Heap).size_ < ((2 : Nat) : Int) →
      ∃ h1 tr, (⟨2, ⟨[0, 3, 5], 3⟩, false⟩ : Heap).store_traced 4 v = .ok (h1, tr) ∧
        (⟨2, ⟨[0, 3, 5], 3⟩, false⟩ : Heap).store 4 v = .ok h1 ∧
        AccessesWithin 1 ((2 : Nat) : Int) tr) ∧
    (∃ r h1 tr, (⟨2, ⟨[0, 3, 5], 3⟩, false⟩ : Heap).take_traced 4 = .ok ((r, h1), tr) ∧
        (⟨2, ⟨[0, 3, 5], 3⟩, false⟩ : Heap).take 4 = .ok (r, h1) ∧
        AccessesWithin 1 ((2 : Nat) : Int) tr) ∧
    (∃ r tr, (⟨2, ⟨[0, 3, 5], 3⟩, false⟩ : Heap).peek_traced = .ok (r, tr) ∧
        (⟨2, ⟨[0, 3, 5], 3⟩, false⟩ : Heap).peek = .ok r ∧
        AccessesWithin 1 ((2 : Nat) : Int) tr) :=
  heap_accesses_in_bounds 4 2 (Heap.new 2) ⟨2, ⟨[0, 3, 5], 3⟩, false⟩ (by decide)
    (Or.inl rfl)
    (Reachable.store ⟨1, ⟨[0, 5, 0], 3⟩, false⟩ _ 3
      (Reachable.store (Heap.new 2) _ 5 Reachable.fresh (by decide) (by decide))
      (by decide) (by decide))

/-- C25: during a `store` (issued while `size_ < capacity`) or a `take` on a
heap with `0 ≤ size_ ≤ capacity`, every `HeapNode` that is constructed
(directly, or by `left`, `right`, `parent`, `from_index`) has the sentinel index
`-1` or an index in `[1, size_]`, `size_` being the size the heap has when the
node is constructed, which is its size after the call; hence for each of these
nodes `exists()` is true iff the index is in `[1, size_]`.  A `store` at
`size_ = capacity` faults on its write, before it constructs any node. -/
theorem heap_nodes_valid (fuel c : Nat) (h : Heap)
    (hlen : h.storage_.data_.length = c + 1) (hpos : 0 ≤ h.size_)
    (hcap : h.size_ ≤ (c : Int)) (hf : 2 * c ≤ fuel) :
    (∀ v, h.size_ < (c : Int) →
      ∃ h1 tr, h.store_traced fuel v = .ok (h1, tr) ∧ h.store fuel v = .ok h1 ∧
        h1.size_ = h.size_ + 1 ∧ NodesWithin 1 h1.size_ tr ∧
        ∀ idx, Event.node idx ∈ tr →
          ((HeapNode.mk idx).exists = true ↔ 1 ≤ idx ∧ idx ≤ h1.size_)) ∧
    (∀ v, h.size_ = (c : Int) →
      h.store_traced fuel v = .error (.out_of_bounds ((c : Int) + 1))) ∧
    (∃ r h1 tr, h.take_traced fuel = .ok ((r, h1), tr) ∧ h.take fuel = .ok (r, h1) ∧
        (h1.size_ = h.size_ - 1 ∨ (h.size_ = 0 ∧ h1.size_ = 0)) ∧
        NodesWithin 1 h1.size_ tr ∧
        ∀ idx, Event.node idx ∈ tr →
          ((HeapNode.mk idx).exists = true ↔ 1 ≤ idx ∧ idx ≤ h1.size_)) := by
  refine ⟨?_, ?_, ?_⟩
  · intro v hlt
    obtain ⟨h1, tr, hres, hplain, hsz, _, hnod⟩ :=
      store_traced_spec fuel h v h.size_.toNat (by omega) (by omega) (by omega)
    have hs : h1.size_ = h.size_ + 1 := by omega
    have hnod' : NodesWithin 1 h1.size_ tr := by rw [hsz]; exact hnod
    exact ⟨h1, tr, hres, hplain, hs, hnod',
      fun idx hm => exists_iff_of_within idx _ (hnod' idx hm)⟩
  · intro v heq
    have hw := index_write_oob h.storage_.data_ ((c : Int) + 1) v (Or.inr (by omega))
    simp only [Heap.store_traced, ManagedDynamicArray.set, heq, hw]
  · by_cases h0' : h.size_ = 0
    · refine ⟨none, h, [], take_traced_of_size_zero fuel h h0',
        take_of_size_zero fuel h h0', Or.inr ⟨h0', h0'⟩, nodesWithin_nil _ _, ?_⟩
      intro idx hm
      simp at hm
    · obtain ⟨m, hm⟩ : ∃ m : Nat, h.size_ = ((m + 1 : Nat) : Int) :=
        ⟨h.size_.toNat - 1, by omega⟩
      obtain ⟨h1, tr, hres, hplain, hsz, _, hnod⟩ :=
        take_traced_spec fuel h m hm (by omega) (by omega)
      have hnod' : NodesWithin 1 h1.size_ tr := by rw [hsz]; exact hnod
      exact ⟨_, h1, tr, hres, hplain, Or.inl (by omega), hnod',
        fun idx hm => exists_iff_of_within idx _ (hnod' idx hm)⟩

theorem heap_nodes_valid_witness :
    ∃ r h1 tr, (⟨5, ⟨[0, 1, 3, 8, 5, 9], 6⟩, false⟩ : Heap).take_traced 10
        = .ok ((r, h1), tr) ∧
      (⟨5, ⟨[0, 1, 3, 8, 5, 9], 6⟩, false⟩ : Heap).take 10 = .ok (r, h1) ∧
      (h1.size_ = (⟨5, ⟨[0, 1, 3, 8, 5, 9], 6⟩, false⟩ : Heap).size_ - 1 ∨
        ((⟨5, ⟨[0, 1, 3, 8, 5, 9], 6⟩, false⟩ : Heap).size_ = 0 ∧ h1.size_ = 0)) ∧
      NodesWithin 1 h1.size_ tr ∧
      ∀ idx, Event.node idx ∈ tr →
        ((HeapNode.mk idx).exists = true ↔ 1 ≤ idx ∧ idx ≤ h1.size_) :=
  (heap_nodes_valid 10 5 ⟨5, ⟨[0, 1, 3, 8, 5, 9], 6⟩, false⟩ (by decide) (by decide)
    (by decide) (by decide)).2.2

/-- C26: for every heap state, `heapify_up` and `heapify_down` invoked on a node
whose index is the sentinel `-1`, and `try_swap_value` invoked on such a node or
with such a partner, return the heap as it was (storage, size and kind), and
their logs hold no storage access and no swap. -/
theorem invalid_node_noop (fuel : Nat) (heap : Heap) (n other : HeapNode)
    (dir : HeapifyDirection) :
    HeapNode.try_swap_value_traced (fuel + 1) ⟨INVALID_INDEX⟩ heap other dir
      = .ok (heap, []) ∧
    HeapNode.try_swap_value_traced (fuel + 1) n heap ⟨INVALID_INDEX⟩ dir
      = .ok (heap, []) ∧
    HeapNode.try_swap_value (fuel + 1) ⟨INVALID_INDEX⟩ heap other dir = .ok heap ∧
    HeapNode.try_swap_value (fuel + 1) n heap ⟨INVALID_INDEX⟩ dir = .ok heap ∧
    (∃ tr, HeapNode.heapify_up_traced (fuel + 2) ⟨INVALID_INDEX⟩ heap = .ok (heap, tr) ∧
      (∀ idx, Event.access idx ∉ tr) ∧ swaps tr = 0) ∧
    HeapNode.heapify_up (fuel + 2) ⟨INVALID_INDEX⟩ heap = .ok heap ∧
    (∃ tr, HeapNode.heapify_down_traced (fuel + 2) ⟨INVALID_INDEX⟩ heap = .ok (heap, tr) ∧
      (∀ idx, Event.access idx ∉ tr) ∧ swaps tr = 0) ∧
    HeapNode.heapify_down (fuel + 2) ⟨INVALID_INDEX⟩ heap = .ok heap := by
  have hself : ∀ (f : Nat) (o : HeapNode) (d : HeapifyDirection),
      HeapNode.try_swap_value_traced (f + 1) ⟨INVALID_INDEX⟩ heap o d = .ok (heap, []) := by
    intro f o d
    simp [HeapNode.try_swap_value_traced, HeapNode.exists]
  have hup : HeapNode.heapify_up_traced (fuel + 2) ⟨INVALID_INDEX⟩ heap
      = .ok (heap, [Event.node (HeapNode.parent ⟨INVALID_INDEX⟩).index_]) := by
    simp only [HeapNode.heapify_up_traced, hself]
    rfl
  have hdown : ∃ tr, HeapNode.heapify_down_traced (fuel + 2) ⟨INVALID_INDEX⟩ heap
      = .ok (heap, tr) ∧ (∀ idx, Event.access idx ∉ tr) ∧ swaps tr = 0 := by
    have hr : (HeapNode.right ⟨INVALID_INDEX⟩ heap).exists = false := by
      simp [HeapNode.right, HeapNode.from_index, HeapNode.exists]
    by_cases hl : (HeapNode.left ⟨INVALID_INDEX⟩ heap).exists = true
    · refine ⟨[Event.node (HeapNode.left ⟨INVALID_INDEX⟩ heap).index_,
          Event.node (HeapNode.right ⟨INVALID_INDEX⟩ heap).index_], ?_, ?_, rfl⟩
      · simp only [HeapNode.heapify_down_traced, hr, hl, hself]
        simp [logged]
      · intro idx hm
        simp at hm
    · refine ⟨[Event.node (HeapNode.left ⟨INVALID_INDEX⟩ heap).index_,
          Event.node (HeapNode.right ⟨INVALID_INDEX⟩ heap).index_], ?_, ?_, rfl⟩
      · simp only [HeapNode.heapify_down_traced, hr, hl]
        simp
      · intro idx hm
        simp at hm
  refine ⟨hself fuel other dir, try_swap_value_traced_invalid fuel heap n dir, ?_,
    try_swap_value_invalid fuel heap n dir, ⟨_, hup, ?_, rfl⟩, ?_, hdown, ?_⟩
  · rw [← (erase_sifts (fuel + 1)).2.2, hself]; rfl
  · intro idx hm
    simp at hm
  · rw [← (erase_sifts (fuel + 2)).2.1, hup]; rfl
  · obtain ⟨tr, hres, _⟩ := hdown
    rw [← (erase_sifts (fuel + 2)).1, hres]; rfl

/-- C27: for every heap with `size_ ≥ 1` (held in a storage of more than `size_`
slots) and every index `i` in `[1, size_]`, `heapify_up` started at `i` returns,
given fuel `2 i`: the recursion ends at the root at the latest, whose parent is
the invalid node; each swap halves the index, so the number `s` of value swaps
satisfies `2 ^ s ≤ i`, hence `s ≤ ⌈log2 size_⌉`. -/
theorem heapify_up_swaps_bound (fuel : Nat) (heap : Heap) (i : Nat) (hi : 1 ≤ i)
    (hin : (i : Int) ≤ heap.size_) (hlen : heap.size_ < heap.storage_.data_.length)
    (hf : 2 * i ≤ fuel) :
    ∃ heap' tr, HeapNode.heapify_up_traced fuel ⟨(i : Int)⟩ heap = .ok (heap', tr) ∧
      HeapNode.heapify_up fuel ⟨(i : Int)⟩ heap = .ok heap' ∧
      2 ^ swaps tr ≤ i ∧ swaps tr ≤ Nat.clog 2 heap.size_.toNat ∧
      (HeapNode.parent ⟨ROOT_INDEX⟩).exists = false := by
  obtain ⟨heap', tr, hres, _, _, hsw⟩ :=
    heapify_up_traced_spec i fuel heap (by omega) hi hf
  refine ⟨heap', tr, hres, ?_, hsw, ?_, rfl⟩
  · rw [← (erase_sifts fuel).2.1, hres]; rfl
  · have h1 : 2 ^ swaps tr ≤ heap.size_.toNat := by omega
    exact (Nat.le_log_of_pow_le (by decide) h1).trans (Nat.log_le_clog _ _)

theorem heapify_up_swaps_bound_witness :
    ∃ heap' tr, HeapNode.heapify_up_traced 10 ⟨((5 : Nat) : Int)⟩
        ⟨5, ⟨[0, 1, 3, 8, 5, 0], 6⟩, false⟩ = .ok (heap', tr) ∧
      HeapNode.heapify_up 10 ⟨((5 : Nat) : Int)⟩ ⟨5, ⟨[0, 1, 3, 8, 5, 0], 6⟩, false⟩
        = .ok heap' ∧
      2 ^ swaps tr ≤ 5 ∧
      swaps tr ≤ Nat.clog 2 (⟨5, ⟨[0, 1, 3, 8, 5, 0], 6⟩, false⟩ : Heap).size_.toNat ∧
      (HeapNode.parent ⟨ROOT_INDEX⟩).exists = false :=
  heapify_up_swaps_bound 10 ⟨5, ⟨[0, 1, 3, 8, 5, 0], 6⟩, false⟩ 5 (by decide) (by decide)
    (by decide) (by decide)

/-- C28: for every heap with `size_ ≥ 1` (held in a storage of more than `size_`
slots) and every index `i` in `[1, size_]`, `heapify_down` started at `i`
returns, given fuel `2 (size_ - i) + 1`: the recursion ends at a node without
children at the latest; each swap doubles the index at least, so the number `s`
of value swaps satisfies `i * 2 ^ s ≤ size_`, hence `s ≤ ⌊log2 size_⌋`. -/
theorem heapify_down_swaps_bound (fuel : Nat) (heap : Heap) (i : Nat) (hi : 1 ≤ i)
    (hin : (i : Int) ≤ heap.size_) (hlen : heap.size_ < heap.storage_.data_.length)
    (hf : 2 * (heap.size_.toNat - i) + 1 ≤ fuel) :
    ∃ heap' tr, HeapNode.heapify_down_traced fuel ⟨(i : Int)⟩ heap = .ok (heap', tr) ∧
      HeapNode.heapify_down fuel ⟨(i : Int)⟩ heap = .ok heap' ∧
      i * 2 ^ swaps tr ≤ heap.size_.toNat ∧ swaps tr ≤ Nat.log 2 heap.size_.toNat := by
  obtain ⟨heap', tr, hres, _, _, hsw⟩ :=
    heapify_down_traced_spec heap.size_.toNat (heap.size_.toNat - i) i fuel heap rfl
      (by omega) (by omega) hi (by omega) hf
  refine ⟨heap', tr, hres, ?_, hsw, ?_⟩
  · rw [← (erase_sifts fuel).1, hres]; rfl
  · have h1 : 1 * 2 ^ swaps tr ≤ i * 2 ^ swaps tr := Nat.mul_le_mul_right _ hi
    exact Nat.le_log_of_pow_le (by decide) (by omega)

theorem heapify_down_swaps_bound_witness :
    ∃ heap' tr, HeapNode.heapify_down_traced 10 ⟨((1 : Nat) : Int)⟩
        ⟨4, ⟨[0, 9, 3, 8, 5, 9], 6⟩, false⟩ = .ok (heap', tr) ∧
      HeapNode.heapify_down 10 ⟨((1 : Nat) : Int)⟩ ⟨4, ⟨[0, 9, 3, 8, 5, 9], 6⟩, false⟩
        = .ok heap' ∧
      1 * 2 ^ swaps tr ≤ (⟨4, ⟨[0, 9, 3, 8, 5, 9], 6⟩, false⟩ : Heap).size_.toNat ∧
      swaps tr ≤ Nat.log 2 (⟨4, ⟨[0, 9, 3, 8, 5, 9], 6⟩, false⟩ : Heap).size_.toNat :=
  heapify_down_swaps_bound 10 ⟨4, ⟨[0, 9, 3, 8, 5, 9], 6⟩, false⟩ 1 (by decide)
    (by decide) (by decide) (by decide)

/-! ## The write after the inner loop of insertion sort -/

/-- Whenever the inner loop of insertion sort is left, the moving value is in
slot `j + 1`. -/
theorem shift_loop_keeps_old (old : Int) :
    ∀ (fuel m : Nat) (arr out : List Int) (j1 : Int), m < arr.length → slot arr m = old →
      InsertionSorter.shift_loop old fuel arr ((m : Int) - 1) = .ok (out, j1) →
      out.length = arr.length ∧ -1 ≤ j1 ∧ j1 < (m : Int) ∧
        slot out (j1 + 1).toNat = old := by
  intro fuel
  induction fuel with
  | zero =>
    intro m arr out j1 _ _ hres
    simp [InsertionSorter.shift_loop] at hres
  | succ f ih =>
    intro m arr out j1 hm hold hres
    cases m with
    | zero =>
      simp [InsertionSorter.shift_loop] at hres
      obtain ⟨rfl, rfl⟩ := hres
      exact ⟨rfl, le_refl _, by omega, by simpa using hold⟩
    | succ m =>
      have ej : ((m + 1 : Nat) : Int) - 1 = (m : Int) := by omega
      have ej1 : (m : Int) + 1 = ((m + 1 : Nat) : Int) := by omega
      have hge : (m : Int) ≥ 0 := by omega
      rw [ej] at hres
      by_cases hv : slot arr m > old
      · simp only [InsertionSorter.shift_loop, hge, if_true, index_read_ok arr m (by omega),
          hv, ej1, swap_values_ok arr m (m + 1) (by omega) (by omega)] at hres
        have hsl : slot (swapSlots arr m (m + 1)) m = old := by
          rw [slot_swapSlots _ _ _ _ (by omega) (by omega), if_neg (by omega), if_pos rfl]
          exact hold
        obtain ⟨h1, h2, h3, h4⟩ :=
          ih m (swapSlots arr m (m + 1)) out j1 (by rw [length_swapSlots]; omega) hsl hres
        exact ⟨h1.trans (length_swapSlots _ _ _), h2, by omega, h4⟩
      · simp only [InsertionSorter.shift_loop, hge, if_true, index_read_ok arr m (by omega),
          hv, if_false, Except.ok.injEq, Prod.mk.injEq] at hres
        obtain ⟨rfl, rfl⟩ := hres
        refine ⟨rfl, by omega, by omega, ?_⟩
        rw [ej1, Int.toNat_ofNat]
        exact hold

theorem index_read_eq_ok (d : List Int) (i v : Int) (h : index_read d i = .ok v) :
    0 ≤ i ∧ i.toNat < d.length ∧ v = slot d i.toNat := by
  by_cases hr : i < 0 ∨ (d.length : Int) ≤ i
  · rw [index_read_oob d i hr] at h
    cases h
  · have h1 := index_read_ok d i.toNat (by omega)
    have e : ((i.toNat : Nat) : Int) = i := by omega
    rw [e, h] at h1
    cases h1
    exact ⟨by omega, by omega, rfl⟩

theorem sort_body_eq_no_write (fuel : Nat) (i : Int) (ary : List Int) :
    InsertionSorter.sort_body fuel i ary = InsertionSorter.sort_body_no_write fuel i ary := by
  unfold InsertionSorter.sort_body InsertionSorter.sort_body_no_write
  cases hr : index_read ary i with
  | error e => rfl
  | ok old =>
    obtain ⟨h0, hlt, hold⟩ := index_read_eq_ok ary i old hr
    cases hs : InsertionSorter.shift_loop old fuel ary (i - 1) with
    | error e => simp only [hs]
    | ok p =>
      obtain ⟨out, j1⟩ := p
      simp only [hs]
      have e : i - 1 = ((i.toNat : Nat) : Int) - 1 := by omega
      rw [e] at hs
      obtain ⟨hlen, hj1, hj2, hat⟩ :=
        shift_loop_keeps_old old fuel i.toNat ary out j1 hlt hold.symm hs
      by_cases hshift : j1 = i - 1
      · simp [hshift]
      · have hne : (j1 != i - 1) = true := by simpa using hshift
        obtain ⟨t, ht⟩ : ∃ t : Nat, j1 + 1 = (t : Int) := ⟨(j1 + 1).toNat, by omega⟩
        rw [ht, Int.toNat_ofNat] at hat
        simp only [hne, if_true, ht, index_write_ok out t _ (by omega)]
        rw [← hat, set_slot_self]

/-- C32: in `InsertionSorter::sort` the conditional write `ary[j + 1] = old`
after the inner loop never changes the array: whenever the inner loop is left,
`ary[j + 1]` is in bounds and already holds `old`, so the write stores the value
that is there; the sorter computes, for every array and every fuel, what the
same loops compute with that write removed, and with fuel `length(ary)` both
return the same sorted permutation of the input. -/
theorem insertion_write_redundant (fuel : Nat) (ary : List Int) :
    InsertionSorter.sort fuel ary = InsertionSorter.sort_no_write fuel ary ∧
    (∀ (i : Nat) (arr out : List Int) (j1 : Int), i < arr.length →
      InsertionSorter.shift_loop (slot arr i) fuel arr ((i : Int) - 1) = .ok (out, j1) →
      index_read out (j1 + 1) = .ok (slot arr i) ∧
      index_write out (j1 + 1) (slot arr i) = .ok out) ∧
    (ary.length ≤ fuel →
      ∃ out, InsertionSorter.sort_no_write fuel ary = .ok out ∧
        InsertionSorter.sort fuel ary = .ok out ∧ out.Sorted (· ≤ ·) ∧ out.Perm ary) := by
  have heq : InsertionSorter.sort fuel ary = InsertionSorter.sort_no_write fuel ary := by
    have hb : InsertionSorter.sort_body fuel = InsertionSorter.sort_body_no_write fuel := by
      funext i a
      exact sort_body_eq_no_write fuel i a
    unfold InsertionSorter.sort InsertionSorter.sort_no_write
    rw [hb]
  refine ⟨heq, ?_, ?_⟩
  · intro i arr out j1 hi hres
    obtain ⟨hlen, hj1, hj2, hat⟩ :=
      shift_loop_keeps_old (slot arr i) fuel i arr out j1 hi rfl hres
    obtain ⟨t, ht⟩ : ∃ t : Nat, j1 + 1 = (t : Int) := ⟨(j1 + 1).toNat, by omega⟩
    rw [ht, Int.toNat_ofNat] at hat
    rw [ht, index_read_ok out t (by omega), index_write_ok out t _ (by omega), hat, ← hat,
      set_slot_self]
    exact ⟨rfl, rfl⟩
  · intro hf
    obtain ⟨out, hres, hs, hp⟩ := insertion_sort_spec fuel ary hf
    exact ⟨out, heq ▸ hres, hres, hs, hp⟩

theorem insertion_write_redundant_witness :
    InsertionSorter.sort 4 [3, 1, 2, 0] = InsertionSorter.sort_no_write 4 [3, 1, 2, 0] ∧
    InsertionSorter.sort_no_write 4 [3, 1, 2, 0] = .ok [0, 1, 2, 3] :=
  ⟨(insertion_write_redundant 4 [3, 1, 2, 0]).1, by decide!⟩

/-! ## The passes of bubble sort -/

theorem sort_while_traced_fst : ∀ (fuel : Nat) (ary : List Int),
    (BubbleSorter.sort_while_traced fuel ary).map Prod.fst
      = BubbleSorter.sort_while fuel ary := by
  intro fuel
  induction fuel with
  | zero => intro ary; rfl
  | succ f ih =>
    intro ary
    simp only [BubbleSorter.sort_while_traced, BubbleSorter.sort_while]
    cases hp : BubbleSorter.ltr_sort ary with
    | error e => rfl
    | ok p =>
      obtain ⟨ary1, sw⟩ := p
      cases sw with
      | false => rfl
      | true =>
        simp only [if_true]
        rw [← ih ary1]
        cases hr : BubbleSorter.sort_while_traced f ary1 with
        | error e => rfl
        | ok q => rfl

theorem settled_zero (a : List Int) : Settled 0 a := by
  intro i j _ hj hn
  omega

theorem settled_of_sorted (k : Nat) (a : List Int) (h : a.Sorted (· ≤ ·)) :
    Settled k a := by
  intro i j hij hj _
  exact slots_le_of_sorted a h i j hij hj

theorem sorted_of_settled (k : Nat) (a : List Int) (h : Settled k a)
    (hk : a.length ≤ k + 1) : a.Sorted (· ≤ ·) := by
  apply sorted_of_adjacent
  intro j hj
  exact h j (j + 1) (by omega) hj (by omega)

/-- One left-to-right pass on an array whose last `k` slots are settled leaves
these slots alone and settles the slot before them. -/
theorem ltr_sort_settles (a : List Int) (k : Nat) (hS : Settled k a) :
    ∃ (out : List Int) (sw : Bool), BubbleSorter.ltr_sort a = .ok (out, sw) ∧
      out.length = a.length ∧ Settled (k + 1) out ∧
      ∀ j, a.length ≤ j + k → slot out j = slot a j := by
  obtain ⟨st, hres, hI⟩ := for_loop_inv 1 (a.length : Int) BubbleSorter.ltr_body
      (fun t st => st.1.length = a.length ∧
        (∀ j, (t < j ∨ a.length ≤ j + k) → slot st.1 j = slot a j) ∧
        (∀ i, i + k < a.length → ∃ i', i' + k < a.length ∧ slot st.1 i = slot a i') ∧
        (∀ i j, i ≤ j → j ≤ t → (j = t ∨ a.length ≤ j + k + 1) →
          slot st.1 i ≤ slot st.1 j))
      (a, false)
      ⟨rfl, fun _ _ => rfl, fun i hi => ⟨i, hi, rfl⟩, fun i j hij hj _ => by
        have h1 : i = j := by omega
        rw [h1]⟩
      (by
        rintro t ⟨arr, sw⟩ ht ⟨hlen, hfix, hfrom, hmax⟩
        simp only at hlen hfix hfrom hmax
        have ht1 : t + 1 < arr.length := by omega
        rw [ltr_body_eq arr sw t ht1]
        by_cases hgt : slot arr t > slot arr (t + 1)
        · rw [if_pos hgt]
          have hun : t + 1 + k < a.length := by
            by_contra hc
            have h1 : slot arr (t + 1) = slot a (t + 1) := hfix (t + 1) (Or.inl (by omega))
            by_cases hts : a.length ≤ t + k
            · have h2 : slot arr t = slot a t := hfix t (Or.inr hts)
              have := hS t (t + 1) (by omega) (by omega) (by omega)
              omega
            · obtain ⟨i', hi', he⟩ := hfrom t (by omega)
              have := hS i' (t + 1) (by omega) (by omega) (by omega)
              omega
          have hsl : ∀ x, slot (swapSlots arr t (t + 1)) x
              = if x = t + 1 then slot arr t else if x = t then slot arr (t + 1)
                else slot arr x :=
            fun x => slot_swapSlots _ _ _ _ (by omega) (by omega)
          refine ⟨_, rfl, ?_, ?_, ?_, ?_⟩
          · simp only [length_swapSlots]; exact hlen
          · intro j hj
            simp only
            rw [hsl j, if_neg (by omega), if_neg (by omega)]
            exact hfix j (by omega)
          · intro i hi
            simp only
            rw [hsl i]
            by_cases h1 : i = t + 1
            · rw [if_pos h1]
              exact hfrom t (by omega)
            · rw [if_neg h1]
              by_cases h2 : i = t
              · rw [if_pos h2]
                exact hfrom (t + 1) hun
              · rw [if_neg h2]
                exact hfrom i hi
          · intro i j hij hj hor
            simp only
            have hj1 : j = t + 1 := by omega
            subst hj1
            rw [hsl i, hsl (t + 1), if_pos rfl]
            by_cases h1 : i = t + 1
            · rw [if_pos h1]
            · rw [if_neg h1]
              by_cases h2 : i = t
              · rw [if_pos h2]
                exact le_of_lt hgt
              · rw [if_neg h2]
                exact hmax i t (by omega) (le_refl _) (Or.inl rfl)
        · rw [if_neg hgt]
          refine ⟨_, rfl, hlen, ?_, hfrom, ?_⟩
          · intro j hj
            exact hfix j (by omega)
          · intro i j hij hj hor
            simp only
            by_cases hj1 : j = t + 1
            · subst hj1
              by_cases h1 : i = t + 1
              · rw [h1]
              · exact le_trans (hmax i t (by omega) (le_refl _) (Or.inl rfl)) (not_lt.1 hgt)
            · exact hmax i j hij (by omega) (Or.inr (by omega)))
  obtain ⟨hlen, hfix, _, hmax⟩ := hI
  refine ⟨st.1, st.2, hres, hlen, ?_, ?_⟩
  · intro i j hij hj hn
    exact hmax i j hij (by omega) (Or.inr (by omega))
  · intro j hj
    exact hfix j (Or.inr hj)

/-- From an array whose last `k` slots are settled, the loop of bubble sort
runs at most `length - k` passes (one at least), each settling one more
slot. -/
theorem bubble_while_traced_spec :
    ∀ (d k fuel : Nat) (a : List Int), 1 ≤ d → a.length ≤ k + d → d ≤ fuel →
      Settled k a →
      ∃ (out : List Int) (tr : List (List Int × Bool)),
        BubbleSorter.sort_while_traced fuel a = .ok (out, tr) ∧
        out.Sorted (· ≤ ·) ∧ out.Perm a ∧ 1 ≤ tr.length ∧ tr.length ≤ d ∧
        (∀ j, a.length ≤ j + k → slot out j = slot a j) ∧
        ∀ (m : Nat) (b : List Int) (sw : Bool), tr[m]? = some (b, sw) →
          (sw = false ↔ m + 1 = tr.length) ∧ b.Perm a ∧ Settled (k + m + 1) b ∧
          ∀ j, a.length ≤ j + (k + m + 1) → slot b j = slot out j := by
  intro d
  induction d with
  | zero => intro k fuel a hd; omega
  | succ d ih =>
    intro k fuel a _ hn hf hS
    obtain ⟨f, rfl⟩ : ∃ f, fuel = f + 1 := ⟨fuel - 1, by omega⟩
    obtain ⟨out1, sw, hres, hperm, hlen, hfalse, htrue⟩ := ltr_sort_spec a
    obtain ⟨out1', sw', hres', _, hS', hfix⟩ := ltr_sort_settles a k hS
    rw [hres] at hres'
    cases hres'
    cases sw with
    | false =>
      obtain ⟨he, hs⟩ := hfalse rfl
      subst he
      refine ⟨out1, [(out1, false)], ?_, hs, List.Perm.refl _, by simp, by simp,
        fun _ _ => rfl, ?_⟩
      · simp [BubbleSorter.sort_while_traced, hres]
      · intro m b sw hm
        cases m with
        | zero =>
          simp only [List.getElem?_cons_zero, Option.some.injEq, Prod.mk.injEq] at hm
          obtain ⟨rfl, rfl⟩ := hm
          exact ⟨by simp, List.Perm.refl _, settled_of_sorted _ _ hs, fun _ _ => rfl⟩
        | succ m => simp at hm
    | true =>
      have hlt := htrue rfl
      have hd : 1 ≤ d := by
        by_contra hc
        have hs := sorted_of_settled k a hS (by omega)
        have := inversions_eq_zero_of_sorted a hs
        omega
      obtain ⟨out, tr, hres2, hs2, hp2, hl1, hl2, hfix2, htr⟩ :=
        ih (k + 1) f out1 hd (by omega) (by omega) hS'
      refine ⟨out, (out1, true) :: tr, ?_, hs2, hp2.trans hperm, by simp,
        by simp only [List.length_cons]; omega, ?_, ?_⟩
      · simp [BubbleSorter.sort_while_traced, hres, hres2]
      · intro j hj
        rw [hfix2 j (by omega), hfix j hj]
      · intro m b sw hm
        cases m with
        | zero =>
          simp only [List.getElem?_cons_zero, Option.some.injEq, Prod.mk.injEq] at hm
          obtain ⟨rfl, rfl⟩ := hm
          refine ⟨?_, hperm, hS', ?_⟩
          · simp only [List.length_cons]
            constructor
            · intro h; cases h
            · intro h; omega
          · intro j hj
            exact (hfix2 j (by omega)).symm
        | succ m =>
          simp only [List.getElem?_cons_succ] at hm
          obtain ⟨h1, h2, h3, h4⟩ := htr m b sw hm
          refine ⟨?_, h2.trans hperm, ?_, ?_⟩
          · rw [h1]
            simp only [List.length_cons]
            omega
          · have e : k + (m + 1) + 1 = k + 1 + m + 1 := by omega
            rw [e]; exact h3
          · intro j hj
            exact h4 j (by omega)

/-- C31: for every array of length `n ≥ 2`, the loop of `BubbleSorter::sort`
runs at most `n` left-to-right passes, the last of which is the one that
reports no swap (fuel `n`, one unit per pass, suffices for the sorter to
return its sorted output); after the `k`-th pass the last `k` slots hold the
values they hold in the output, which are the `k` largest, in order. -/
theorem bubble_passes_bound (fuel : Nat) (ary : List Int) (hn : 2 ≤ ary.length)
    (hf : ary.length ≤ fuel) :
    ∃ (out : List Int) (tr : List (List Int × Bool)),
      BubbleSorter.sort_traced fuel ary = .ok (out, tr) ∧
      BubbleSorter.sort fuel ary = .ok out ∧ out.Sorted (· ≤ ·) ∧ out.Perm ary ∧
      1 ≤ tr.length ∧ tr.length ≤ ary.length ∧
      ∀ (k : Nat) (b : List Int) (sw : Bool), tr[k]? = some (b, sw) →
        (sw = false ↔ k + 1 = tr.length) ∧ b.Perm ary ∧
        (∀ j, ary.length ≤ j + (k + 1) → j < ary.length → slot b j = slot out j) ∧
        (∀ i j, i ≤ j → j < ary.length → ary.length ≤ j + (k + 1) →
          slot b i ≤ slot b j) := by
  obtain ⟨out, tr, hres, hs, hp, hl1, hl2, _, htr⟩ :=
    bubble_while_traced_spec ary.length 0 fuel ary (by omega) (by omega) hf
      (settled_zero ary)
  have h2 : ¬ ((ary.length : Int) < 2) := by omega
  have hplain : BubbleSorter.sort fuel ary = .ok out := by
    unfold BubbleSorter.sort
    simp only [h2, if_false]
    rw [← sort_while_traced_fst, hres]
    rfl
  refine ⟨out, tr, ?_, hplain, hs, hp, hl1, hl2, ?_⟩
  · unfold BubbleSorter.sort_traced
    simp only [h2, if_false]
    exact hres
  · intro k b sw hk
    obtain ⟨h1, h2', h3, h4⟩ := htr k b sw hk
    have hbl : b.length = ary.length := h2'.length_eq
    refine ⟨h1, h2', fun j hj _ => h4 j (by omega), ?_⟩
    intro i j hij hj hn'
    exact h3 i j hij (by omega) (by omega)

theorem bubble_passes_bound_witness :
    BubbleSorter.sort_traced 4 [4, 3, 2, 1]
      = .ok ([1, 2, 3, 4], [([3, 2, 1, 4], true), ([2, 1, 3, 4], true),
          ([1, 2, 3, 4], true), ([1, 2, 3, 4], false)]) ∧
    BubbleSorter.sort 3 [4, 3, 2, 1] = .error .out_of_fuel ∧
    ∃ (out : List Int) (tr : List (List Int × Bool)),
      BubbleSorter.sort_traced 4 [4, 3, 2, 1] = .ok (out, tr) ∧
      BubbleSorter.sort 4 [4, 3, 2, 1] = .ok out ∧ out.Sorted (· ≤ ·) ∧
      out.Perm [4, 3, 2, 1] ∧
      1 ≤ tr.length ∧ tr.length ≤ [4, 3, 2, 1].length ∧
      ∀ (k : Nat) (b : List Int) (sw : Bool), tr[k]? = some (b, sw) →
        (sw = false ↔ k + 1 = tr.length) ∧ b.Perm [4, 3, 2, 1] ∧
        (∀ j, [4, 3, 2, 1].length ≤ j + (k + 1) → j < [4, 3, 2, 1].length →
          slot b j = slot out j) ∧
        (∀ i j, i ≤ j → j < [4, 3, 2, 1].length → [4, 3, 2, 1].length ≤ j + (k + 1) →
          slot b i ≤ slot b j) :=
  ⟨by decide!, by decide!, bubble_passes_bound 4 [4, 3, 2, 1] (by decide) (by decide)⟩

end CppSort
